import Mathlib

/-!
The schema translation core of grpc-mcp-gateway.

A shallow embedding of `cmd/protoc-gen-mcp-gateway/schema.go` (Annotation
Extractor and Schema Builder) and of `runtime/convert.go` (Value Transcoder),
followed by theorems about them.

Conventions of the embedding:

* Go byte slices are `List Byte`; unsigned 64-bit arithmetic is `Nat` with an
  explicit `% 2 ^ 64` where the Go code can wrap.
* Go `map[string]any` is an association list with unique keys, kept in
  insertion order; `m[k] = v` is `mapSet`, `delete(m, k)` is `mapDelete`.
  Equal association lists denote equal Go maps.
* The descriptor graph is a table of messages; `field.Message` is an index into
  the table, so cyclic graphs are ordinary finite values.
* Recursive Go functions take a `fuel` argument bounding the depth of the Go
  call stack; `Outcome.outOfFuel` stands for a recursion that did not finish
  within that depth and `Outcome.panic` for a Go run-time panic.
-/

namespace Gateway

/-! ## Outcomes of a Go call -/

/-- Result of running a Go function: a returned value, a run-time panic, or a
recursion still unfinished when the fuel ran out. -/
inductive Outcome (α : Type) where
  | ok (a : α)
  | panic
  | outOfFuel
  deriving DecidableEq, Repr

/-! ## protowire: the wire-format primitives used by the extractor

`google.golang.org/protobuf/encoding/protowire` is an external library; the
definitions below follow its source. A negative length returned by the Go
functions is `none` here. -/

abbrev Byte := Fin 256

/-- Body of `protowire.ConsumeVarint`, whose ten unrolled steps are indexed by
`i`; `v` is the value accumulated so far. Step `i` adds `y << (7*i)`; steps
0..8 return when the continuation bit is clear and otherwise subtract
`0x80 << (7*i)`; step 9 accepts only `y < 2` (else `errCodeOverflow`). An
exhausted input is `errCodeTruncated`. -/
def ConsumeVarintFrom (i : Nat) (v : Nat) : List Byte → Option (Nat × Nat)
  | [] => none
  | y :: rest =>
    let v := (v + y.val * 2 ^ (7 * i)) % 2 ^ 64
    if i < 9 then
      if y.val < 0x80 then some (v, i + 1)
      else ConsumeVarintFrom (i + 1) (v - 0x80 * 2 ^ (7 * i)) rest
    else
      if y.val < 2 then some (v, 10) else none

/-- The function `protowire.ConsumeVarint`: the decoded value and the number of
bytes read. -/
def ConsumeVarint (b : List Byte) : Option (Nat × Nat) :=
  ConsumeVarintFrom 0 0 b

/-- The function `protowire.DecodeTag`: `x >> 3` is the field number (`-1` when
it exceeds `math.MaxInt32`), `x & 7` the wire type. -/
def DecodeTag (x : Nat) : Int × Nat :=
  if x / 8 > 2 ^ 31 - 1 then (-1, 0) else ((x / 8 : Nat), x % 8)

/-- The function `protowire.ConsumeTag`: field number, wire type, bytes read;
a field number below `MinValidNumber = 1` is `errCodeFieldNumber`. -/
def ConsumeTag (b : List Byte) : Option (Int × Nat × Nat) :=
  match ConsumeVarint b with
  | none => none
  | some (v, n) =>
    let (num, typ) := DecodeTag v
    if num < 1 then none else some (num, typ, n)

/-- Little-endian value of a byte string. -/
def leValue : List Byte → Nat
  | [] => 0
  | b :: bs => b.val + 256 * leValue bs

/-- The function `protowire.ConsumeFixed32`. -/
def ConsumeFixed32 (b : List Byte) : Option (Nat × Nat) :=
  if b.length < 4 then none else some (leValue (b.take 4), 4)

/-- The function `protowire.ConsumeFixed64`. -/
def ConsumeFixed64 (b : List Byte) : Option (Nat × Nat) :=
  if b.length < 8 then none else some (leValue (b.take 8), 8)

/-- The function `protowire.ConsumeBytes`: a varint length `m` followed by `m`
bytes. -/
def ConsumeBytes (b : List Byte) : Option (List Byte × Nat) :=
  match ConsumeVarint b with
  | none => none
  | some (m, n) =>
    if m > (b.drop n).length then none else some ((b.drop n).take m, n + m)

/-- Wire types of `protowire`. -/
def VarintType : Nat := 0
def Fixed64Type : Nat := 1
def BytesType : Nat := 2
def StartGroupType : Nat := 3
def EndGroupType : Nat := 4
def Fixed32Type : Nat := 5

/-- Go slice expression `b[n:]`, which panics when `n > len(b)`. -/
def sliceFrom (b : List Byte) (n : Nat) : Option (List Byte) :=
  if n ≤ b.length then some (b.drop n) else none

/-- Go conversion `int(v)` of a `uint64` on a 64-bit platform. -/
def toInt (v : Nat) : Int :=
  if v < 2 ^ 63 then (v : Int) else (v : Int) - 2 ^ 64

/-! ## Descriptors -/

/-- The type `protoreflect.Kind`; `other` stands for any value outside the
declared constants. -/
inductive Kind where
  | BoolKind | EnumKind | Int32Kind | Sint32Kind | Uint32Kind
  | Int64Kind | Sint64Kind | Uint64Kind | Sfixed32Kind | Fixed32Kind
  | FloatKind | Sfixed64Kind | Fixed64Kind | DoubleKind | StringKind
  | BytesKind | MessageKind | GroupKind | other
  deriving DecidableEq, Repr

/-- One value of an enum descriptor. -/
structure EnumValue where
  name : String
  number : Int
  deriving DecidableEq, Repr

/-- The parts of a `protogen.Field` the generator reads.
`message` is `field.Message` as an index into the descriptor graph (`none` is a
nil pointer); `unknown` is `fopts.ProtoReflect().GetUnknown()`, with `none`
when the options are nil or not `FieldOptions`; `leading` is
`field.Comments.Leading.String()`; `name` is `field.Desc.Name()`.
The last four the generator does not read and the transcoder's library does:
`hasPresence` is `field.Desc.HasPresence()`, `oneof` is
`field.Desc.ContainingOneof()` as the index of the oneof in its message,
`requiredLabel` is `field.Desc.Cardinality() == protoreflect.Required`, and
`isNullValue` tells that the field is of the enum type
`google.protobuf.NullValue`. -/
structure Field where
  name : String
  jsonName : String
  kind : Kind
  isMap : Bool
  isList : Bool
  message : Option Nat
  enumValues : List EnumValue
  unknown : Option (List Byte)
  leading : String
  hasPresence : Bool := false
  oneof : Option Nat := none
  requiredLabel : Bool := false
  isNullValue : Bool := false
  deriving DecidableEq, Repr

/-- The parts of a `protogen.Message` the generator reads. -/
structure Message where
  fullName : String
  fields : List Field
  deriving DecidableEq, Repr

/-- The descriptor graph: every message reachable through `field.Message`. -/
abbrev Graph := List Message

/-- Dereference of `field.Message`. -/
def Field.getMessage (g : Graph) (f : Field) : Option Message :=
  match f.message with
  | none => none
  | some i => g[i]?

/-! ## Annotation Extractor -/

def fieldBehaviorFieldNumber : Int := 1052
def fieldBehaviorRequired : Int := 2
def fieldBehaviorOutputOnly : Int := 3

/-- The scan loop of `getFieldBehaviors` (`for len(unknown) > 0 { ... }`), one
iteration per unit of fuel. -/
def scanLoop : Nat → List Byte → List Int → Outcome (List Int)
  | 0, unknown, behaviors =>
    if unknown.length > 0 then .outOfFuel else .ok behaviors
  | fuel + 1, unknown, behaviors =>
    if unknown.length > 0 then
      match ConsumeTag unknown with
      | none => .ok behaviors
      | some (num, typ, n) =>
        match sliceFrom unknown n with
        | none => .panic
        | some unknown =>
          if typ = VarintType then
            match ConsumeVarint unknown with
            | none => .ok behaviors
            | some (v, m) =>
              let behaviors :=
                if num = fieldBehaviorFieldNumber then behaviors ++ [toInt v] else behaviors
              match sliceFrom unknown m with
              | none => .panic
              | some unknown => scanLoop fuel unknown behaviors
          else if typ = Fixed32Type then
            match ConsumeFixed32 unknown with
            | none => .ok behaviors
            | some (_, m) =>
              match sliceFrom unknown m with
              | none => .panic
              | some unknown => scanLoop fuel unknown behaviors
          else if typ = Fixed64Type then
            match ConsumeFixed64 unknown with
            | none => .ok behaviors
            | some (_, m) =>
              match sliceFrom unknown m with
              | none => .panic
              | some unknown => scanLoop fuel unknown behaviors
          else if typ = BytesType then
            match ConsumeBytes unknown with
            | none => .ok behaviors
            | some (_, m) =>
              match sliceFrom unknown m with
              | none => .panic
              | some unknown => scanLoop fuel unknown behaviors
          else .ok behaviors
    else .ok behaviors

/-- The extractor on a raw annotation region: the scan loop started with no
behaviors, with one unit of fuel per input byte. -/
def extract (unknown : List Byte) : Outcome (List Int) :=
  scanLoop unknown.length unknown []

/-- The function `getFieldBehaviors`. Nil or foreign options give nil. The
scan loop always returns within `len(unknown)` iterations
(`scanLoop_returns`), so the last branch is never taken. -/
def getFieldBehaviors (field : Field) : List Int :=
  match field.unknown with
  | none => []
  | some unknown =>
    match extract unknown with
    | .ok behaviors => behaviors
    | _ => []

/-- The function `isOutputOnly`. -/
def isOutputOnly (field : Field) : Bool :=
  (getFieldBehaviors field).any (fun b => b == fieldBehaviorOutputOnly)

/-- The function `isRequired`. -/
def isRequired (field : Field) : Bool :=
  (getFieldBehaviors field).any (fun b => b == fieldBehaviorRequired)

/-! ## Schema nodes -/

/-- A Go value of type `any` as it occurs in a schema: the dynamic types the
emitter distinguishes (`string`, `bool`, `int`, `float64`, `[]string`, `[]any`,
`map[string]any`) and `other` for every remaining dynamic type. A `float64` is
carried as its bit pattern and never interpreted. -/
inductive Value where
  | str (s : String)
  | bool (b : Bool)
  | int (i : Int)
  | float (bits : Nat)
  | strs (l : List String)
  | anys (l : List Value)
  | obj (m : List (String × Value))
  | other (tag : String)

/-- A Go `map[string]any`. -/
abbrev Schema := List (String × Value)

mutual
/-- Decision procedure for equality of schema values. -/
def Value.decEq : (a b : Value) → Decidable (a = b)
  | .str s, .str t =>
    if h : s = t then isTrue (by rw [h]) else isFalse (by intro e; cases e; exact h rfl)
  | .bool s, .bool t =>
    if h : s = t then isTrue (by rw [h]) else isFalse (by intro e; cases e; exact h rfl)
  | .int s, .int t =>
    if h : s = t then isTrue (by rw [h]) else isFalse (by intro e; cases e; exact h rfl)
  | .float s, .float t =>
    if h : s = t then isTrue (by rw [h]) else isFalse (by intro e; cases e; exact h rfl)
  | .strs s, .strs t =>
    if h : s = t then isTrue (by rw [h]) else isFalse (by intro e; cases e; exact h rfl)
  | .other s, .other t =>
    if h : s = t then isTrue (by rw [h]) else isFalse (by intro e; cases e; exact h rfl)
  | .anys s, .anys t =>
    match Value.decEqList s t with
    | isTrue h => isTrue (by rw [h])
    | isFalse h => isFalse (by intro e; cases e; exact h rfl)
  | .obj s, .obj t =>
    match Value.decEqEntries s t with
    | isTrue h => isTrue (by rw [h])
    | isFalse h => isFalse (by intro e; cases e; exact h rfl)
  | .str _, .bool _ | .str _, .int _ | .str _, .float _ | .str _, .strs _ | .str _, .anys _ | .str _, .obj _ | .str _, .other _ =>
    isFalse (by intro e; cases e)
  | .bool _, .str _ | .bool _, .int _ | .bool _, .float _ | .bool _, .strs _ | .bool _, .anys _ | .bool _, .obj _ | .bool _, .other _ =>
    isFalse (by intro e; cases e)
  | .int _, .str _ | .int _, .bool _ | .int _, .float _ | .int _, .strs _ | .int _, .anys _ | .int _, .obj _ | .int _, .other _ =>
    isFalse (by intro e; cases e)
  | .float _, .str _ | .float _, .bool _ | .float _, .int _ | .float _, .strs _ | .float _, .anys _ | .float _, .obj _ | .float _, .other _ =>
    isFalse (by intro e; cases e)
  | .strs _, .str _ | .strs _, .bool _ | .strs _, .int _ | .strs _, .float _ | .strs _, .anys _ | .strs _, .obj _ | .strs _, .other _ =>
    isFalse (by intro e; cases e)
  | .anys _, .str _ | .anys _, .bool _ | .anys _, .int _ | .anys _, .float _ | .anys _, .strs _ | .anys _, .obj _ | .anys _, .other _ =>
    isFalse (by intro e; cases e)
  | .obj _, .str _ | .obj _, .bool _ | .obj _, .int _ | .obj _, .float _ | .obj _, .strs _ | .obj _, .anys _ | .obj _, .other _ =>
    isFalse (by intro e; cases e)
  | .other _, .str _ | .other _, .bool _ | .other _, .int _ | .other _, .float _ | .other _, .strs _ | .other _, .anys _ | .other _, .obj _ =>
    isFalse (by intro e; cases e)
/-- Decision procedure for equality of lists of schema values. -/
def Value.decEqList : (a b : List Value) → Decidable (a = b)
  | [], [] => isTrue rfl
  | [], _ :: _ => isFalse (by intro e; cases e)
  | _ :: _, [] => isFalse (by intro e; cases e)
  | x :: xs, y :: ys =>
    match Value.decEq x y, Value.decEqList xs ys with
    | isTrue h, isTrue h2 => isTrue (by rw [h, h2])
    | isFalse h, _ => isFalse (by intro e; cases e; exact h rfl)
    | _, isFalse h => isFalse (by intro e; cases e; exact h rfl)
/-- Decision procedure for equality of maps. -/
def Value.decEqEntries : (a b : List (String × Value)) → Decidable (a = b)
  | [], [] => isTrue rfl
  | [], _ :: _ => isFalse (by intro e; cases e)
  | _ :: _, [] => isFalse (by intro e; cases e)
  | (k, x) :: xs, (l, y) :: ys =>
    if hk : k = l then
      match Value.decEq x y, Value.decEqEntries xs ys with
      | isTrue h, isTrue h2 => isTrue (by rw [hk, h, h2])
      | isFalse h, _ => isFalse (by intro e; cases e; exact h rfl)
      | _, isFalse h => isFalse (by intro e; cases e; exact h rfl)
    else isFalse (by intro e; cases e; exact hk rfl)
end

instance : DecidableEq Value := Value.decEq

/-- Go map read `m[k]` with presence: the value stored under `k`, if any. -/
def mapGet {α : Type} : List (String × α) → String → Option α
  | [], _ => none
  | (k1, v1) :: rest, k => if k1 = k then some v1 else mapGet rest k

/-- Go map write `m[k] = v`: replaces the value of an existing key, else adds
the key. -/
def mapSet {α : Type} : List (String × α) → String → α → List (String × α)
  | [], k, v => [(k, v)]
  | (k1, v1) :: rest, k, v =>
    if k1 = k then (k, v) :: rest else (k1, v1) :: mapSet rest k v

/-- Go `delete(m, k)`. -/
def mapDelete {α : Type} (m : List (String × α)) (k : String) : List (String × α) :=
  m.filter (fun e => decide (e.1 ≠ k))

/-- The keys of a Go map. -/
def mapKeys {α : Type} (m : List (String × α)) : List String :=
  m.map (fun e => e.1)

/-- The visited set `seen map[string]bool`. -/
abbrev Seen := List (String × Bool)

/-- Go read `seen[name]` of a `map[string]bool`: false for a missing key. -/
def seenGet (seen : Seen) (name : String) : Bool :=
  (mapGet seen name).getD false

/-! ## Schema Builder -/

/-- The function `buildEnumSchema`: the first loop collects the names of the
values whose number is not zero, the second one runs when nothing was
collected and takes every name. -/
def buildEnumSchema (field : Field) : Schema :=
  let values := field.enumValues
  let enumVals : List String :=
    values.foldl (fun acc v => if v.number = 0 then acc else acc ++ [v.name]) []
  let enumVals :=
    if enumVals.length = 0 then
      values.foldl (fun acc v => acc ++ [v.name]) enumVals
    else enumVals
  [("type", .str "string"), ("enum", .strs enumVals)]

/-- The `switch` on the full name at the head of `buildNestedMessageSchema`:
the schema of a well-known type, `none` when no case matches. -/
def wellKnownSchema (fullName : String) : Option Schema :=
  if fullName = "google.protobuf.Timestamp" then
    some [("type", .str "string"), ("format", .str "date-time")]
  else if fullName = "google.protobuf.Duration" then
    some [("type", .str "string")]
  else if fullName = "google.protobuf.Struct" then
    some [("type", .str "object"), ("additionalProperties", .bool true)]
  else if fullName = "google.protobuf.Value" then
    some []
  else if fullName = "google.protobuf.ListValue" then
    some [("type", .str "array")]
  else if fullName = "google.protobuf.Empty" then
    some [("type", .str "object"), ("properties", .obj []),
      ("additionalProperties", .bool false)]
  else if fullName = "google.protobuf.StringValue" then
    some [("type", .str "string")]
  else if fullName = "google.protobuf.BoolValue" then
    some [("type", .str "boolean")]
  else if fullName = "google.protobuf.Int32Value" then
    some [("type", .str "integer"), ("format", .str "int32")]
  else if fullName = "google.protobuf.Int64Value" then
    some [("type", .str "integer"), ("format", .str "int64")]
  else if fullName = "google.protobuf.UInt32Value" then
    some [("type", .str "integer"), ("format", .str "int32")]
  else if fullName = "google.protobuf.UInt64Value" then
    some [("type", .str "integer"), ("format", .str "int64")]
  else if fullName = "google.protobuf.FloatValue" then
    some [("type", .str "number"), ("format", .str "float")]
  else if fullName = "google.protobuf.DoubleValue" then
    some [("type", .str "number"), ("format", .str "double")]
  else if fullName = "google.protobuf.BytesValue" then
    some [("type", .str "string"), ("format", .str "byte")]
  else none

/-- The permissive fallback returned for a message that is being expanded. -/
def permissiveSchema : Schema :=
  [("type", .str "object"), ("additionalProperties", .bool true)]

/-- The loop `for _, field := range msg.Fields` of `buildMessageSchema`, over
the remaining fields, with the loop state `properties`, `required`, `seen`;
`bf` is the call `buildFieldSchema(field, seen)` and `nc` is
`normalizeComment`. -/
def fieldsLoop (bf : Field → Seen → Outcome (Schema × Seen)) (nc : String → String) :
    List Field → Schema → List String → Seen → Outcome (Schema × List String × Seen)
  | [], properties, required, seen => .ok (properties, required, seen)
  | field :: rest, properties, required, seen =>
    if isOutputOnly field then
      fieldsLoop bf nc rest properties required seen
    else
      let jsonName := field.jsonName
      match bf field seen with
      | .panic => .panic
      | .outOfFuel => .outOfFuel
      | .ok (schema, seen) =>
        let desc := nc field.leading
        let schema := if desc ≠ "" then mapSet schema "description" (.str desc) else schema
        let properties := mapSet properties jsonName (.obj schema)
        let required := if isRequired field then required ++ [jsonName] else required
        fieldsLoop bf nc rest properties required seen

/-- The tail of `buildMessageSchema`: the result map, with `required` only when
the list is not empty. -/
def messageResult (properties : Schema) (required : List String) : Schema :=
  let result : Schema :=
    [("type", .str "object"), ("properties", .obj properties),
      ("additionalProperties", .bool false)]
  if required.length > 0 then mapSet result "required" (.strs required) else result

mutual
/-- The function `buildMessageSchema`. The function `normalizeComment` is not
among the sources and is the parameter `nc`. Returns the schema and the
visited set as the call leaves it. -/
def buildMessageSchema : Nat → Graph → (String → String) → Message → Seen →
    Outcome (Schema × Seen)
  | 0, _, _, _, _ => .outOfFuel
  | fuel + 1, g, nc, msg, seen =>
    match fieldsLoop (fun field seen => buildFieldSchema fuel g nc field seen) nc
        msg.fields [] [] seen with
    | .panic => .panic
    | .outOfFuel => .outOfFuel
    | .ok (properties, required, seen) => .ok (messageResult properties required, seen)
/-- The function `buildFieldSchema`. `field.Message.Fields[1]` panics on a nil
message and on a message with fewer than two fields. -/
def buildFieldSchema : Nat → Graph → (String → String) → Field → Seen →
    Outcome (Schema × Seen)
  | 0, _, _, _, _ => .outOfFuel
  | fuel + 1, g, nc, field, seen =>
    if field.isMap then
      match field.getMessage g with
      | none => .panic
      | some entry =>
        match entry.fields[1]? with
        | none => .panic
        | some valueField =>
          match buildFieldSchema fuel g nc valueField seen with
          | .panic => .panic
          | .outOfFuel => .outOfFuel
          | .ok (valueSchema, seen) =>
            .ok ([("type", .str "object"), ("additionalProperties", .obj valueSchema)], seen)
    else if field.isList then
      match buildScalarOrMessageSchema fuel g nc field seen with
      | .panic => .panic
      | .outOfFuel => .outOfFuel
      | .ok (elemSchema, seen) =>
        .ok ([("type", .str "array"), ("items", .obj elemSchema)], seen)
    else buildScalarOrMessageSchema fuel g nc field seen
/-- The function `buildScalarOrMessageSchema`. -/
def buildScalarOrMessageSchema : Nat → Graph → (String → String) → Field → Seen →
    Outcome (Schema × Seen)
  | 0, _, _, _, _ => .outOfFuel
  | fuel + 1, g, nc, field, seen =>
    match field.kind with
    | .BoolKind => .ok ([("type", .str "boolean")], seen)
    | .StringKind => .ok ([("type", .str "string")], seen)
    | .BytesKind => .ok ([("type", .str "string"), ("format", .str "byte")], seen)
    | .Int32Kind | .Sint32Kind | .Sfixed32Kind =>
      .ok ([("type", .str "integer"), ("format", .str "int32")], seen)
    | .Int64Kind | .Sint64Kind | .Sfixed64Kind =>
      .ok ([("type", .str "integer"), ("format", .str "int64")], seen)
    | .Uint32Kind | .Fixed32Kind =>
      .ok ([("type", .str "integer"), ("format", .str "int32")], seen)
    | .Uint64Kind | .Fixed64Kind =>
      .ok ([("type", .str "integer"), ("format", .str "int64")], seen)
    | .FloatKind => .ok ([("type", .str "number"), ("format", .str "float")], seen)
    | .DoubleKind => .ok ([("type", .str "number"), ("format", .str "double")], seen)
    | .EnumKind => .ok (buildEnumSchema field, seen)
    | .MessageKind | .GroupKind => buildNestedMessageSchema fuel g nc field seen
    | .other => .ok ([], seen)
/-- The function `buildNestedMessageSchema`. Reading `field.Message.Desc`
panics on a nil message. -/
def buildNestedMessageSchema : Nat → Graph → (String → String) → Field → Seen →
    Outcome (Schema × Seen)
  | 0, _, _, _, _ => .outOfFuel
  | fuel + 1, g, nc, field, seen =>
    match field.getMessage g with
    | none => .panic
    | some message =>
      let fullName := message.fullName
      match wellKnownSchema fullName with
      | some schema => .ok (schema, seen)
      | none =>
        if seenGet seen fullName then .ok (permissiveSchema, seen)
        else
          let seen := mapSet seen fullName true
          match buildMessageSchema fuel g nc message seen with
          | .panic => .panic
          | .outOfFuel => .outOfFuel
          | .ok (schema, seen) => .ok (schema, mapDelete seen fullName)
end

/-! ## Auxiliary notions used in the statements -/

/-- JSON names the field loop appends to `required`: those of the fields that
are not output-only and are required, in field order. -/
def requiredNames (fs : List Field) : List String :=
  (fs.filter (fun f => !isOutputOnly f && isRequired f)).map Field.jsonName

/-- Structural validity of one field with respect to the graph, as protobuf
descriptors guarantee it: the entry message of a map field exists, has a second
field, and that value field is not itself a map; the message of a field of
message or group kind exists. -/
def fieldOK (g : Graph) (f : Field) : Bool :=
  if f.isMap then
    match f.getMessage g with
    | none => false
    | some entry =>
      match entry.fields[1]? with
      | none => false
      | some valueField => !valueField.isMap
  else if f.kind = .MessageKind ∨ f.kind = .GroupKind then (f.getMessage g).isSome
  else true

/-- Every field of every message of the graph is valid. -/
def graphOK (g : Graph) : Bool :=
  g.all (fun m => m.fields.all (fieldOK g))

/-- Number of messages of the graph whose name is not marked in `seen`. -/
def unvisited (g : Graph) (seen : Seen) : Nat :=
  ((g.map Message.fullName).filter (fun n => !seenGet seen n)).length

/-- Two visited sets mark the same names. -/
def SeenEq (a b : Seen) : Prop := ∀ n, seenGet a n = seenGet b n

/-- A run returns a schema and leaves the same names marked. -/
def ReturnsRestoring (run : Seen → Outcome (Schema × Seen)) (seen : Seen) : Prop :=
  ∃ s seen1, run seen = .ok (s, seen1) ∧ SeenEq seen1 seen

/-- Every field of the message is valid with respect to the graph. -/
def msgOK (g : Graph) (msg : Message) : Bool :=
  msg.fields.all (fieldOK g)

/-! ## Concrete descriptors used as test inputs -/

/-- A singular scalar field with the given annotation region. -/
def scalarField (name : String) (kind : Kind) (unknown : Option (List Byte)) : Field :=
  { name := name, jsonName := name, kind := kind, isMap := false, isList := false,
    message := none, enumValues := [], unknown := unknown, leading := "" }

/-- A singular field of message kind whose type is message `i` of the graph. -/
def messageField (name : String) (i : Nat) : Field :=
  { name := name, jsonName := name, kind := .MessageKind, isMap := false, isList := false,
    message := some i, enumValues := [], unknown := none, leading := "" }

/-- Annotation region `google.api.field_behavior = REQUIRED`. -/
def requiredBytes : List Byte := [0xE0, 0x41, 0x02]

/-- Annotation region `google.api.field_behavior = OUTPUT_ONLY`. -/
def outputOnlyBytes : List Byte := [0xE0, 0x41, 0x03]

/-- Annotation region carrying both `REQUIRED` and `OUTPUT_ONLY`. -/
def bothBytes : List Byte := [0xE0, 0x41, 0x02, 0xE0, 0x41, 0x03]

/-- A message with a required field, an output-only field and a plain field. -/
def accountMessage : Message :=
  { fullName := "pkg.Account",
    fields := [scalarField "id" .StringKind (some requiredBytes),
      scalarField "etag" .StringKind (some outputOnlyBytes),
      scalarField "age" .Int32Kind none] }

/-- The proto2 field `display_name`, annotated both required and output-only;
its default JSON name is `displayName`. -/
def displayNameField : Field :=
  { name := "display_name", jsonName := "displayName", kind := .StringKind, isMap := false,
    isList := false, message := none, enumValues := [], unknown := some bothBytes,
    leading := "" }

/-- A proto2 message in which `display_name` shares its default JSON name with
the later required field `displayName` (proto2 admits such a collision). -/
def collidingMessage : Message :=
  { fullName := "pkg.Colliding",
    fields := [displayNameField,
      scalarField "displayName" .Int32Kind (some requiredBytes)] }

/-- The schema `buildMessageSchema` returns for `collidingMessage`. -/
def collidingSchema : Schema :=
  [("type", .str "object"),
    ("properties",
      .obj [("displayName", .obj [("type", .str "integer"), ("format", .str "int32")])]),
    ("additionalProperties", .bool false),
    ("required", .strs ["displayName"])]

/-- A map field whose entry message is message 1 of the graph. -/
def mapField (name : String) (i : Nat) : Field :=
  { name := name, jsonName := name, kind := .MessageKind, isMap := true, isList := false,
    message := some i, enumValues := [], unknown := none, leading := "" }

/-- A list field whose element type is message `i` of the graph. -/
def listField (name : String) (i : Nat) : Field :=
  { name := name, jsonName := name, kind := .MessageKind, isMap := false, isList := true,
    message := some i, enumValues := [], unknown := none, leading := "" }

/-- A valid cyclic graph: `pkg.Node` refers to itself through a singular field,
a list field and a map field, and to `pkg.Peer`, which refers back. -/
def nodeGraph : Graph :=
  [ { fullName := "pkg.Node",
      fields := [scalarField "label" .StringKind none, messageField "parent" 0,
        listField "children" 0, mapField "index" 1, messageField "peer" 2] },
    { fullName := "pkg.Node.IndexEntry",
      fields := [scalarField "key" .StringKind none, messageField "value" 0] },
    { fullName := "pkg.Peer", fields := [messageField "node" 0] } ]

/-- The message `pkg.Node` of `nodeGraph`. -/
def nodeMessage : Message :=
  { fullName := "pkg.Node",
    fields := [scalarField "label" .StringKind none, messageField "parent" 0,
      listField "children" 0, mapField "index" 1, messageField "peer" 2] }

/-- A message with a field annotated both required and output-only, followed by
a required field of another name. -/
def bothMessage : Message :=
  { fullName := "pkg.Both",
    fields := [scalarField "a" .StringKind (some bothBytes),
      scalarField "b" .Int32Kind (some requiredBytes)] }

/-- A directly self-referential message: `pkg.Tree` has a field `next` of type
`pkg.Tree`. -/
def treeGraph : Graph :=
  [ { fullName := "pkg.Tree",
      fields := [scalarField "label" .StringKind none, messageField "next" 0] } ]

/-- The field `self_ref` of `pkg.Rec`. -/
def recSelfField : Field :=
  { name := "self_ref", jsonName := "selfRef", kind := .MessageKind, isMap := false,
    isList := false, message := some 0, enumValues := [], unknown := none, leading := "" }

/-- A self-referential proto2 message in which the field `self_ref` of type
`pkg.Rec` and the later string field `selfRef` have the same default JSON name. -/
def recMessage : Message :=
  { fullName := "pkg.Rec",
    fields := [recSelfField, scalarField "selfRef" .StringKind none] }

/-- The graph of `pkg.Rec`. -/
def recGraph : Graph := [recMessage]

/-! ## Wire-format records, as the statements about the extractor name them -/

/-- A complete varint whose first byte is byte number `i` of the encoding:
at most ten bytes in all, the continuation bit set on every byte but the last,
and a tenth byte below 2. -/
def isVarintFrom (i : Nat) : List Byte → Bool
  | [] => false
  | y :: rest =>
    if rest.isEmpty then
      if i < 9 then decide (y.val < 128) else decide (i = 9 ∧ y.val < 2)
    else if i < 9 ∧ 128 ≤ y.val then isVarintFrom (i + 1) rest else false

/-- A complete varint encoding. -/
def isVarint (bs : List Byte) : Bool := isVarintFrom 0 bs

/-- The number a varint encodes: seven bits per byte, least significant group
first. -/
def varintValue : List Byte → Nat
  | [] => 0
  | y :: rest => y.val % 128 + 128 * varintValue rest

/-- Payload of a record, by wire type. -/
inductive Payload where
  | varint (enc : List Byte)
  | fixed32 (body : List Byte)
  | fixed64 (body : List Byte)
  | bytes (len : List Byte) (body : List Byte)
  deriving DecidableEq, Repr

/-- A record of the wire format: the bytes of its header and its payload. -/
structure Record where
  header : List Byte
  payload : Payload
  deriving DecidableEq, Repr

/-- Wire type of a payload. -/
def Payload.wireType : Payload → Nat
  | .varint _ => VarintType
  | .fixed32 _ => Fixed32Type
  | .fixed64 _ => Fixed64Type
  | .bytes _ _ => BytesType

/-- Bytes of a payload. -/
def Payload.encode : Payload → List Byte
  | .varint enc => enc
  | .fixed32 body => body
  | .fixed64 body => body
  | .bytes len body => len ++ body

/-- A payload is complete: a whole varint, four bytes, eight bytes, or a whole
varint length followed by exactly that many bytes. -/
def Payload.complete : Payload → Bool
  | .varint enc => isVarint enc
  | .fixed32 body => decide (body.length = 4)
  | .fixed64 body => decide (body.length = 8)
  | .bytes len body => isVarint len && decide (varintValue len = body.length)

/-- Field number in the header of a record. -/
def Record.fieldNumber (r : Record) : Nat := varintValue r.header / 8

/-- A complete record: a varint header with a field number in `1..2^31-1` and
the wire type of the payload, followed by a complete payload. -/
def Record.complete (r : Record) : Bool :=
  isVarint r.header && decide (1 ≤ r.fieldNumber) && decide (r.fieldNumber ≤ 2 ^ 31 - 1) &&
    decide (varintValue r.header % 8 = r.payload.wireType) && r.payload.complete

/-- Bytes of a record. -/
def Record.encode (r : Record) : List Byte := r.header ++ r.payload.encode

/-- Concatenation of the bytes of a list of records. -/
def encodeAll : List Record → List Byte
  | [] => []
  | r :: rs => r.encode ++ encodeAll rs

/-- What a record contributes to the extractor: the decoded value, converted
as `int(v)`, of a varint record carrying the wanted field number. -/
def Record.behavior (r : Record) : Option Int :=
  match r.payload with
  | .varint enc =>
    if r.fieldNumber = 1052 then some (toInt (varintValue enc)) else none
  | _ => none

/-- Outcome of one iteration of the scan loop on a non-empty region. -/
inductive Step where
  | stop
  | panic
  | next (rest : List Byte) (found : Option Int)
  deriving DecidableEq, Repr

/-- One iteration of the scan loop of `getFieldBehaviors` on a non-empty
region: return, or go on with the rest of the region and possibly one more
behavior. -/
def scanStep (unknown : List Byte) : Step :=
  match ConsumeTag unknown with
  | none => .stop
  | some (num, typ, n) =>
    match sliceFrom unknown n with
    | none => .panic
    | some unknown =>
      if typ = VarintType then
        match ConsumeVarint unknown with
        | none => .stop
        | some (v, m) =>
          match sliceFrom unknown m with
          | none => .panic
          | some rest =>
            .next rest (if num = fieldBehaviorFieldNumber then some (toInt v) else none)
      else if typ = Fixed32Type then
        match ConsumeFixed32 unknown with
        | none => .stop
        | some (_, m) =>
          match sliceFrom unknown m with
          | none => .panic
          | some rest => .next rest none
      else if typ = Fixed64Type then
        match ConsumeFixed64 unknown with
        | none => .stop
        | some (_, m) =>
          match sliceFrom unknown m with
          | none => .panic
          | some rest => .next rest none
      else if typ = BytesType then
        match ConsumeBytes unknown with
        | none => .stop
        | some (_, m) =>
          match sliceFrom unknown m with
          | none => .panic
          | some rest => .next rest none
      else .stop

/-- The region starts with a header or a length the wire primitives cannot
resolve: a truncated or overlong varint or a field number outside
`1..2^31-1` in the header, a truncated or overlong varint payload, fewer than
four or eight bytes of a fixed payload, a truncated length-delimited payload,
or a group or unknown wire type. -/
def unresolved (b : List Byte) : Bool :=
  match ConsumeTag b with
  | none => true
  | some (_, typ, n) =>
    let payload := b.drop n
    if typ = VarintType then (ConsumeVarint payload).isNone
    else if typ = Fixed32Type then decide (payload.length < 4)
    else if typ = Fixed64Type then decide (payload.length < 8)
    else if typ = BytesType then (ConsumeBytes payload).isNone
    else true

/-- A field that carries only an annotation region. -/
def annotatedField (unknown : List Byte) : Field :=
  scalarField "f" .StringKind (some unknown)

/-- Five records: `field_behavior = 2`, field 1 as varint 1, the wanted tag as
a length-delimited record of two bytes, `field_behavior = 3`, and field 2 as a
fixed32. -/
def sampleRecords : List Record :=
  [ { header := [0xE0, 0x41], payload := .varint [0x02] },
    { header := [0x08], payload := .varint [0x01] },
    { header := [0xE2, 0x41], payload := .bytes [0x02] [0x02, 0x03] },
    { header := [0xE0, 0x41], payload := .varint [0x83, 0x00] },
    { header := [0x15], payload := .fixed32 [0x01, 0x02, 0x03, 0x04] } ]

/-- Malformed tails: a truncated varint header, an overlong varint header,
field number 0, a fixed32 payload cut short, a start-group wire type, and wire
type 7. -/
def malformedTails : List (List Byte) :=
  [ [0x80],
    [0xFF, 0xFF, 0xFF, 0xFF, 0xFF, 0xFF, 0xFF, 0xFF, 0xFF, 0x02],
    [0x00, 0x01],
    [0x15, 0x01, 0x02],
    [0x0B, 0xE0, 0x41, 0x02],
    [0x0F] ]

/-- Names of the enum values with a non-zero number when there is one, else
all names, in declaration order. -/
def enumNames (values : List EnumValue) : List String :=
  if values.any (fun v => decide (v.number ≠ 0)) then
    (values.filter (fun v => decide (v.number ≠ 0))).map EnumValue.name
  else values.map EnumValue.name

/-- A field of enum kind with the given values. -/
def enumField (values : List EnumValue) : Field :=
  { name := "e", jsonName := "e", kind := .EnumKind, isMap := false, isList := false,
    message := none, enumValues := values, unknown := none, leading := "" }

/-! ## Value Transcoder (`runtime/convert.go`) -/

/-- Errors returned by the transcoder, by cause. `notModelled` marks an input
outside the part of the external libraries that the model of flat messages
covers; `invalidDescriptor` marks a descriptor no generated code has: a field
of message kind without a message, a map entry without key or value field, a
scalar of a kind outside the declared ones; `oneofSet` is a second member for
one oneof and `notInitialized` a field with the label `required` that is not
set. -/
inductive TranscodeError where
  | unknownField | duplicateField | typeMismatch | outOfRange | notModelled
  | invalidDescriptor | oneofSet | notInitialized
  deriving DecidableEq, Repr

/-- Go result `(value, error)`. -/
inductive Result (α : Type) where
  | ok (a : α)
  | error (e : TranscodeError)
  deriving DecidableEq, Repr

/-- A JSON document. Numbers are the integral ones; other numbers are not
modelled. -/
inductive Json where
  | null
  | bool (b : Bool)
  | num (n : Int)
  | str (s : String)
  | arr (l : List Json)
  | obj (m : List (String × Json))

mutual
/-- Decision procedure for equality of JSON documents. -/
def Json.decEq : (a b : Json) → Decidable (a = b)
  | .null, .null => isTrue rfl
  | .bool s, .bool t =>
    if h : s = t then isTrue (by rw [h]) else isFalse (by intro e; cases e; exact h rfl)
  | .num s, .num t =>
    if h : s = t then isTrue (by rw [h]) else isFalse (by intro e; cases e; exact h rfl)
  | .str s, .str t =>
    if h : s = t then isTrue (by rw [h]) else isFalse (by intro e; cases e; exact h rfl)
  | .arr s, .arr t =>
    match Json.decEqList s t with
    | isTrue h => isTrue (by rw [h])
    | isFalse h => isFalse (by intro e; cases e; exact h rfl)
  | .obj s, .obj t =>
    match Json.decEqEntries s t with
    | isTrue h => isTrue (by rw [h])
    | isFalse h => isFalse (by intro e; cases e; exact h rfl)
  | .null, .bool _ | .null, .num _ | .null, .str _ | .null, .arr _ | .null, .obj _ =>
    isFalse (by intro e; cases e)
  | .bool _, .null | .bool _, .num _ | .bool _, .str _ | .bool _, .arr _ | .bool _, .obj _ =>
    isFalse (by intro e; cases e)
  | .num _, .null | .num _, .bool _ | .num _, .str _ | .num _, .arr _ | .num _, .obj _ =>
    isFalse (by intro e; cases e)
  | .str _, .null | .str _, .bool _ | .str _, .num _ | .str _, .arr _ | .str _, .obj _ =>
    isFalse (by intro e; cases e)
  | .arr _, .null | .arr _, .bool _ | .arr _, .num _ | .arr _, .str _ | .arr _, .obj _ =>
    isFalse (by intro e; cases e)
  | .obj _, .null | .obj _, .bool _ | .obj _, .num _ | .obj _, .str _ | .obj _, .arr _ =>
    isFalse (by intro e; cases e)
/-- Decision procedure for equality of JSON arrays. -/
def Json.decEqList : (a b : List Json) → Decidable (a = b)
  | [], [] => isTrue rfl
  | [], _ :: _ => isFalse (by intro e; cases e)
  | _ :: _, [] => isFalse (by intro e; cases e)
  | x :: xs, y :: ys =>
    match Json.decEq x y, Json.decEqList xs ys with
    | isTrue h, isTrue h2 => isTrue (by rw [h, h2])
    | isFalse h, _ => isFalse (by intro e; cases e; exact h rfl)
    | _, isFalse h => isFalse (by intro e; cases e; exact h rfl)
/-- Decision procedure for equality of JSON objects. -/
def Json.decEqEntries : (a b : List (String × Json)) → Decidable (a = b)
  | [], [] => isTrue rfl
  | [], _ :: _ => isFalse (by intro e; cases e)
  | _ :: _, [] => isFalse (by intro e; cases e)
  | (k, x) :: xs, (l, y) :: ys =>
    if hk : k = l then
      match Json.decEq x y, Json.decEqEntries xs ys with
      | isTrue h, isTrue h2 => isTrue (by rw [hk, h, h2])
      | isFalse h, _ => isFalse (by intro e; cases e; exact h rfl)
      | _, isFalse h => isFalse (by intro e; cases e; exact h rfl)
    else isFalse (by intro e; cases e; exact hk rfl)
end

instance : DecidableEq Json := Json.decEq

/-- A Go `map[string]any` holding JSON values: call arguments and call
results. -/
abbrev JsonMap := List (String × Json)

/-- The type `ArgPreprocessor`: a Go function from `map[string]any` to
`map[string]any`; a nil map is `none`. -/
abbrev ArgPreprocessor := Option JsonMap → Option JsonMap

/-- The function `SetArgPreprocessor`: the value of the global
`globalPreprocessor` after the call (`none` for a nil function), whatever it
was before. -/
def SetArgPreprocessor (fn : Option ArgPreprocessor)
    (_globalPreprocessor : Option ArgPreprocessor) : Option ArgPreprocessor :=
  fn

/-- The function `DecodeArgs`. The global `globalPreprocessor` is the first
argument (`none` when unset), `args` and `msg` are `none` when nil, and
`jsonMarshal` and `unmarshal` are `json.Marshal` and
`protojson.UnmarshalOptions{DiscardUnknown: false}.Unmarshal`. The result is
the message as the call leaves it. -/
def DecodeArgs {Msg Doc : Type} (globalPreprocessor : Option ArgPreprocessor)
    (jsonMarshal : Option JsonMap → Result Doc) (unmarshal : Doc → Msg → Result Msg)
    (args : Option JsonMap) (msg : Option Msg) : Result (Option Msg) :=
  match msg with
  | none => .ok none
  | some m =>
    let args : Option JsonMap := match args with
      | none => some []
      | some a => some a
    let args := match globalPreprocessor with
      | some h => h args
      | none => args
    match jsonMarshal args with
    | .error e => .error e
    | .ok b =>
      match unmarshal b m with
      | .error e => .error e
      | .ok m1 => .ok (some m1)

/-- The function `EncodeProto`. `marshal` is
`protojson.MarshalOptions{UseProtoNames: false, EmitUnpopulated: false}.Marshal`
and `jsonUnmarshal` is `json.Unmarshal` into a `map[string]any`, whose result
is `none` when the map stays nil. -/
def EncodeProto {Msg Doc : Type} (marshal : Msg → Result Doc)
    (jsonUnmarshal : Doc → Result (Option JsonMap)) (msg : Option Msg) : Result JsonMap :=
  match msg with
  | none => .ok []
  | some m =>
    match marshal m with
    | .error e => .error e
    | .ok b =>
      match jsonUnmarshal b with
      | .error e => .error e
      | .ok out =>
        match out with
        | none => .ok []
        | some o => .ok o

/-! ### The libraries behind the transcoder

`encoding/json` and `google.golang.org/protobuf/encoding/protojson` are
external. In this section they are modelled on flat messages, whose fields are
singular scalars of bool, string and integer kinds without explicit presence,
following the proto3 JSON mapping that `protojson` implements; a JSON text is
represented by the document it denotes. Nested messages, repeated fields, maps
and enums are modelled in the namespace `Protojson` further down. -/

/-- The function `json.Marshal` on a map of JSON values: a nil map is written
as `null`, any other map as an object. -/
def jsonMarshal (args : Option JsonMap) : Result Json :=
  match args with
  | none => .ok .null
  | some a => .ok (.obj a)

/-- The function `json.Unmarshal` into a nil `map[string]any`: `null` leaves the
map nil, an object fills it, any other document is an error. -/
def jsonUnmarshal (doc : Json) : Result (Option JsonMap) :=
  match doc with
  | .null => .ok none
  | .obj m => .ok (some m)
  | _ => .error .typeMismatch

/-- Value of a scalar field of a message. -/
inductive PValue where
  | str (s : String)
  | bool (b : Bool)
  | int (n : Int)
  deriving DecidableEq, Repr

/-- A dynamic message: the value set for each field, by index of the field in
its descriptor. -/
abbrev ProtoMsg := Nat → Option PValue

/-- A freshly allocated message. -/
def emptyMsg : ProtoMsg := fun _ => none

/-- Zero value of a scalar; a field without explicit presence that holds it is
not populated. -/
def PValue.isZero : PValue → Bool
  | .str s => decide (s = "")
  | .bool b => !b
  | .int n => decide (n = 0)

/-- First field satisfying `p`, with its index. -/
def findFieldFrom (p : Field → Bool) : Nat → List Field → Option (Nat × Field)
  | _, [] => none
  | i, f :: fs => if p f then some (i, f) else findFieldFrom p (i + 1) fs

/-- Field lookup of `protojson` for an object key: `ByJSONName`, then
`ByTextName`. -/
def findField (T : Message) (key : String) : Option (Nat × Field) :=
  match findFieldFrom (fun f => decide (f.jsonName = key)) 0 T.fields with
  | some r => some r
  | none => findFieldFrom (fun f => decide (f.name = key)) 0 T.fields

/-- Integer decoding of `protojson` for a JSON number, with its range check. A
JSON string holding a number is also accepted by the library and is not
modelled. -/
def unmarshalInt (lo hi : Int) (v : Json) : Result PValue :=
  match v with
  | .num n => if lo ≤ n ∧ n < hi then .ok (.int n) else .error .outOfRange
  | .str _ => .error .notModelled
  | _ => .error .typeMismatch

/-- Scalar decoding of `protojson` by field kind. -/
def unmarshalScalar (kind : Kind) (v : Json) : Result PValue :=
  match kind with
  | .StringKind =>
    match v with
    | .str s => .ok (.str s)
    | _ => .error .typeMismatch
  | .BoolKind =>
    match v with
    | .bool b => .ok (.bool b)
    | _ => .error .typeMismatch
  | .Int32Kind | .Sint32Kind | .Sfixed32Kind => unmarshalInt (-(2 ^ 31)) (2 ^ 31) v
  | .Uint32Kind | .Fixed32Kind => unmarshalInt 0 (2 ^ 32) v
  | .Int64Kind | .Sint64Kind | .Sfixed64Kind => unmarshalInt (-(2 ^ 63)) (2 ^ 63) v
  | .Uint64Kind | .Fixed64Kind => unmarshalInt 0 (2 ^ 64) v
  | _ => .error .notModelled

/-- The loop of `protojson` over the members of a JSON object: an unknown key
is an error (`DiscardUnknown: false`), so is a second member for one field; a
`null` member is skipped; any other member is decoded by kind and set. -/
def unmarshalLoop (T : Message) : JsonMap → List Nat → ProtoMsg → Result ProtoMsg
  | [], _, m => .ok m
  | (key, v) :: rest, seenNums, m =>
    match findField T key with
    | none => .error .unknownField
    | some (i, f) =>
      if i ∈ seenNums then .error .duplicateField
      else if f.isMap ∨ f.isList then .error .notModelled
      else
        match v with
        | .null => unmarshalLoop T rest (i :: seenNums) m
        | _ =>
          match unmarshalScalar f.kind v with
          | .error e => .error e
          | .ok pv => unmarshalLoop T rest (i :: seenNums) (Function.update m i (some pv))

/-- The function `protojson.Unmarshal` for messages of descriptor `T`: the
message is reset, then filled from a JSON object. -/
def protoUnmarshal (T : Message) (doc : Json) (_m : ProtoMsg) : Result ProtoMsg :=
  match doc with
  | .obj members => unmarshalLoop T members [] emptyMsg
  | _ => .error .typeMismatch

/-- Scalar encoding of `protojson`: 64-bit integers are written as decimal
strings, every other integer as a number. -/
def marshalScalar (kind : Kind) (v : PValue) : Json :=
  match v with
  | .str s => .str s
  | .bool b => .bool b
  | .int n =>
    match kind with
    | .Int64Kind | .Sint64Kind | .Sfixed64Kind | .Uint64Kind | .Fixed64Kind =>
      .str (toString n)
    | _ => .num n

/-- The populated fields in descriptor order, under their JSON names
(`UseProtoNames: false`, `EmitUnpopulated: false`). -/
def marshalFieldsFrom (m : ProtoMsg) : Nat → List Field → JsonMap
  | _, [] => []
  | i, f :: fs =>
    match m i with
    | none => marshalFieldsFrom m (i + 1) fs
    | some v =>
      if v.isZero then marshalFieldsFrom m (i + 1) fs
      else (f.jsonName, marshalScalar f.kind v) :: marshalFieldsFrom m (i + 1) fs

/-- The function `protojson.Marshal` for messages of descriptor `T`. -/
def protoMarshal (T : Message) (m : ProtoMsg) : Result Json :=
  .ok (.obj (marshalFieldsFrom m 0 T.fields))

/-- Encode of the transcoder for a message of descriptor `T`. -/
def encode (T : Message) (m : Option ProtoMsg) : Result JsonMap :=
  EncodeProto (protoMarshal T) jsonUnmarshal m

/-- The request message of the greeter example: one string field `name`. -/
def helloRequest : Message :=
  { fullName := "greeter.HelloRequest", fields := [scalarField "name" .StringKind none] }


/-! ## Tables the statements about the builder compare with -/

/-- The table of well-known types of the specification, by fully-qualified
name. -/
def wellKnownTable : List (String × Schema) :=
  [ ("google.protobuf.Timestamp", [("type", .str "string"), ("format", .str "date-time")]),
    ("google.protobuf.Duration", [("type", .str "string")]),
    ("google.protobuf.Struct", [("type", .str "object"), ("additionalProperties", .bool true)]),
    ("google.protobuf.Value", []),
    ("google.protobuf.ListValue", [("type", .str "array")]),
    ("google.protobuf.Empty",
      [("type", .str "object"), ("properties", .obj []), ("additionalProperties", .bool false)]),
    ("google.protobuf.StringValue", [("type", .str "string")]),
    ("google.protobuf.BoolValue", [("type", .str "boolean")]),
    ("google.protobuf.Int32Value", [("type", .str "integer"), ("format", .str "int32")]),
    ("google.protobuf.Int64Value", [("type", .str "integer"), ("format", .str "int64")]),
    ("google.protobuf.UInt32Value", [("type", .str "integer"), ("format", .str "int32")]),
    ("google.protobuf.UInt64Value", [("type", .str "integer"), ("format", .str "int64")]),
    ("google.protobuf.FloatValue", [("type", .str "number"), ("format", .str "float")]),
    ("google.protobuf.DoubleValue", [("type", .str "number"), ("format", .str "double")]),
    ("google.protobuf.BytesValue", [("type", .str "string"), ("format", .str "byte")]) ]

/-- The table of scalar kinds of the specification: the schema of each scalar
kind, the empty schema for a kind that is not recognised, and `none` for the
kinds that are dispatched further (enum, message, group). -/
def scalarTable : Kind → Option Schema
  | .BoolKind => some [("type", .str "boolean")]
  | .StringKind => some [("type", .str "string")]
  | .BytesKind => some [("type", .str "string"), ("format", .str "byte")]
  | .Int32Kind | .Sint32Kind | .Sfixed32Kind | .Uint32Kind | .Fixed32Kind =>
    some [("type", .str "integer"), ("format", .str "int32")]
  | .Int64Kind | .Sint64Kind | .Sfixed64Kind | .Uint64Kind | .Fixed64Kind =>
    some [("type", .str "integer"), ("format", .str "int64")]
  | .FloatKind => some [("type", .str "number"), ("format", .str "float")]
  | .DoubleKind => some [("type", .str "number"), ("format", .str "double")]
  | .other => some []
  | .EnumKind | .MessageKind | .GroupKind => none

/-- A message named like the well-known timestamp, with fields of its own. -/
def timestampGraph : Graph :=
  [ { fullName := "google.protobuf.Timestamp",
      fields := [scalarField "seconds" .Int64Kind none, scalarField "nanos" .Int32Kind none,
        messageField "self" 0] } ]

/-- A map entry with a key of the given kind and a string value. -/
def stringMapGraph (keyKind : Kind) : Graph :=
  [ { fullName := "pkg.Labels", fields := [mapField "labels" 1] },
    { fullName := "pkg.Labels.LabelsEntry",
      fields := [scalarField "key" keyKind none, scalarField "value" .StringKind none] } ]

/-- Every entry of the visited set is a mark: no name is stored with the value
`false`. The builder itself only ever stores `true`. -/
def allMarked (seen : Seen) : Bool :=
  seen.all (fun e => e.2)

/-- The schema stored for a field once the loop of `buildMessageSchema` has
attached the description: `schema["description"] = desc` when the normalized
comment is not empty. -/
def describe (nc : String → String) (field : Field) (schema : Schema) : Schema :=
  if nc field.leading ≠ "" then mapSet schema "description" (.str (nc field.leading))
  else schema

/-- The message `pkg.Tree` of `treeGraph`. -/
def treeMessage : Message :=
  { fullName := "pkg.Tree",
    fields := [scalarField "label" .StringKind none, messageField "next" 0] }

/-- The schema of `pkg.Tree` expanded while `pkg.Tree` is marked. -/
def treeInnerSchema : Schema :=
  [("type", .str "object"),
    ("properties", .obj [("label", .obj [("type", .str "string")]),
      ("next", .obj permissiveSchema)]),
    ("additionalProperties", .bool false)]

/-- A field of message kind with a JSON name of its own. -/
def namedMessageField (name jsonName : String) (i : Nat) : Field :=
  { name := name, jsonName := jsonName, kind := .MessageKind, isMap := false,
    isList := false, message := some i, enumValues := [], unknown := none, leading := "" }

/-- A proto2 message with two fields of type `pkg.Addr` and a later string
field `homeAddr` that has the default JSON name of the field `home_addr`. -/
def contactGraph : Graph :=
  [ { fullName := "pkg.Contact",
      fields := [namedMessageField "home_addr" "homeAddr" 1,
        namedMessageField "work_addr" "workAddr" 1,
        scalarField "homeAddr" .StringKind none] },
    { fullName := "pkg.Addr", fields := [scalarField "city" .StringKind none] } ]

/-- The message `pkg.Contact` of `contactGraph`. -/
def contactMessage : Message :=
  { fullName := "pkg.Contact",
    fields := [namedMessageField "home_addr" "homeAddr" 1,
      namedMessageField "work_addr" "workAddr" 1,
      scalarField "homeAddr" .StringKind none] }

/-- The schema of `pkg.Addr`. -/
def addrSchema : Schema :=
  [("type", .str "object"),
    ("properties", .obj [("city", .obj [("type", .str "string")])]),
    ("additionalProperties", .bool false)]

/-- A message with two fields of type `pkg.Addr` under JSON names of their
own. -/
def pairGraph : Graph :=
  [ { fullName := "pkg.Pair",
      fields := [messageField "first" 1, messageField "second" 1] },
    { fullName := "pkg.Addr", fields := [scalarField "city" .StringKind none] } ]

/-- The message `pkg.Pair` of `pairGraph`. -/
def pairMessage : Message :=
  { fullName := "pkg.Pair",
    fields := [messageField "first" 1, messageField "second" 1] }

/-! ## The decode pipeline of the specification -/

/-- The strict structural decode of the specification: JSON-serialise the
mapping, then unmarshal the text into the message without discarding unknown
keys; `jsonMarshal` and `unmarshal` are the two library functions. -/
def strictDecode {Msg Doc : Type} (jsonMarshal : Option JsonMap → Result Doc)
    (unmarshal : Doc → Msg → Result Msg) (a : Option JsonMap) (m : Msg) :
    Result (Option Msg) :=
  match jsonMarshal a with
  | .error e => .error e
  | .ok b =>
    match unmarshal b m with
    | .error e => .error e
    | .ok m1 => .ok (some m1)

/-- The pipeline of the specification: success on an absent message, else the
strict structural decode of `h a`, where `a` is the given mapping, or the empty
mapping when the arguments are absent, and `h` is the configured preprocessor,
or the identity when none is set. -/
def decodePipeline {Msg Doc : Type} (h : Option ArgPreprocessor)
    (jsonMarshal : Option JsonMap → Result Doc) (unmarshal : Doc → Msg → Result Msg)
    (args : Option JsonMap) (msg : Option Msg) : Result (Option Msg) :=
  match msg with
  | none => .ok none
  | some m => strictDecode jsonMarshal unmarshal ((h.getD id) (some (args.getD []))) m

/-- Decode with the preprocessor `h` into a fresh message of descriptor `T`,
then encode the message. -/
def decodeThenEncode (h : Option ArgPreprocessor) (T : Message) (args : Option JsonMap) :
    Result JsonMap :=
  match DecodeArgs h jsonMarshal (protoUnmarshal T) args (some emptyMsg) with
  | .error e => .error e
  | .ok m => encode T m

/-- A preprocessor that tells a nil mapping from an empty one: it names the
caller `nil` on a nil mapping and leaves every other mapping as it is. -/
def nilProbe : ArgPreprocessor := fun a =>
  match a with
  | none => some [("name", .str "nil")]
  | some m => some m

/-- A preprocessor that replaces whatever it is given by one fixed mapping. -/
def fixedName : ArgPreprocessor := fun _ => some [("name", .str "Ada")]

/-- A preprocessor that returns a nil mapping. -/
def dropAll : ArgPreprocessor := fun _ => none

/-! ## Schema Emitter (`emitSchemaField`, `emitMapEntries`, `emitValue`,
`emitAnonymousValue`)

The generated file `g` is the list of the lines written by `g.P`, in order;
`g.P(a, b, ...)` writes the concatenation of its arguments as one line. -/

/-- The verbs of `fmt.Sprintf` whose output is not modelled: `quote s` is
`fmt.Sprintf("%q", s)` and `general bits` is `fmt.Sprintf("%g", x)` for the
`float64` of that bit pattern. -/
structure Verbs where
  quote : String → String
  general : Nat → String

/-- The call `fmt.Sprintf("%t", v)`. -/
def formatBool (v : Bool) : String := if v then "true" else "false"

/-- The call `fmt.Sprintf("%d", v)`. -/
def formatInt (v : Int) : String := toString v

/-- Go string comparison `s < t` on the characters of the two strings:
lexicographic, character by character. (Go compares the UTF-8 bytes, which
order strings as their code points do.) -/
def lessChars : List Char → List Char → Bool
  | [], [] => false
  | [], _ :: _ => true
  | _ :: _, [] => false
  | a :: as, b :: bs =>
    if a.toNat < b.toNat then true
    else if b.toNat < a.toNat then false
    else lessChars as bs

/-- Go string comparison `s < t`. -/
def stringLess (s t : String) : Bool := lessChars s.data t.data

/-- Insertion of a key into a sorted list of keys, after the keys that are
smaller. -/
def insertKey (s : String) : List String → List String
  | [] => [s]
  | t :: ts => if stringLess t s then t :: insertKey s ts else s :: t :: ts

/-- The call `sort.Strings(keys)`: the keys in increasing order. -/
def sortStrings : List String → List String
  | [] => []
  | s :: ss => insertKey s (sortStrings ss)

/-- Go map index `m[k]` at type `map[string]any`: the value stored under `k`,
and the nil interface, which has none of the dynamic types of the emitter,
when there is none. -/
def mapIndex (m : Schema) (k : String) : Value :=
  match mapGet m k with
  | some v => v
  | none => .other "nil"

/-- The loop `for _, k := range keys { emitValue(g, k, m[k], indent) }` of
`emitMapEntries`, over the remaining keys; `ev` is the call to `emitValue`.
The result keeps, for each key, the lines its call wrote. -/
def emitKeys (ev : String → Value → Outcome (List String)) (m : Schema) :
    List String → Outcome (List (String × List String))
  | [] => .ok []
  | k :: ks =>
    match ev k (mapIndex m k) with
    | .panic => .panic
    | .outOfFuel => .outOfFuel
    | .ok lines =>
      match emitKeys ev m ks with
      | .panic => .panic
      | .outOfFuel => .outOfFuel
      | .ok blocks => .ok ((k, lines) :: blocks)

/-- The lines of a list of blocks, in order. -/
def joinBlocks : List (String × List String) → List String
  | [] => []
  | (_, lines) :: blocks => lines ++ joinBlocks blocks

/-- The loop `for _, item := range v { emitAnonymousValue(g, item, ..) }` of
`emitValue`, over the remaining items; `ea` is the call to
`emitAnonymousValue`. -/
def emitItems (ea : Value → Outcome (List String)) : List Value → Outcome (List String)
  | [] => .ok []
  | item :: items =>
    match ea item with
    | .panic => .panic
    | .outOfFuel => .outOfFuel
    | .ok lines =>
      match emitItems ea items with
      | .panic => .panic
      | .outOfFuel => .outOfFuel
      | .ok rest => .ok (lines ++ rest)

/-- The lines between the opening line `head` and the closing line of a
composite value. -/
def bracket (head : String) (indent : String) (body : Outcome (List String)) :
    Outcome (List String) :=
  match body with
  | .panic => .panic
  | .outOfFuel => .outOfFuel
  | .ok lines => .ok ([head] ++ lines ++ [indent ++ "\x7d,"])

mutual
/-- The function `emitMapEntries`: the lines it writes. The keys are collected
in the order in which the map enumerates them, sorted, and emitted in sorted
order. -/
def emitMapEntries : Nat → Verbs → Schema → String → Outcome (List String)
  | 0, _, _, _ => .outOfFuel
  | fuel + 1, p, m, indent =>
    let keys := sortStrings (mapKeys m)
    match emitKeys (fun k val => emitValue fuel p k val indent) m keys with
    | .panic => .panic
    | .outOfFuel => .outOfFuel
    | .ok blocks => .ok (joinBlocks blocks)
/-- The function `emitValue`: the lines it writes. A value of a dynamic type
that no case of the type switch names writes nothing. -/
def emitValue : Nat → Verbs → String → Value → String → Outcome (List String)
  | 0, _, _, _, _ => .outOfFuel
  | fuel + 1, p, key, val, indent =>
    match val with
    | .str v => .ok [indent ++ p.quote key ++ ": " ++ p.quote v ++ ","]
    | .bool v => .ok [indent ++ p.quote key ++ ": " ++ formatBool v ++ ","]
    | .int v => .ok [indent ++ p.quote key ++ ": " ++ formatInt v ++ ","]
    | .float v => .ok [indent ++ p.quote key ++ ": " ++ p.general v ++ ","]
    | .strs v =>
      .ok ([indent ++ p.quote key ++ ": []string\x7b"] ++
        v.map (fun s => indent ++ "\t" ++ p.quote s ++ ",") ++ [indent ++ "\x7d,"])
    | .anys v =>
      bracket (indent ++ p.quote key ++ ": []any\x7b") indent
        (emitItems (fun item => emitAnonymousValue fuel p item (indent ++ "\t")) v)
    | .obj v =>
      bracket (indent ++ p.quote key ++ ": map[string]any\x7b") indent
        (emitMapEntries fuel p v (indent ++ "\t"))
    | .other _ => .ok []
/-- The function `emitAnonymousValue`: the lines it writes. -/
def emitAnonymousValue : Nat → Verbs → Value → String → Outcome (List String)
  | 0, _, _, _ => .outOfFuel
  | fuel + 1, p, val, indent =>
    match val with
    | .str v => .ok [indent ++ p.quote v ++ ","]
    | .bool v => .ok [indent ++ formatBool v ++ ","]
    | .int v => .ok [indent ++ formatInt v ++ ","]
    | .float v => .ok [indent ++ p.general v ++ ","]
    | .obj v =>
      bracket (indent ++ "map[string]any\x7b") indent
        (emitMapEntries fuel p v (indent ++ "\t"))
    | .strs _ => .ok []
    | .anys _ => .ok []
    | .other _ => .ok []
end

/-- The function `emitSchemaField`: the lines it writes. -/
def emitSchemaField (fuel : Nat) (p : Verbs) (fieldName : String) (schema : Schema)
    (indent : String) : Outcome (List String) :=
  bracket (indent ++ fieldName ++ ": map[string]any\x7b") indent
    (emitMapEntries fuel p schema (indent ++ "\t"))

/-- The calls of `emitValue` made by `emitMapEntries` with `fuel + 1`, one per
key in emission order, each with the lines it wrote. -/
def entryBlocks (fuel : Nat) (p : Verbs) (m : Schema) (indent : String) :
    Outcome (List (String × List String)) :=
  emitKeys (fun k val => emitValue fuel p k val indent) m (sortStrings (mapKeys m))

/-! ### Notions the statements about the emitter use -/

/-- Two schema values with the same content: the relation generated by
listing the entries of a map in another order, at any nesting level. -/
inductive SameContent : Value → Value → Prop
  | refl (v : Value) : SameContent v v
  | reorder (m1 m2 : Schema) : m1.Perm m2 → (mapKeys m1).Nodup →
      SameContent (.obj m1) (.obj m2)
  | entry (before after : Schema) (k : String) (a b : Value) : SameContent a b →
      SameContent (.obj (before ++ (k, a) :: after)) (.obj (before ++ (k, b) :: after))
  | item (before after : List Value) (a b : Value) : SameContent a b →
      SameContent (.anys (before ++ a :: after)) (.anys (before ++ b :: after))
  | trans (a b c : Value) : SameContent a b → SameContent b c → SameContent a c

mutual
/-- The value is a string, a bool, a list of strings, or a mapping all of
whose values are such. -/
def Value.plain : Value → Bool
  | .str _ => true
  | .bool _ => true
  | .strs _ => true
  | .obj m => Value.plainEntries m
  | .int _ => false
  | .float _ => false
  | .anys _ => false
  | .other _ => false
/-- All values of the mapping are plain. -/
def Value.plainEntries : List (String × Value) → Bool
  | [] => true
  | (_, v) :: rest => if v.plain then Value.plainEntries rest else false
end

mutual
/-- Nesting depth of a value, counted in calls of the emitter. -/
def Value.depth : Value → Nat
  | .obj m => Value.depthEntries m + 2
  | .anys l => Value.depthItems l + 2
  | _ => 1
/-- Largest depth of a value of the mapping. -/
def Value.depthEntries : List (String × Value) → Nat
  | [] => 0
  | (_, v) :: rest => max v.depth (Value.depthEntries rest)
/-- Largest depth of an item of the list. -/
def Value.depthItems : List Value → Nat
  | [] => 0
  | v :: rest => max v.depth (Value.depthItems rest)
end

/-- The printer used in the examples: `%q` as quotation marks around the
text, which is what Go writes for text without special characters. -/
def plainVerbs : Verbs :=
  { quote := fun s => "\"" ++ s ++ "\"", general := fun bits => toString bits }

/-- A schema listed in one order. -/
def pointSchema : Schema :=
  [("type", .str "object"),
    ("properties", .obj [("y", .obj [("type", .str "integer")]),
      ("x", .obj [("type", .str "integer")])]),
    ("additionalProperties", .bool false),
    ("required", .strs ["y", "x"])]

/-- The same schema listed in another order, at both levels. -/
def pointSchemaReordered : Schema :=
  [("required", .strs ["y", "x"]),
    ("additionalProperties", .bool false),
    ("properties", .obj [("x", .obj [("type", .str "integer")]),
      ("y", .obj [("type", .str "integer")])]),
    ("type", .str "object")]

/-! ## The expansions a run of the builder makes

The builder with a log of the calls of `buildMessageSchema`. The schema and
the visited set are computed as before; `path` and the log are added and
influence neither. -/

/-- One call of `buildMessageSchema`: the name of the message it expands, and
the names of the messages inside whose expansions the call is made, innermost
first. -/
abbrev Expansion := String × List String

/-- The result of a run without its log. -/
def withoutLog {α : Type} : Outcome (α × List Expansion) → Outcome α
  | .ok (a, _) => .ok a
  | .panic => .panic
  | .outOfFuel => .outOfFuel

/-- The field loop `fieldsLoop` of `buildMessageSchema`, with the log of the
expansions made so far as one more loop state. -/
def fieldsLoopLog (bf : Field → Seen → Outcome ((Schema × Seen) × List Expansion))
    (nc : String → String) :
    List Field → Schema → List String → Seen → List Expansion →
      Outcome ((Schema × List String × Seen) × List Expansion)
  | [], properties, required, seen, log => .ok ((properties, required, seen), log)
  | field :: rest, properties, required, seen, log =>
    if isOutputOnly field then
      fieldsLoopLog bf nc rest properties required seen log
    else
      let jsonName := field.jsonName
      match bf field seen with
      | .panic => .panic
      | .outOfFuel => .outOfFuel
      | .ok ((schema, seen), made) =>
        let desc := nc field.leading
        let schema := if desc ≠ "" then mapSet schema "description" (.str desc) else schema
        let properties := mapSet properties jsonName (.obj schema)
        let required := if isRequired field then required ++ [jsonName] else required
        fieldsLoopLog bf nc rest properties required seen (log ++ made)

mutual
/-- The function `buildMessageSchema` with its log: the call logs itself,
then the calls its fields make, which run inside the expansion of `msg`. -/
def buildMessageSchemaLog : Nat → Graph → (String → String) → List String → Message → Seen →
    Outcome ((Schema × Seen) × List Expansion)
  | 0, _, _, _, _, _ => .outOfFuel
  | fuel + 1, g, nc, path, msg, seen =>
    match fieldsLoopLog
        (fun field seen => buildFieldSchemaLog fuel g nc (msg.fullName :: path) field seen) nc
        msg.fields [] [] seen [(msg.fullName, path)] with
    | .panic => .panic
    | .outOfFuel => .outOfFuel
    | .ok ((properties, required, seen), log) =>
      .ok ((messageResult properties required, seen), log)
/-- The function `buildFieldSchema` with its log. -/
def buildFieldSchemaLog : Nat → Graph → (String → String) → List String → Field → Seen →
    Outcome ((Schema × Seen) × List Expansion)
  | 0, _, _, _, _, _ => .outOfFuel
  | fuel + 1, g, nc, path, field, seen =>
    if field.isMap then
      match field.getMessage g with
      | none => .panic
      | some entry =>
        match entry.fields[1]? with
        | none => .panic
        | some valueField =>
          match buildFieldSchemaLog fuel g nc path valueField seen with
          | .panic => .panic
          | .outOfFuel => .outOfFuel
          | .ok ((valueSchema, seen), log) =>
            .ok (([("type", .str "object"), ("additionalProperties", .obj valueSchema)], seen),
              log)
    else if field.isList then
      match buildScalarOrMessageSchemaLog fuel g nc path field seen with
      | .panic => .panic
      | .outOfFuel => .outOfFuel
      | .ok ((elemSchema, seen), log) =>
        .ok (([("type", .str "array"), ("items", .obj elemSchema)], seen), log)
    else buildScalarOrMessageSchemaLog fuel g nc path field seen
/-- The function `buildScalarOrMessageSchema` with its log. -/
def buildScalarOrMessageSchemaLog : Nat → Graph → (String → String) → List String → Field →
    Seen → Outcome ((Schema × Seen) × List Expansion)
  | 0, _, _, _, _, _ => .outOfFuel
  | fuel + 1, g, nc, path, field, seen =>
    match field.kind with
    | .MessageKind | .GroupKind => buildNestedMessageSchemaLog fuel g nc path field seen
    | _ =>
      match buildScalarOrMessageSchema 1 g nc field seen with
      | .ok r => .ok (r, [])
      | .panic => .panic
      | .outOfFuel => .outOfFuel
/-- The function `buildNestedMessageSchema` with its log. -/
def buildNestedMessageSchemaLog : Nat → Graph → (String → String) → List String → Field →
    Seen → Outcome ((Schema × Seen) × List Expansion)
  | 0, _, _, _, _, _ => .outOfFuel
  | fuel + 1, g, nc, path, field, seen =>
    match field.getMessage g with
    | none => .panic
    | some message =>
      let fullName := message.fullName
      match wellKnownSchema fullName with
      | some schema => .ok ((schema, seen), [])
      | none =>
        if seenGet seen fullName then .ok ((permissiveSchema, seen), [])
        else
          let seen := mapSet seen fullName true
          match buildMessageSchemaLog fuel g nc path message seen with
          | .panic => .panic
          | .outOfFuel => .outOfFuel
          | .ok ((schema, seen), log) => .ok ((schema, mapDelete seen fullName), log)
end

/-- A logged expansion made below `path` in a run entered with the visited set
`seen`: its path is `path` extended by the names of the expansions made on the
way down, its own name is not among those, and was not marked in `seen`. -/
def NestedIn (path : List String) (seen : Seen) (e : Expansion) : Prop :=
  ∃ ext : List String, e.2 = ext ++ path ∧ e.1 ∉ ext ∧ seenGet seen e.1 = false

/-! ## protojson on nested documents

The decoder and the encoder of `protojson` on messages with nested messages,
repeated fields, maps and enums, after the library's functions
`unmarshalMessage`, `unmarshalSingular`, `unmarshalList`, `unmarshalMap`,
`unmarshalScalar` and their `marshal` counterparts. A JSON text is represented
by the document it denotes, numbers being the integral ones. A Go map is
represented by the list of its entries, which `json.Marshal` writes sorted by
key and which are listed here as they stand; the encoder writes the fields of
a message in the order of the descriptor, and the entries of a map, which it
sorts by key, are listed as they were set. No extension is registered, so a key
of the form `[name]` is the key of no field, and the limit of 10000 nested
levels is not modelled. What the library does with base64 text, with strings
given for numbers, with the decimal text of a float above `2 ^ 24` and with
the JSON forms of the well-known types is not modelled beyond the first check
it makes: those functions are the parameters collected in `Library`. -/

namespace Protojson

/-- A `protoreflect.MapKey`. -/
inductive MapKey where
  | str (s : String)
  | bool (b : Bool)
  | int (n : Int)
  deriving DecidableEq, Repr

/-- A `protoreflect.Value` as the decoder builds it. `unset` is a field that
was not set; `float` is a float or double whose value is the integer `n`;
`other` carries, as the library represents it, any other value of kind float,
double or bytes or a message of a well-known type; `msg` holds the values of
the fields of a message in the order of its descriptor. -/
inductive ProtoValue where
  | unset
  | str (s : String)
  | bool (b : Bool)
  | int (n : Int)
  | float (n : Int)
  | enum (n : Int)
  | other (repr : Json)
  | list (l : List ProtoValue)
  | map (m : List (MapKey × ProtoValue))
  | msg (fields : List ProtoValue)

/-- The parts of `protojson` that are not modelled. `integerOfString s` is the
integer the library reads from a JSON string given for an integer field, if it
accepts the string; `floatText n` is the number denoted by the decimal text
that the library writes for the float of value `n`, the shortest that reads
back as that float; `unmarshalScalar` and `marshalScalar` decode and encode a
value of kind bytes, given as a string of base64 characters, and one of kind
float or double given as a string, and `isZero` tells whether such a value is
the zero value; `unmarshalWellKnown` and `marshalWellKnown` decode
and encode a message of the well-known type of the given full name, given as
a document of the sort that the type is written as. -/
structure Library where
  integerOfString : String → Option Int
  floatText : Int → Int
  unmarshalScalar : Kind → Json → Result Json
  marshalScalar : Kind → Json → Json
  isZero : Kind → Json → Bool
  unmarshalWellKnown : String → Json → Result Json
  marshalWellKnown : String → Json → Json

/-- The message types with a JSON form of their own (`wellKnownTypeUnmarshaler`
and `wellKnownTypeMarshaler`). -/
def wellKnown (fullName : String) : Bool :=
  decide (fullName ∈ ["google.protobuf.Any", "google.protobuf.Timestamp",
    "google.protobuf.Duration", "google.protobuf.BoolValue", "google.protobuf.Int32Value",
    "google.protobuf.Int64Value", "google.protobuf.UInt32Value",
    "google.protobuf.UInt64Value", "google.protobuf.FloatValue",
    "google.protobuf.DoubleValue", "google.protobuf.StringValue",
    "google.protobuf.BytesValue", "google.protobuf.Struct", "google.protobuf.ListValue",
    "google.protobuf.Value", "google.protobuf.FieldMask", "google.protobuf.Empty"])

/-- The first check of the decoders of the well-known types, on the sort of
the document: a timestamp, a duration and a field mask are read from a string,
`Any`, `Struct` and `Empty` from an object, `ListValue` from an array. -/
def wellKnownAdmits (fullName : String) (v : Json) : Bool :=
  if fullName = "google.protobuf.Timestamp" ∨ fullName = "google.protobuf.Duration" ∨
      fullName = "google.protobuf.FieldMask" then
    match v with
    | .str _ => true
    | _ => false
  else if fullName = "google.protobuf.Any" ∨ fullName = "google.protobuf.Struct" ∨
      fullName = "google.protobuf.Empty" then
    match v with
    | .obj _ => true
    | _ => false
  else if fullName = "google.protobuf.ListValue" then
    match v with
    | .arr _ => true
    | _ => false
  else true

/-- The function `isKnownValue`: the field is a message of type
`google.protobuf.Value`, for which `null` is a value. -/
def isKnownValue (g : Graph) (f : Field) : Bool :=
  match f.getMessage g with
  | some m => decide (m.fullName = "google.protobuf.Value")
  | none => false

/-- The 64-bit integer kinds. -/
def is64 : Kind → Bool
  | .Int64Kind | .Sint64Kind | .Sfixed64Kind | .Uint64Kind | .Fixed64Kind => true
  | _ => false

/-- The values an integer kind holds: lower bound and upper bound (excluded);
`none` for a kind that is not an integer kind. -/
def intRange : Kind → Option (Int × Int)
  | .Int32Kind | .Sint32Kind | .Sfixed32Kind => some (-(2 ^ 31), 2 ^ 31)
  | .Uint32Kind | .Fixed32Kind => some (0, 2 ^ 32)
  | .Int64Kind | .Sint64Kind | .Sfixed64Kind => some (-(2 ^ 63), 2 ^ 63)
  | .Uint64Kind | .Fixed64Kind => some (0, 2 ^ 64)
  | _ => none

/-- The function `unmarshalInt` (and `unmarshalUint`): a number within the
range of the kind, or a string from which the library reads such a number. -/
def unmarshalInt (lib : Library) (lo hi : Int) (v : Json) : Result ProtoValue :=
  match v with
  | .num n => if lo ≤ n ∧ n < hi then .ok (.int n) else .error .outOfRange
  | .str s =>
    match lib.integerOfString s with
    | some n => if lo ≤ n ∧ n < hi then .ok (.int n) else .error .outOfRange
    | none => .error .typeMismatch
  | _ => .error .typeMismatch

/-- The function `unmarshalEnum` with `DiscardUnknown: false`: the name of a
value of the enum, or a 32-bit number, or `null` for the enum
`google.protobuf.NullValue`. -/
def unmarshalEnum (f : Field) (v : Json) : Result ProtoValue :=
  match v with
  | .str s =>
    match f.enumValues.find? (fun ev => decide (ev.name = s)) with
    | some ev => .ok (.enum ev.number)
    | none => .error .typeMismatch
  | .num n => if -(2 ^ 31) ≤ n ∧ n < 2 ^ 31 then .ok (.enum n) else .error .outOfRange
  | .null => if f.isNullValue then .ok (.enum 0) else .error .typeMismatch
  | _ => .error .typeMismatch

/-- Number of binary digits of `m`, counted in at most `fuel` steps. -/
def bitsFrom : Nat → Nat → Nat
  | 0, _ => 0
  | fuel + 1, m => if m = 0 then 0 else bitsFrom fuel (m / 2) + 1

/-- Number of binary digits of `m`. -/
def bitLength (m : Nat) : Nat := bitsFrom m m

/-- The natural number `m` rounded to `p` significant binary digits, to the
nearest such number and to the even one of two that are equally near. -/
def roundBits (p : Nat) (m : Nat) : Nat :=
  if bitLength m ≤ p then m
  else
    let s := bitLength m - p
    let q := m / 2 ^ s
    let r := m % 2 ^ s
    (if 2 ^ (s - 1) < r ∨ (r = 2 ^ (s - 1) ∧ q % 2 = 1) then q + 1 else q) * 2 ^ s

/-- The function `strconv.ParseFloat` on the numeral of an integer: the nearest
float with `p` significant binary digits, `none` when that is `2 ^ emax` or
more in absolute value. -/
def roundFloat (p emax : Nat) (n : Int) : Option Int :=
  let r := roundBits p n.natAbs
  if bitLength r ≤ emax then some (if n < 0 then -(r : Int) else (r : Int)) else none

/-- The function `unmarshalFloat` for a field of kind float (`double = false`)
or double: a number is rounded to the nearest value of the kind; what is done
with a string is the library's. -/
def unmarshalFloat (lib : Library) (double : Bool) (f : Field) (v : Json) :
    Result ProtoValue :=
  match v with
  | .num n =>
    match (if double then roundFloat 53 1024 n else roundFloat 24 128 n) with
    | some r => .ok (.float r)
    | none => .error .outOfRange
  | .str _ =>
    match lib.unmarshalScalar f.kind v with
    | .ok j => .ok (.other j)
    | .error e => .error e
  | _ => .error .typeMismatch

/-- A character that a base64 text may hold: a letter, a digit, `+`, `/`, `-`,
`_`, the padding `=`, or a line break, which the decoder skips. -/
def base64Char (c : Char) : Bool :=
  c.isAlphanum || c = '+' || c = '/' || c = '-' || c = '_' || c = '=' || c = '\n' ||
    c = '\r'

/-- The function `unmarshalBytes`: a string of base64 text; a string with any
other character is refused, what is done with the others is the library's. -/
def unmarshalBytes (lib : Library) (f : Field) (v : Json) : Result ProtoValue :=
  match v with
  | .str s =>
    if s.data.all base64Char then
      match lib.unmarshalScalar f.kind v with
      | .ok j => .ok (.other j)
      | .error e => .error e
    else .error .typeMismatch
  | _ => .error .typeMismatch

/-- The function `unmarshalScalar`. -/
def unmarshalScalar (lib : Library) (f : Field) (v : Json) : Result ProtoValue :=
  match f.kind with
  | .BoolKind =>
    match v with
    | .bool b => .ok (.bool b)
    | _ => .error .typeMismatch
  | .StringKind =>
    match v with
    | .str s => .ok (.str s)
    | _ => .error .typeMismatch
  | .EnumKind => unmarshalEnum f v
  | .FloatKind => unmarshalFloat lib false f v
  | .DoubleKind => unmarshalFloat lib true f v
  | .BytesKind => unmarshalBytes lib f v
  | .MessageKind | .GroupKind | .other => .error .invalidDescriptor
  | k =>
    match intRange k with
    | some (lo, hi) => unmarshalInt lib lo hi v
    | none => .error .invalidDescriptor

/-- Value of a string of decimal digits; `none` for the empty string and for a
string with another character. -/
def digitsValue : List Char → Option Nat
  | [] => none
  | c :: cs =>
    if 48 ≤ c.toNat ∧ c.toNat ≤ 57 then
      match cs with
      | [] => some (c.toNat - 48)
      | _ :: _ =>
        match digitsValue cs with
        | some rest => some ((c.toNat - 48) * 10 ^ cs.length + rest)
        | none => none
    else none

/-- The function `strconv.ParseInt(s, 10, _)` before its range check: an
optional sign and decimal digits. -/
def parseInt (s : String) : Option Int :=
  match s.data with
  | '+' :: cs => (digitsValue cs).map (fun n => (n : Int))
  | '-' :: cs => (digitsValue cs).map (fun n => -(n : Int))
  | cs => (digitsValue cs).map (fun n => (n : Int))

/-- The function `strconv.ParseUint(s, 10, _)` before its range check: decimal
digits without sign. -/
def parseUint (s : String) : Option Int :=
  (digitsValue s.data).map (fun n => (n : Int))

/-- The function `unmarshalMapKey`: the key of a map entry from the name of
the object member, by the kind of the key field. -/
def unmarshalMapKey (keyField : Field) (name : String) : Result MapKey :=
  match keyField.kind with
  | .StringKind => .ok (.str name)
  | .BoolKind =>
    if name = "true" then .ok (.bool true)
    else if name = "false" then .ok (.bool false)
    else .error .typeMismatch
  | .Int32Kind | .Sint32Kind | .Sfixed32Kind | .Int64Kind | .Sint64Kind | .Sfixed64Kind =>
    match parseInt name, intRange keyField.kind with
    | some n, some (lo, hi) => if lo ≤ n ∧ n < hi then .ok (.int n) else .error .outOfRange
    | _, _ => .error .typeMismatch
  | .Uint32Kind | .Fixed32Kind | .Uint64Kind | .Fixed64Kind =>
    match parseUint name, intRange keyField.kind with
    | some n, some (lo, hi) => if lo ≤ n ∧ n < hi then .ok (.int n) else .error .outOfRange
    | _, _ => .error .typeMismatch
  | _ => .error .invalidDescriptor

/-- What a document is read as. -/
inductive Expect where
  | message (T : Message)
  | field (f : Field)
  | element (f : Field)

/-- What the decoder does with a document, before it reads into it: the result
is known, or the members of an object are read as the fields of a message,
the items of an array as the elements of a repeated field, or the members of
an object as the entries of a map. -/
inductive Plan where
  | done (r : Result ProtoValue)
  | members (T : Message)
  | items (f : Field)
  | entries (keyField valueField : Field)

/-- The head of `unmarshalMessage`: a well-known type has a decoder of its
own. -/
def planMessage (lib : Library) (T : Message) (v : Json) : Plan :=
  if wellKnown T.fullName then
    .done (
      if wellKnownAdmits T.fullName v then
        match lib.unmarshalWellKnown T.fullName v with
        | .ok j => .ok (.other j)
        | .error e => .error e
      else .error .typeMismatch)
  else .members T

/-- The function `unmarshalSingular`, also used for the elements of a list and
the values of a map: a message or a scalar. -/
def planSingular (lib : Library) (g : Graph) (f : Field) (v : Json) : Plan :=
  match f.kind with
  | .MessageKind | .GroupKind =>
    match f.getMessage g with
    | none => .done (.error .invalidDescriptor)
    | some m => planMessage lib m v
  | _ => .done (unmarshalScalar lib f v)

/-- The `switch` on the cardinality of a field in `unmarshalMessage`: list
first, then map, then singular. -/
def planField (lib : Library) (g : Graph) (f : Field) (v : Json) : Plan :=
  if f.isList then .items f
  else if f.isMap then
    match f.getMessage g with
    | none => .done (.error .invalidDescriptor)
    | some entry =>
      match entry.fields[0]?, entry.fields[1]? with
      | some keyField, some valueField => .entries keyField valueField
      | _, _ => .done (.error .invalidDescriptor)
  else planSingular lib g f v

/-- The dispatch of the decoder. -/
def plan (lib : Library) (g : Graph) (e : Expect) (v : Json) : Plan :=
  match e with
  | .message T => planMessage lib T v
  | .field f => planField lib g f v
  | .element f => planSingular lib g f v

/-- The keys of the entries of a map value. -/
def mapKeysOf (m : List (MapKey × ProtoValue)) : List MapKey :=
  m.map (fun e => e.1)

/-- The oneof that the field switch of `unmarshalMessage` looks at: that of a
field that is neither a list nor a map. -/
def oneofIndex (f : Field) : Option Nat :=
  if f.isList ∨ f.isMap then none else f.oneof

/-- A member of the oneof of the field has been set (`seenOneofs.Has`). -/
def oneofSet (f : Field) (seenOneofs : List Nat) : Bool :=
  match oneofIndex f with
  | some o => decide (o ∈ seenOneofs)
  | none => false

/-- The oneofs met once the field is set (`seenOneofs.Set`). -/
def markOneof (f : Field) (seenOneofs : List Nat) : List Nat :=
  match oneofIndex f with
  | some o => o :: seenOneofs
  | none => seenOneofs

mutual
/-- The decoder on one document: `unmarshalMessage`, `unmarshalSingular` and
the field switch, as `plan` dispatches them. A fresh message has every field
unset. -/
def unmarshalValue (lib : Library) (g : Graph) : Expect → Json → Result ProtoValue
  | e, v =>
    match plan lib g e v with
    | .done r => r
    | .members T =>
      match v with
      | .obj members =>
        match unmarshalMembers lib g T members [] []
            (List.replicate T.fields.length .unset) with
        | .ok vals => .ok (.msg vals)
        | .error err => .error err
      | _ => .error .typeMismatch
    | .items f =>
      match v with
      | .arr items =>
        match unmarshalList lib g f items with
        | .ok l => .ok (.list l)
        | .error err => .error err
      | _ => .error .typeMismatch
    | .entries keyField valueField =>
      match v with
      | .obj entries =>
        match unmarshalMap lib g keyField valueField entries [] with
        | .ok m => .ok (.map m)
        | .error err => .error err
      | _ => .error .typeMismatch
/-- The loop of `unmarshalMessage` over the members of an object: an unknown
key is an error (`DiscardUnknown: false`), so is a second member for one
field; a `null` member is skipped unless the field is a
`google.protobuf.Value` or a `google.protobuf.NullValue`; a second member for
one oneof is an error; any other member is decoded and set. `seenNums` holds
the fields met so far, by index, and `seenOneofs` the oneofs. -/
def unmarshalMembers (lib : Library) (g : Graph) (T : Message) :
    List (String × Json) → List Nat → List Nat → List ProtoValue →
      Result (List ProtoValue)
  | [], _, _, vals => .ok vals
  | (key, v) :: rest, seenNums, seenOneofs, vals =>
    match findField T key with
    | none => .error .unknownField
    | some (i, f) =>
      if i ∈ seenNums then .error .duplicateField
      else if v = .null ∧ isKnownValue g f = false ∧ f.isNullValue = false then
        unmarshalMembers lib g T rest (i :: seenNums) seenOneofs vals
      else if oneofSet f seenOneofs then .error .oneofSet
      else
        match unmarshalValue lib g (.field f) v with
        | .error err => .error err
        | .ok pv =>
          unmarshalMembers lib g T rest (i :: seenNums) (markOneof f seenOneofs)
            (vals.set i pv)
/-- The function `unmarshalList`, on the items of the array. -/
def unmarshalList (lib : Library) (g : Graph) (f : Field) :
    List Json → Result (List ProtoValue)
  | [] => .ok []
  | v :: rest =>
    match unmarshalValue lib g (.element f) v with
    | .error err => .error err
    | .ok pv =>
      match unmarshalList lib g f rest with
      | .error err => .error err
      | .ok l => .ok (pv :: l)
/-- The loop of `unmarshalMap` over the members of the object; `m` holds the
entries set so far. A second member for one key is an error. -/
def unmarshalMap (lib : Library) (g : Graph) (keyField valueField : Field) :
    List (String × Json) → List (MapKey × ProtoValue) → Result (List (MapKey × ProtoValue))
  | [], m => .ok m
  | (name, v) :: rest, m =>
    match unmarshalMapKey keyField name with
    | .error err => .error err
    | .ok key =>
      if key ∈ mapKeysOf m then .error .duplicateField
      else
        match unmarshalValue lib g (.element valueField) v with
        | .error err => .error err
        | .ok pv => unmarshalMap lib g keyField valueField rest (m ++ [(key, pv)])
end

/-- Whether a field holding the value is populated (`m.Has`, over which the
encoder ranges): a list or a map with an element, a message that was set, a
scalar with explicit presence that was set, a scalar without explicit presence
that is not the zero value. -/
def populated (lib : Library) (f : Field) (pv : ProtoValue) : Bool :=
  match pv with
  | .unset => false
  | .list l => !l.isEmpty
  | .map m => !m.isEmpty
  | .msg _ => true
  | .str s => f.hasPresence || decide (s ≠ "")
  | .bool b => f.hasPresence || b
  | .int n => f.hasPresence || decide (n ≠ 0)
  | .float n => f.hasPresence || decide (n ≠ 0)
  | .enum n => f.hasPresence || decide (n ≠ 0)
  | .other j =>
    f.hasPresence || decide (f.kind = .MessageKind) || decide (f.kind = .GroupKind) ||
      !lib.isZero f.kind j

/-- The function `marshalSingular` on a scalar: a 64-bit integer is written as
a decimal string, every other integer as a number, a float or double as the
shortest decimal text that reads back as it, which for a double and for a
float up to `2 ^ 24` denotes its value, an enum value as the name of the first
value of the enum with its number, or as the number when there is none, and
as `null` for the enum `google.protobuf.NullValue`. -/
def marshalScalar (lib : Library) (f : Field) (pv : ProtoValue) : Json :=
  match pv with
  | .str s => .str s
  | .bool b => .bool b
  | .int n => if is64 f.kind then .str (toString n) else .num n
  | .float n =>
    if f.kind = .FloatKind ∧ 2 ^ 24 < n.natAbs then .num (lib.floatText n) else .num n
  | .enum n =>
    if f.isNullValue then .null
    else
      match f.enumValues.find? (fun ev => decide (ev.number = n)) with
      | some ev => .str ev.name
      | none => .num n
  | .other j => lib.marshalScalar f.kind j
  | _ => .null

/-- The text of a map key in the object the encoder writes. -/
def marshalMapKey : MapKey → String
  | .str s => s
  | .bool b => if b then "true" else "false"
  | .int n => toString n

/-- What the encoder writes a value as. -/
inductive Shape where
  | scalar (f : Field)
  | wellKnown (fullName : String)
  | fields (T : Message)
  | items (f : Field)
  | entries (valueField : Field)
  | invalid

/-- The head of `marshalMessage`. -/
def shapeMessage (T : Message) : Shape :=
  if wellKnown T.fullName then .wellKnown T.fullName else .fields T

/-- The function `marshalSingular`: a message or a scalar. -/
def shapeSingular (g : Graph) (f : Field) : Shape :=
  match f.kind with
  | .MessageKind | .GroupKind =>
    match f.getMessage g with
    | none => .invalid
    | some m => shapeMessage m
  | _ => .scalar f

/-- The function `marshalValue`: list first, then map, then singular. -/
def shapeField (g : Graph) (f : Field) : Shape :=
  if f.isList then .items f
  else if f.isMap then
    match f.getMessage g with
    | none => .invalid
    | some entry =>
      match entry.fields[1]? with
      | some valueField => .entries valueField
      | none => .invalid
  else shapeSingular g f

/-- The dispatch of the encoder. -/
def shape (g : Graph) (e : Expect) : Shape :=
  match e with
  | .message T => shapeMessage T
  | .field f => shapeField g f
  | .element f => shapeSingular g f

mutual
/-- The encoder on one value: `marshalMessage`, `marshalValue` and
`marshalSingular`, as `shape` dispatches them. A value that is not of the type
of its field, which no decoded message holds, is written as `null`. -/
def marshalValue (lib : Library) (g : Graph) : Expect → ProtoValue → Json
  | e, pv =>
    match shape g e with
    | .scalar f => marshalScalar lib f pv
    | .wellKnown fullName =>
      match pv with
      | .other j => lib.marshalWellKnown fullName j
      | _ => .null
    | .fields T =>
      match pv with
      | .msg vals => .obj (marshalFields lib g T.fields vals)
      | _ => .null
    | .items f =>
      match pv with
      | .list l => .arr (marshalList lib g f l)
      | _ => .null
    | .entries valueField =>
      match pv with
      | .map m => .obj (marshalMap lib g valueField m)
      | _ => .null
    | .invalid => .null
/-- The loop of `marshalMessage` over the populated fields, in the order of
the descriptor, under their JSON names (`UseProtoNames: false`,
`EmitUnpopulated: false`). -/
def marshalFields (lib : Library) (g : Graph) :
    List Field → List ProtoValue → List (String × Json)
  | f :: fs, pv :: vals =>
    if populated lib f pv then
      (f.jsonName, marshalValue lib g (.field f) pv) :: marshalFields lib g fs vals
    else marshalFields lib g fs vals
  | _, _ => []
/-- The function `marshalList`. -/
def marshalList (lib : Library) (g : Graph) (f : Field) : List ProtoValue → List Json
  | [] => []
  | pv :: rest => marshalValue lib g (.element f) pv :: marshalList lib g f rest
/-- The function `marshalMap`, in the order in which the entries were set. -/
def marshalMap (lib : Library) (g : Graph) (valueField : Field) :
    List (MapKey × ProtoValue) → List (String × Json)
  | [] => []
  | (key, pv) :: rest =>
    (marshalMapKey key, marshalValue lib g (.element valueField) pv) ::
      marshalMap lib g valueField rest
end

mutual
/-- The function `proto.CheckInitialized`: every field with the label
`required` is populated, in the message and in every message it holds. -/
def checkInitialized (lib : Library) (g : Graph) : Expect → ProtoValue → Bool
  | e, pv =>
    match shape g e with
    | .fields T =>
      match pv with
      | .msg vals => checkInitializedFields lib g T.fields vals
      | _ => true
    | .items f =>
      match pv with
      | .list l => checkInitializedItems lib g f l
      | _ => true
    | .entries valueField =>
      match pv with
      | .map m => checkInitializedEntries lib g valueField m
      | _ => true
    | .scalar _ => true
    | .wellKnown _ => true
    | .invalid => true
/-- The check on the fields of a message: a required field is populated, and a
populated field is initialized. -/
def checkInitializedFields (lib : Library) (g : Graph) : List Field → List ProtoValue → Bool
  | f :: fs, pv :: vals =>
    if populated lib f pv then
      if checkInitialized lib g (.field f) pv then checkInitializedFields lib g fs vals else false
    else if f.requiredLabel then false
    else checkInitializedFields lib g fs vals
  | _, _ => true
/-- The check on the elements of a list. -/
def checkInitializedItems (lib : Library) (g : Graph) (f : Field) : List ProtoValue → Bool
  | [] => true
  | pv :: rest =>
    if checkInitialized lib g (.element f) pv then checkInitializedItems lib g f rest else false
/-- The check on the values of a map. -/
def checkInitializedEntries (lib : Library) (g : Graph) (valueField : Field) :
    List (MapKey × ProtoValue) → Bool
  | [] => true
  | (_, pv) :: rest =>
    if checkInitialized lib g (.element valueField) pv then
      checkInitializedEntries lib g valueField rest
    else false
end

/-- The function `protojson.Unmarshal` with `DiscardUnknown: false` and
`AllowPartial: false` for messages of descriptor `T`: the message is reset,
filled from the document and checked to be initialized. -/
def unmarshal (lib : Library) (g : Graph) (T : Message) (doc : Json) (_m : ProtoValue) :
    Result ProtoValue :=
  match unmarshalValue lib g (.message T) doc with
  | .error e => .error e
  | .ok pv => if checkInitialized lib g (.message T) pv then .ok pv else .error .notInitialized

/-- The function `protojson.Marshal` with `UseProtoNames: false`,
`EmitUnpopulated: false` and `AllowPartial: false` for messages of descriptor
`T`. -/
def marshal (lib : Library) (g : Graph) (T : Message) (m : ProtoValue) : Result Json :=
  if checkInitialized lib g (.message T) m then .ok (marshalValue lib g (.message T) m)
  else .error .notInitialized

/-- Encode of the transcoder for a message of descriptor `T`. -/
def encode (lib : Library) (g : Graph) (T : Message) (m : Option ProtoValue) :
    Result JsonMap :=
  EncodeProto (marshal lib g T) jsonUnmarshal m

end Protojson

/-! ## JSON Schema validation of call arguments

Validation after the JSON Schema specification, for the keywords the builder
writes: `type`, `enum`, `properties`, `required`, `additionalProperties` and
`items`. The keywords `format` and `description` are annotations and constrain
nothing. -/

/-- The keyword `type`. An integer is a number without fractional part, and
the numbers of a document are those. -/
def typeOK (schema : Schema) (v : Json) : Bool :=
  match mapGet schema "type" with
  | none => true
  | some (.str t) =>
    match v with
    | .null => decide (t = "null")
    | .bool _ => decide (t = "boolean")
    | .num _ => decide (t = "integer" ∨ t = "number")
    | .str _ => decide (t = "string")
    | .arr _ => decide (t = "array")
    | .obj _ => decide (t = "object")
  | some _ => false

/-- The keyword `enum`, whose values the builder writes as a list of strings. -/
def enumOK (schema : Schema) (v : Json) : Bool :=
  match mapGet schema "enum" with
  | some (.strs names) =>
    match v with
    | .str s => decide (s ∈ names)
    | _ => false
  | _ => true

/-- The keyword `required`, on the members of an object. -/
def requiredOK (schema : Schema) (members : List (String × Json)) : Bool :=
  match mapGet schema "required" with
  | some (.strs req) => req.all (fun r => decide (r ∈ mapKeys members))
  | _ => true

/-- The schema that the keywords `properties` and `additionalProperties` give
for the member of the given key: the property of that name, else the schema of
the additional properties; `none` when the member is not allowed, the empty
schema when it is not constrained. -/
def memberSchema (schema : Schema) (key : String) : Option Schema :=
  match (match mapGet schema "properties" with
    | some (.obj props) => mapGet props key
    | _ => none) with
  | some (.obj ps) => some ps
  | some _ => some []
  | none =>
    match mapGet schema "additionalProperties" with
    | some (.bool false) => none
    | some (.obj aps) => some aps
    | _ => some []

/-- The schema that the keyword `items` gives for the items of an array. -/
def itemSchema (schema : Schema) : Schema :=
  match mapGet schema "items" with
  | some (.obj s) => s
  | _ => []

mutual
/-- The document satisfies the schema. -/
def validates : Schema → Json → Bool
  | schema, v =>
    if typeOK schema v = true ∧ enumOK schema v = true then
      match v with
      | .obj members =>
        if requiredOK schema members then validMembers schema members else false
      | .arr items => validItems (itemSchema schema) items
      | .null => true
      | .bool _ => true
      | .num _ => true
      | .str _ => true
    else false
/-- Every member of the object is allowed and satisfies its schema. -/
def validMembers (schema : Schema) : List (String × Json) → Bool
  | [] => true
  | (key, v) :: rest =>
    match memberSchema schema key with
    | none => false
    | some ps => if validates ps v then validMembers schema rest else false
/-- Every item of the array satisfies the schema. -/
def validItems (schema : Schema) : List Json → Bool
  | [] => true
  | v :: rest => if validates schema v then validItems schema rest else false
end

mutual
/-- The document can be held by Go values: every object in it, at every
nesting level, has each key once, as a Go map does. -/
def distinctKeys : Json → Bool
  | .obj members => if (mapKeys members).Nodup then distinctKeysIn members else false
  | .arr items => distinctKeysAll items
  | .null => true
  | .bool _ => true
  | .num _ => true
  | .str _ => true
/-- The values of the members hold each key once. -/
def distinctKeysIn : List (String × Json) → Bool
  | [] => true
  | (_, v) :: rest => if distinctKeys v then distinctKeysIn rest else false
/-- The items hold each key once. -/
def distinctKeysAll : List Json → Bool
  | [] => true
  | v :: rest => if distinctKeys v then distinctKeysAll rest else false
end

/-! ## What the round trip is compared with

The specification's right-hand side, written on documents and descriptors
only: the mapping restricted to its populated fields, with every value kept,
but a 64-bit integer as its decimal string. -/

theorem mem_mapKeys_mapSet {α : Type} (m : List (String × α)) (k0 : String) (v : α) (k : String) :
    k ∈ mapKeys (mapSet m k0 v) ↔ k ∈ mapKeys m ∨ k = k0 := by
  induction m with
  | nil => simp [mapSet, mapKeys]
  | cons e rest ih =>
    obtain ⟨k1, v1⟩ := e
    unfold mapSet
    by_cases h : k1 = k0
    · subst h
      simp only [if_true, mapKeys, List.map_cons, List.mem_cons]
      tauto
    · simp only [h, if_false]
      simp only [mapKeys, List.map_cons, List.mem_cons] at ih ⊢
      rw [ih]
      tauto

theorem mapGet_mapSet_same {α : Type} (m : List (String × α)) (k : String) (v : α) :
    mapGet (mapSet m k v) k = some v := by
  induction m with
  | nil => simp [mapSet, mapGet]
  | cons e rest ih =>
    obtain ⟨k1, v1⟩ := e
    unfold mapSet
    by_cases h : k1 = k
    · simp [h, mapGet]
    · simp [h, mapGet, ih]

theorem mapGet_mapSet_other {α : Type} (m : List (String × α)) (k0 k : String) (v : α)
    (hk : k0 ≠ k) : mapGet (mapSet m k0 v) k = mapGet m k := by
  induction m with
  | nil => simp [mapSet, mapGet, hk]
  | cons e rest ih =>
    obtain ⟨k1, v1⟩ := e
    unfold mapSet
    by_cases h : k1 = k0
    · subst h
      simp [mapGet, hk]
    · by_cases h2 : k1 = k
      · subst h2
        simp [h, mapGet]
      · simp [h, mapGet, h2, ih]

theorem mapGet_mapDelete_same {α : Type} (m : List (String × α)) (k : String) :
    mapGet (mapDelete m k) k = none := by
  induction m with
  | nil => simp [mapDelete, mapGet]
  | cons e rest ih =>
    obtain ⟨k1, v1⟩ := e
    by_cases h : k1 = k
    · simpa [mapDelete, h] using ih
    · simpa [mapDelete, h, mapGet] using ih

theorem mapGet_mapDelete_other {α : Type} (m : List (String × α)) (k0 k : String)
    (hk : k0 ≠ k) : mapGet (mapDelete m k0) k = mapGet m k := by
  induction m with
  | nil => simp [mapDelete, mapGet]
  | cons e rest ih =>
    obtain ⟨k1, v1⟩ := e
    by_cases h : k1 = k0
    · subst h
      simpa [mapDelete, mapGet, hk] using ih
    · by_cases h2 : k1 = k
      · subst h2
        simp [mapDelete, h, mapGet]
      · simpa [mapDelete, h, mapGet, h2] using ih

theorem fieldsLoop_required (bf : Field → Seen → Outcome (Schema × Seen)) (nc : String → String) :
    ∀ (fs : List Field) (props : Schema) (req : List String) (seen : Seen)
      (props1 : Schema) (req1 : List String) (seen1 : Seen),
      fieldsLoop bf nc fs props req seen = .ok (props1, req1, seen1) →
      req1 = req ++ requiredNames fs := by
  intro fs
  induction fs with
  | nil =>
    intro props req seen props1 req1 seen1 h
    simp only [fieldsLoop, Outcome.ok.injEq, Prod.mk.injEq] at h
    simp [requiredNames, h.2.1]
  | cons f rest ih =>
    intro props req seen props1 req1 seen1 h
    unfold fieldsLoop at h
    by_cases ho : isOutputOnly f = true
    · simp only [ho, if_true] at h
      rw [ih _ _ _ _ _ _ h]
      simp [requiredNames, ho]
    · simp only [ho] at h
      cases hb : bf f seen with
      | panic => simp [hb] at h
      | outOfFuel => simp [hb] at h
      | ok r =>
        obtain ⟨schema, seen2⟩ := r
        simp only [hb] at h
        rw [ih _ _ _ _ _ _ h]
        by_cases hr : isRequired f = true
        · simp [requiredNames, ho, hr]
        · simp [requiredNames, ho, hr]

theorem fieldsLoop_keys (bf : Field → Seen → Outcome (Schema × Seen)) (nc : String → String) :
    ∀ (fs : List Field) (props : Schema) (req : List String) (seen : Seen)
      (props1 : Schema) (req1 : List String) (seen1 : Seen),
      fieldsLoop bf nc fs props req seen = .ok (props1, req1, seen1) →
      ∀ k, k ∈ mapKeys props1 ↔
        k ∈ mapKeys props ∨ ∃ f ∈ fs, isOutputOnly f = false ∧ f.jsonName = k := by
  intro fs
  induction fs with
  | nil =>
    intro props req seen props1 req1 seen1 h k
    simp only [fieldsLoop, Outcome.ok.injEq, Prod.mk.injEq] at h
    simp [h.1]
  | cons f rest ih =>
    intro props req seen props1 req1 seen1 h k
    unfold fieldsLoop at h
    by_cases ho : isOutputOnly f = true
    · simp only [ho, if_true] at h
      rw [ih _ _ _ _ _ _ h k]
      simp [ho]
    · simp only [ho] at h
      cases hb : bf f seen with
      | panic => simp [hb] at h
      | outOfFuel => simp [hb] at h
      | ok r =>
        obtain ⟨schema, seen2⟩ := r
        simp only [hb] at h
        rw [ih _ _ _ _ _ _ h k, mem_mapKeys_mapSet]
        have ho2 : isOutputOnly f = false := by simpa using ho
        constructor
        · rintro ((h1 | h1) | ⟨f2, hf2, h2⟩)
          · exact Or.inl h1
          · exact Or.inr ⟨f, List.mem_cons_self _ _, ho2, h1.symm⟩
          · exact Or.inr ⟨f2, List.mem_cons_of_mem _ hf2, h2⟩
        · rintro (h1 | ⟨f2, hf2, h2, h3⟩)
          · exact Or.inl (Or.inl h1)
          · rcases List.mem_cons.mp hf2 with h4 | h4
            · subst h4
              exact Or.inl (Or.inr h3.symm)
            · exact Or.inr ⟨f2, h4, h2, h3⟩

theorem mapGet_messageResult_properties (props : Schema) (req : List String) :
    mapGet (messageResult props req) "properties" = some (.obj props) := by
  unfold messageResult
  by_cases h : req.length > 0
  · simp only [h, if_true]
    rw [mapGet_mapSet_other _ _ _ _ (by decide)]
    simp [mapGet]
  · simp only [h, if_false]
    simp [mapGet]

theorem mapGet_messageResult_required (props : Schema) (req : List String) :
    mapGet (messageResult props req) "required" =
      if req.length > 0 then some (.strs req) else none := by
  unfold messageResult
  by_cases h : req.length > 0
  · simp only [h, if_true]
    rw [mapGet_mapSet_same]
  · simp only [h, if_false]
    simp [mapGet]

theorem buildMessageSchema_ok_inv (fuel : Nat) (g : Graph) (nc : String → String)
    (msg : Message) (seen : Seen) (schema : Schema) (seen1 : Seen)
    (h : buildMessageSchema fuel g nc msg seen = .ok (schema, seen1)) :
    ∃ fuel0 props req, fuel = fuel0 + 1 ∧ schema = messageResult props req ∧
      fieldsLoop (fun field seen => buildFieldSchema fuel0 g nc field seen) nc
        msg.fields [] [] seen = .ok (props, req, seen1) := by
  cases fuel with
  | zero => simp [buildMessageSchema] at h
  | succ fuel0 =>
    rw [buildMessageSchema] at h
    cases hl : fieldsLoop (fun field seen => buildFieldSchema fuel0 g nc field seen) nc
        msg.fields [] [] seen with
    | panic => simp [hl] at h
    | outOfFuel => simp [hl] at h
    | ok r =>
      obtain ⟨props, req, seen2⟩ := r
      simp only [hl, Outcome.ok.injEq, Prod.mk.injEq] at h
      exact ⟨fuel0, props, req, rfl, h.1.symm, by rw [← h.2]; exact hl⟩


/-! ## Fuel monotonicity -/

theorem fieldsLoop_mono (bf bf2 : Field → Seen → Outcome (Schema × Seen)) (nc : String → String)
    (hbf : ∀ f s r, bf f s = .ok r → bf2 f s = .ok r) :
    ∀ (fs : List Field) (props : Schema) (req : List String) (seen : Seen)
      (r : Schema × List String × Seen),
      fieldsLoop bf nc fs props req seen = .ok r →
      fieldsLoop bf2 nc fs props req seen = .ok r := by
  intro fs
  induction fs with
  | nil =>
    intro props req seen r h
    simpa [fieldsLoop] using h
  | cons f rest ih =>
    intro props req seen r h
    unfold fieldsLoop at h ⊢
    by_cases ho : isOutputOnly f = true
    · simp only [ho, if_true] at h ⊢
      exact ih _ _ _ _ h
    · simp only [ho] at h ⊢
      cases hb : bf f seen with
      | panic => simp [hb] at h
      | outOfFuel => simp [hb] at h
      | ok r1 =>
        obtain ⟨schema, seen2⟩ := r1
        simp only [hb] at h
        simp only [hbf f seen _ hb]
        exact ih _ _ _ _ h

/-- One more unit of fuel never changes a returned result. -/
theorem build_mono_succ (g : Graph) (nc : String → String) : ∀ fuel : Nat,
    (∀ msg seen r, buildMessageSchema fuel g nc msg seen = .ok r →
      buildMessageSchema (fuel + 1) g nc msg seen = .ok r) ∧
    (∀ f seen r, buildFieldSchema fuel g nc f seen = .ok r →
      buildFieldSchema (fuel + 1) g nc f seen = .ok r) ∧
    (∀ f seen r, buildScalarOrMessageSchema fuel g nc f seen = .ok r →
      buildScalarOrMessageSchema (fuel + 1) g nc f seen = .ok r) ∧
    (∀ f seen r, buildNestedMessageSchema fuel g nc f seen = .ok r →
      buildNestedMessageSchema (fuel + 1) g nc f seen = .ok r) := by
  intro fuel
  induction fuel with
  | zero =>
    refine ⟨?_, ?_, ?_, ?_⟩ <;> intro a seen r h
    · simp [buildMessageSchema] at h
    · simp [buildFieldSchema] at h
    · simp [buildScalarOrMessageSchema] at h
    · simp [buildNestedMessageSchema] at h
  | succ n ih =>
    obtain ⟨ihM, ihF, ihS, ihN⟩ := ih
    refine ⟨?_, ?_, ?_, ?_⟩
    · intro msg seen r h
      rw [buildMessageSchema] at h ⊢
      cases hl : fieldsLoop (fun field seen => buildFieldSchema n g nc field seen) nc
          msg.fields [] [] seen with
      | panic => simp [hl] at h
      | outOfFuel => simp [hl] at h
      | ok r1 =>
        have h2 := fieldsLoop_mono _ (fun field seen => buildFieldSchema (n + 1) g nc field seen)
          nc (fun f s r hr => ihF f s r hr) _ _ _ _ _ hl
        simp only [hl] at h
        simp only [h2]
        exact h
    · intro f seen r h
      rw [buildFieldSchema] at h ⊢
      by_cases hm : f.isMap = true
      · simp only [hm, if_true] at h ⊢
        cases hg : f.getMessage g with
        | none => simp [hg] at h
        | some entry =>
          simp only [hg] at h ⊢
          cases hv : entry.fields[1]? with
          | none => simp [hv] at h
          | some vf =>
            simp only [hv] at h ⊢
            cases hb : buildFieldSchema n g nc vf seen with
            | panic => simp [hb] at h
            | outOfFuel => simp [hb] at h
            | ok r1 =>
              simp only [hb] at h
              simp only [ihF vf seen r1 hb]
              exact h
      · simp only [hm] at h ⊢
        by_cases hl : f.isList = true
        · simp only [hl, if_true] at h ⊢
          cases hb : buildScalarOrMessageSchema n g nc f seen with
          | panic => simp [hb] at h
          | outOfFuel => simp [hb] at h
          | ok r1 =>
            simp only [hb] at h
            simp only [ihS f seen r1 hb]
            exact h
        · simp only [hl] at h ⊢
          exact ihS f seen r h
    · intro f seen r h
      rw [buildScalarOrMessageSchema] at h ⊢
      cases hk : f.kind <;> simp only [hk] at h ⊢ <;> first | exact h | exact ihN f seen r h
    · intro f seen r h
      rw [buildNestedMessageSchema] at h ⊢
      cases hg : f.getMessage g with
      | none => simp [hg] at h
      | some message =>
        simp only [hg] at h ⊢
        cases hw : wellKnownSchema message.fullName with
        | some sc =>
          simp only [hw] at h ⊢
          exact h
        | none =>
          simp only [hw] at h ⊢
          by_cases hs : seenGet seen message.fullName = true
          · simp only [hs, if_true] at h ⊢
            exact h
          · simp only [hs] at h ⊢
            cases hb : buildMessageSchema n g nc message (mapSet seen message.fullName true) with
            | panic => simp [hb] at h
            | outOfFuel => simp [hb] at h
            | ok r1 =>
              simp only [hb] at h
              simp only [ihM message _ r1 hb]
              exact h

theorem buildMessageSchema_mono (g : Graph) (nc : String → String) (msg : Message) (seen : Seen)
    (r : Schema × Seen) (fuel fuel2 : Nat) (hle : fuel ≤ fuel2)
    (h : buildMessageSchema fuel g nc msg seen = .ok r) :
    buildMessageSchema fuel2 g nc msg seen = .ok r := by
  induction hle with
  | refl => exact h
  | step _ ih => exact (build_mono_succ g nc _).1 msg seen r ih

theorem buildFieldSchema_mono (g : Graph) (nc : String → String) (f : Field) (seen : Seen)
    (r : Schema × Seen) (fuel fuel2 : Nat) (hle : fuel ≤ fuel2)
    (h : buildFieldSchema fuel g nc f seen = .ok r) :
    buildFieldSchema fuel2 g nc f seen = .ok r := by
  induction hle with
  | refl => exact h
  | step _ ih => exact (build_mono_succ g nc _).2.1 f seen r ih

theorem buildNestedMessageSchema_mono (g : Graph) (nc : String → String) (f : Field)
    (seen : Seen) (r : Schema × Seen) (fuel fuel2 : Nat) (hle : fuel ≤ fuel2)
    (h : buildNestedMessageSchema fuel g nc f seen = .ok r) :
    buildNestedMessageSchema fuel2 g nc f seen = .ok r := by
  induction hle with
  | refl => exact h
  | step _ ih => exact (build_mono_succ g nc _).2.2.2 f seen r ih

/-! ## The visited set -/

theorem seenGet_mapSet_same (seen : Seen) (n : String) (b : Bool) :
    seenGet (mapSet seen n b) n = b := by
  simp [seenGet, mapGet_mapSet_same]

theorem seenGet_mapSet_other (seen : Seen) (n m : String) (b : Bool) (h : n ≠ m) :
    seenGet (mapSet seen n b) m = seenGet seen m := by
  simp [seenGet, mapGet_mapSet_other _ _ _ _ h]

theorem seenGet_mapDelete_same (seen : Seen) (n : String) :
    seenGet (mapDelete seen n) n = false := by
  simp [seenGet, mapGet_mapDelete_same]

theorem seenGet_mapDelete_other (seen : Seen) (n m : String) (h : n ≠ m) :
    seenGet (mapDelete seen n) m = seenGet seen m := by
  simp [seenGet, mapGet_mapDelete_other _ _ _ h]

theorem SeenEq.refl (a : Seen) : SeenEq a a := fun _ => rfl

theorem SeenEq.trans {a b c : Seen} (h1 : SeenEq a b) (h2 : SeenEq b c) : SeenEq a c :=
  fun n => (h1 n).trans (h2 n)

theorem unvisited_congr (g : Graph) (a b : Seen) (h : SeenEq a b) :
    unvisited g a = unvisited g b := by
  unfold unvisited
  have : (fun n => !seenGet a n) = (fun n => !seenGet b n) := by
    funext n
    rw [h n]
  rw [this]

/-- Marking and later unmarking a name that was not marked restores the marks. -/
theorem seenEq_unmark (seen seen2 : Seen) (n : String) (hn : seenGet seen n = false)
    (h : SeenEq seen2 (mapSet seen n true)) : SeenEq (mapDelete seen2 n) seen := by
  intro m
  by_cases hm : n = m
  · subst hm
    rw [seenGet_mapDelete_same, hn]
  · rw [seenGet_mapDelete_other _ _ _ hm, h m, seenGet_mapSet_other _ _ _ _ hm]

/-- Marking an unmarked message name of the graph lowers the measure. -/
theorem unvisited_mark_lt (g : Graph) (seen : Seen) (n : String)
    (hn : seenGet seen n = false) (hmem : n ∈ g.map Message.fullName) :
    unvisited g (mapSet seen n true) < unvisited g seen := by
  unfold unvisited
  have hfun : (fun m => !seenGet (mapSet seen n true) m) =
      (fun m => decide (m ≠ n) && !seenGet seen m) := by
    funext m
    by_cases hm : n = m
    · subst hm
      simp [seenGet_mapSet_same]
    · have hm2 : m ≠ n := fun e => hm e.symm
      simp [seenGet_mapSet_other _ _ _ _ hm, hm2]
  rw [hfun, ← List.filter_filter]
  apply List.length_filter_lt_length_iff_exists.mpr
  refine ⟨n, ?_, by simp⟩
  simp [List.mem_filter, hn]
  simpa using hmem

theorem mem_names_of_getMessage (g : Graph) (f : Field) (m : Message)
    (h : f.getMessage g = some m) : m ∈ g := by
  unfold Field.getMessage at h
  cases hi : f.message with
  | none => simp [hi] at h
  | some i =>
    simp only [hi] at h
    exact List.getElem?_mem h

theorem fieldOK_of_graphOK (g : Graph) (hg : graphOK g = true) (m : Message) (hm : m ∈ g)
    (f : Field) (hf : f ∈ m.fields) : fieldOK g f = true := by
  unfold graphOK at hg
  rw [List.all_eq_true] at hg
  have := hg m hm
  rw [List.all_eq_true] at this
  exact this f hf

/-! ## Termination of the builder on valid graphs -/

theorem fieldsLoop_returns (g : Graph) (k : Nat)
    (bf : Field → Seen → Outcome (Schema × Seen)) (nc : String → String) :
    ∀ (fs : List Field),
      (∀ seen f, f ∈ fs → unvisited g seen ≤ k → ReturnsRestoring (bf f) seen) →
      ∀ (props : Schema) (req : List String) (seen : Seen), unvisited g seen ≤ k →
      ∃ p r seen1, fieldsLoop bf nc fs props req seen = .ok (p, r, seen1) ∧ SeenEq seen1 seen := by
  intro fs
  induction fs with
  | nil =>
    intro _ props req seen _
    exact ⟨props, req, seen, rfl, SeenEq.refl seen⟩
  | cons f rest ih =>
    intro hbf props req seen hk
    have ih2 := ih (fun seen f2 hf2 hk2 => hbf seen f2 (List.mem_cons_of_mem _ hf2) hk2)
    unfold fieldsLoop
    by_cases ho : isOutputOnly f = true
    · simp only [ho, if_true]
      exact ih2 props req seen hk
    · simp only [ho]
      obtain ⟨s, seen1, hrun, heq⟩ := hbf seen f (List.mem_cons_self _ _) hk
      simp only [hrun]
      have hk1 : unvisited g seen1 ≤ k := by
        rw [unvisited_congr g seen1 seen heq]
        exact hk
      obtain ⟨p, r, seen2, hrun2, heq2⟩ := ih2 _ _ seen1 hk1
      exact ⟨p, r, seen2, hrun2, heq2.trans heq⟩

theorem nested_returns (g : Graph) (nc : String → String) (fuel k : Nat)
    (hM : ∀ seen msg, msg ∈ g → unvisited g seen < k →
      ReturnsRestoring (buildMessageSchema fuel g nc msg) seen)
    (seen : Seen) (f : Field) (hk : unvisited g seen ≤ k)
    (hf : (f.getMessage g).isSome = true) :
    ReturnsRestoring (buildNestedMessageSchema (fuel + 1) g nc f) seen := by
  unfold ReturnsRestoring
  rw [buildNestedMessageSchema]
  cases hgm : f.getMessage g with
  | none => simp [hgm] at hf
  | some message =>
    simp only []
    cases hw : wellKnownSchema message.fullName with
    | some sc => exact ⟨sc, seen, rfl, SeenEq.refl seen⟩
    | none =>
      simp only []
      by_cases hs : seenGet seen message.fullName = true
      · simp only [hs, if_true]
        exact ⟨permissiveSchema, seen, rfl, SeenEq.refl seen⟩
      · simp only [hs]
        have hs2 : seenGet seen message.fullName = false := by simpa using hs
        have hmem : message ∈ g := mem_names_of_getMessage g f message hgm
        have hlt := unvisited_mark_lt g seen message.fullName hs2
          (List.mem_map_of_mem _ hmem)
        obtain ⟨s, seen1, hrun, heq⟩ := hM (mapSet seen message.fullName true) message hmem
          (lt_of_lt_of_le hlt hk)
        simp only [hrun]
        exact ⟨s, _, rfl, seenEq_unmark seen seen1 message.fullName hs2 heq⟩

theorem scalar_returns (g : Graph) (nc : String → String) (fuel : Nat)
    (seen : Seen) (f : Field)
    (hN : (f.getMessage g).isSome = true →
      ReturnsRestoring (buildNestedMessageSchema fuel g nc f) seen)
    (hf : (f.kind = .MessageKind ∨ f.kind = .GroupKind) → (f.getMessage g).isSome = true) :
    ReturnsRestoring (buildScalarOrMessageSchema (fuel + 1) g nc f) seen := by
  unfold ReturnsRestoring
  rw [buildScalarOrMessageSchema]
  cases hk : f.kind <;> simp only [] <;>
    first
    | exact ⟨_, seen, rfl, SeenEq.refl seen⟩
    | exact hN (hf (by simp [hk]))

theorem field_returns (g : Graph) (hg : graphOK g = true) (nc : String → String) (fuel : Nat)
    (seen : Seen)
    (hN : ∀ f, (f.getMessage g).isSome = true →
      ReturnsRestoring (buildNestedMessageSchema fuel g nc f) seen)
    (f : Field) (hf : fieldOK g f = true) :
    ReturnsRestoring (buildFieldSchema (fuel + 3) g nc f) seen := by
  have hS : ∀ f2 : Field, f2.isMap = false → fieldOK g f2 = true →
      ReturnsRestoring (buildScalarOrMessageSchema (fuel + 1) g nc f2) seen := by
    intro f2 hm2 hf2
    apply scalar_returns g nc fuel seen f2 (hN f2)
    intro hk
    unfold fieldOK at hf2
    simp only [hm2] at hf2
    simpa [hk] using hf2
  have hF : ∀ f2 : Field, f2.isMap = false → fieldOK g f2 = true →
      ReturnsRestoring (buildFieldSchema (fuel + 2) g nc f2) seen := by
    intro f2 hm2 hf2
    obtain ⟨s, seen1, hrun, heq⟩ := hS f2 hm2 hf2
    unfold ReturnsRestoring
    rw [buildFieldSchema]
    simp only [hm2]
    by_cases hl : f2.isList = true
    · simp only [hl, if_true, hrun]
      exact ⟨_, seen1, rfl, heq⟩
    · simp only [hl]
      exact ⟨s, seen1, hrun, heq⟩
  by_cases hm : f.isMap = true
  · unfold ReturnsRestoring
    rw [buildFieldSchema]
    simp only [hm, if_true]
    unfold fieldOK at hf
    simp only [hm, if_true] at hf
    cases hgm : f.getMessage g with
    | none => simp [hgm] at hf
    | some entry =>
      simp only [hgm] at hf ⊢
      cases hv : entry.fields[1]? with
      | none => simp [hv] at hf
      | some vf =>
        simp only [hv] at hf ⊢
        have hvm : vf.isMap = false := by simpa using hf
        have hvok : fieldOK g vf = true :=
          fieldOK_of_graphOK g hg entry (mem_names_of_getMessage g f entry hgm) vf
            (List.getElem?_mem hv)
        obtain ⟨s, seen1, hrun, heq⟩ := hF vf hvm hvok
        simp only [hrun]
        exact ⟨_, seen1, rfl, heq⟩
  · have hm2 : f.isMap = false := by simpa using hm
    obtain ⟨s, seen1, hrun, heq⟩ := hF f hm2 hf
    exact ⟨s, seen1, buildFieldSchema_mono g nc f seen _ _ _ (Nat.le_succ _) hrun, heq⟩

theorem message_returns (g : Graph) (nc : String → String) (fuel k : Nat)
    (hF : ∀ seen f, fieldOK g f = true → unvisited g seen ≤ k →
      ReturnsRestoring (buildFieldSchema fuel g nc f) seen)
    (seen : Seen) (msg : Message) (hk : unvisited g seen ≤ k)
    (hmsg : ∀ f ∈ msg.fields, fieldOK g f = true) :
    ReturnsRestoring (buildMessageSchema (fuel + 1) g nc msg) seen := by
  unfold ReturnsRestoring
  rw [buildMessageSchema]
  obtain ⟨p, r, seen1, hrun, heq⟩ := fieldsLoop_returns g k
    (fun field seen => buildFieldSchema fuel g nc field seen) nc msg.fields
    (fun seen f hf hk2 => hF seen f (hmsg f hf) hk2) [] [] seen hk
  simp only [hrun]
  exact ⟨_, seen1, rfl, heq⟩

/-- On a valid graph, `buildMessageSchema` returns within call depth `5 * k + 5`
when at most `k` messages of the graph are unvisited, and leaves the same names
marked. -/
theorem build_returns (g : Graph) (hg : graphOK g = true) (nc : String → String) :
    ∀ (k : Nat) (seen : Seen) (msg : Message), unvisited g seen ≤ k →
      (∀ f ∈ msg.fields, fieldOK g f = true) →
      ReturnsRestoring (buildMessageSchema (5 * k + 5) g nc msg) seen := by
  intro k
  induction k with
  | zero =>
    intro seen msg hk hmsg
    apply message_returns g nc 4 0 _ seen msg hk hmsg
    intro seen2 f hf hk2
    apply field_returns g hg nc 1 seen2 _ f hf
    intro f2 hf2
    apply nested_returns g nc 0 0 _ seen2 f2 hk2 hf2
    intro seen3 m _ hlt
    exact absurd hlt (Nat.not_lt_zero _)
  | succ k ih =>
    intro seen msg hk hmsg
    have e : 5 * (k + 1) + 5 = (5 * k + 5 + 1 + 3) + 1 := by ring
    rw [e]
    apply message_returns g nc _ (k + 1) _ seen msg hk hmsg
    intro seen2 f hf hk2
    apply field_returns g hg nc _ seen2 _ f hf
    intro f2 hf2
    apply nested_returns g nc _ (k + 1) _ seen2 f2 hk2 hf2
    intro seen3 m hm hlt
    apply ih seen3 m (Nat.lt_succ_iff.mp hlt)
    intro f3 hf3
    exact fieldOK_of_graphOK g hg m hm f3 hf3

/-! ## Output-only and required fields (C1, C2, C3) -/

theorem buildMessageSchema_exists (g : Graph) (nc : String → String) (msg : Message)
    (seen : Seen) (hg : graphOK g = true) (hmsg : msgOK g msg = true) :
    ∃ fuel schema seen1, buildMessageSchema fuel g nc msg seen = .ok (schema, seen1) := by
  have hm : ∀ f ∈ msg.fields, fieldOK g f = true := by
    unfold msgOK at hmsg
    rw [List.all_eq_true] at hmsg
    exact hmsg
  obtain ⟨s, seen1, hrun, _⟩ :=
    build_returns g hg nc (unvisited g seen) seen msg (le_refl _) hm
  exact ⟨_, s, seen1, hrun⟩

/-- C1: when the fields of a message have pairwise distinct JSON names, the
`properties` map of every schema `buildMessageSchema` returns has no key equal
to the JSON name of an output-only field; and on a valid descriptor graph the
function does return a schema. -/
theorem outputOnly_not_in_properties (g : Graph) (nc : String → String) (msg : Message)
    (seen : Seen) (hnd : (msg.fields.map Field.jsonName).Nodup) :
    (∀ fuel schema seen1, buildMessageSchema fuel g nc msg seen = .ok (schema, seen1) →
      ∃ props, mapGet schema "properties" = some (.obj props) ∧
        ∀ f ∈ msg.fields, isOutputOnly f = true → f.jsonName ∉ mapKeys props) ∧
    (graphOK g = true → msgOK g msg = true →
      ∃ fuel schema seen1, buildMessageSchema fuel g nc msg seen = .ok (schema, seen1)) := by
  refine ⟨?_, buildMessageSchema_exists g nc msg seen⟩
  intro fuel schema seen1 h
  obtain ⟨fuel0, props, req, _, hs, hl⟩ := buildMessageSchema_ok_inv fuel g nc msg seen schema seen1 h
  refine ⟨props, by rw [hs, mapGet_messageResult_properties], ?_⟩
  intro f hf ho hmem
  rcases (fieldsLoop_keys _ nc _ _ _ _ _ _ _ hl f.jsonName).mp hmem with h0 | ⟨f2, hf2, ho2, hj⟩
  · simp [mapKeys] at h0
  · have : f2 = f := List.inj_on_of_nodup_map hnd hf2 hf hj
    rw [this, ho] at ho2
    exact Bool.noConfusion ho2

/-- C1 witness: the account message has distinct JSON names and one output-only
field. -/
theorem outputOnly_not_in_properties_witness :
    (accountMessage.fields.map Field.jsonName).Nodup ∧
    ((∀ fuel schema seen1,
        buildMessageSchema fuel [] id accountMessage [] = .ok (schema, seen1) →
        ∃ props, mapGet schema "properties" = some (.obj props) ∧
          ∀ f ∈ accountMessage.fields, isOutputOnly f = true → f.jsonName ∉ mapKeys props) ∧
      (graphOK [] = true → msgOK [] accountMessage = true →
        ∃ fuel schema seen1,
          buildMessageSchema fuel [] id accountMessage [] = .ok (schema, seen1))) :=
  ⟨by decide, outputOnly_not_in_properties [] id accountMessage [] (by decide)⟩

/-- C2: in every schema `buildMessageSchema` returns, each field that is
required and not output-only has its JSON name in the list stored under
`required` (so the key is present); and on a valid descriptor graph the
function does return a schema. -/
theorem required_listed (g : Graph) (nc : String → String) (msg : Message) (seen : Seen) :
    (∀ fuel schema seen1, buildMessageSchema fuel g nc msg seen = .ok (schema, seen1) →
      ∀ f ∈ msg.fields, isRequired f = true → isOutputOnly f = false →
        ∃ req, mapGet schema "required" = some (.strs req) ∧ f.jsonName ∈ req) ∧
    (graphOK g = true → msgOK g msg = true →
      ∃ fuel schema seen1, buildMessageSchema fuel g nc msg seen = .ok (schema, seen1)) := by
  refine ⟨?_, buildMessageSchema_exists g nc msg seen⟩
  intro fuel schema seen1 h f hf hr ho
  obtain ⟨fuel0, props, req, _, hs, hl⟩ := buildMessageSchema_ok_inv fuel g nc msg seen schema seen1 h
  have hreq := fieldsLoop_required _ nc _ _ _ _ _ _ _ hl
  have hmem : f.jsonName ∈ req := by
    rw [hreq]
    simp only [List.nil_append, requiredNames, List.mem_map, List.mem_filter]
    exact ⟨f, ⟨hf, by simp [hr, ho]⟩, rfl⟩
  refine ⟨req, ?_, hmem⟩
  rw [hs, mapGet_messageResult_required]
  have : req.length > 0 := List.length_pos_of_mem hmem
  simp [this]

/-- C2 on the account message: the run returns a schema whose `required` list
contains the JSON name of the required field `id`. -/
theorem required_listed_witness :
    ∃ req, mapGet (messageResult
        [("id", .obj [("type", .str "string")]),
          ("age", .obj [("type", .str "integer"), ("format", .str "int32")])] ["id"])
        "required" = some (.strs req) ∧ "id" ∈ req :=
  (required_listed [] id accountMessage []).1 3 _ [] (by decide)
    (scalarField "id" .StringKind (some requiredBytes)) (by decide) (by decide) (by decide)

/-- C3 fails as stated: in `collidingMessage` the field `display_name` is
annotated both required and output-only, yet its JSON name `displayName` is in
the `required` list and is a key of `properties` of the returned schema, put
there by the later field of the same JSON name. -/
theorem both_annotated_counterexample :
    buildMessageSchema 3 [] id collidingMessage [] = .ok (collidingSchema, []) ∧
    displayNameField ∈ collidingMessage.fields ∧
    isRequired displayNameField = true ∧
    isOutputOnly displayNameField = true ∧
    mapGet collidingSchema "required" = some (.strs ["displayName"]) ∧
    mapGet collidingSchema "properties" =
      some (.obj [("displayName", .obj [("type", .str "integer"), ("format", .str "int32")])]) ∧
    displayNameField.jsonName ∈ ["displayName"] ∧
    displayNameField.jsonName ∈
      mapKeys [("displayName", Value.obj [("type", .str "integer"), ("format", .str "int32")])] := by
  decide

theorem requiredNames_subset (fs : List Field) (n : String) (h : n ∈ requiredNames fs) :
    ∃ f ∈ fs, isOutputOnly f = false ∧ isRequired f = true ∧ f.jsonName = n := by
  simp only [requiredNames, List.mem_map, List.mem_filter] at h
  obtain ⟨f, ⟨hf, hc⟩, hn⟩ := h
  simp only [Bool.and_eq_true, Bool.not_eq_true'] at hc
  exact ⟨f, hf, hc.1, hc.2, hn⟩

/-- C3, amended: in every schema `buildMessageSchema` returns, a value stored
under `required` is a non-empty list of names that are all keys of `properties`;
and a field annotated both required and output-only whose JSON name no other
field of the message shares is neither a key of `properties` nor in that list.
On a valid descriptor graph the function does return a schema. -/
theorem required_within_properties (g : Graph) (nc : String → String) (msg : Message)
    (seen : Seen) :
    (∀ fuel schema seen1, buildMessageSchema fuel g nc msg seen = .ok (schema, seen1) →
      ∃ props, mapGet schema "properties" = some (.obj props) ∧
        (∀ v, mapGet schema "required" = some v →
          ∃ req, v = .strs req ∧ req ≠ [] ∧ ∀ n ∈ req, n ∈ mapKeys props) ∧
        (∀ f ∈ msg.fields, isRequired f = true → isOutputOnly f = true →
          (∀ f2 ∈ msg.fields, f2.jsonName = f.jsonName → f2 = f) →
          f.jsonName ∉ mapKeys props ∧
          ∀ req, mapGet schema "required" = some (.strs req) → f.jsonName ∉ req)) ∧
    (graphOK g = true → msgOK g msg = true →
      ∃ fuel schema seen1, buildMessageSchema fuel g nc msg seen = .ok (schema, seen1)) := by
  refine ⟨?_, buildMessageSchema_exists g nc msg seen⟩
  intro fuel schema seen1 h
  obtain ⟨fuel0, props, req, _, hs, hl⟩ := buildMessageSchema_ok_inv fuel g nc msg seen schema seen1 h
  have hreq := fieldsLoop_required _ nc _ _ _ _ _ _ _ hl
  have hkeys := fieldsLoop_keys _ nc _ _ _ _ _ _ _ hl
  simp only [List.nil_append] at hreq
  have hget : ∀ v, mapGet schema "required" = some v → v = .strs req ∧ req ≠ [] := by
    intro v hv
    rw [hs, mapGet_messageResult_required] at hv
    by_cases hlen : req.length > 0
    · simp only [hlen, if_true, Option.some.injEq] at hv
      exact ⟨hv.symm, List.ne_nil_of_length_pos hlen⟩
    · simp [hlen] at hv
  refine ⟨props, by rw [hs, mapGet_messageResult_properties], ?_, ?_⟩
  · intro v hv
    obtain ⟨hv1, hv2⟩ := hget v hv
    refine ⟨req, hv1, hv2, ?_⟩
    intro n hn
    rw [hreq] at hn
    obtain ⟨f, hf, ho, _, hj⟩ := requiredNames_subset _ n hn
    exact (hkeys n).mpr (Or.inr ⟨f, hf, ho, hj⟩)
  · intro f hf _ ho huniq
    constructor
    · intro hmem
      rcases (hkeys f.jsonName).mp hmem with h0 | ⟨f2, hf2, ho2, hj⟩
      · simp [mapKeys] at h0
      · rw [huniq f2 hf2 hj, ho] at ho2
        exact Bool.noConfusion ho2
    · intro req2 hv hmem
      obtain ⟨hv1, _⟩ := hget _ hv
      have e : req2 = req := by
        injection hv1
      rw [e, hreq] at hmem
      obtain ⟨f2, hf2, ho2, _, hj⟩ := requiredNames_subset _ _ hmem
      rw [huniq f2 hf2 hj, ho] at ho2
      exact Bool.noConfusion ho2

/-- C3 witness: in `bothMessage` the field `a`, annotated both required and
output-only, is neither a key of `properties` nor in `required`. -/
theorem required_within_properties_witness :
    ∃ props, mapGet (messageResult
        [("b", .obj [("type", .str "integer"), ("format", .str "int32")])] ["b"])
        "properties" = some (.obj props) ∧
      (∀ v, mapGet (messageResult
          [("b", .obj [("type", .str "integer"), ("format", .str "int32")])] ["b"])
          "required" = some v →
        ∃ req, v = .strs req ∧ req ≠ [] ∧ ∀ n ∈ req, n ∈ mapKeys props) ∧
      (∀ f ∈ bothMessage.fields, isRequired f = true → isOutputOnly f = true →
        (∀ f2 ∈ bothMessage.fields, f2.jsonName = f.jsonName → f2 = f) →
        f.jsonName ∉ mapKeys props ∧
        ∀ req, mapGet (messageResult
          [("b", .obj [("type", .str "integer"), ("format", .str "int32")])] ["b"])
          "required" = some (.strs req) → f.jsonName ∉ req) :=
  (required_within_properties [] id bothMessage []).1 3 _ [] (by decide)

/-! ## Termination (C4) -/

/-- Claim C4. On every descriptor graph, cycles through singular, list and
map fields included, and for every visited set, `buildMessageSchema`
terminates: one schema is the result at every call depth from `5 * k + 5` on,
where `k` is the number of messages whose name is not marked, and the same
names are marked afterwards. The recursion is well-founded because marking a
name that was not marked, which is what every expansion in
`buildNestedMessageSchema` does, lowers `k`: a message whose name is marked is
not expanded, and one whose name is not marked is expanded with its name
marked. The graph is one of descriptors as `protogen` hands them over
(`graphOK`): a field of message kind has its message, and a map field has an
entry message whose second field, the value, is not itself a map. -/
theorem buildMessageSchema_terminates (g : Graph) (nc : String → String) (msg : Message)
    (seen : Seen) (hg : graphOK g = true) (hmsg : msgOK g msg = true) :
    (∃ schema seen1, SeenEq seen1 seen ∧
      ∀ fuel, 5 * unvisited g seen + 5 ≤ fuel →
        buildMessageSchema fuel g nc msg seen = .ok (schema, seen1)) ∧
    (∀ m ∈ g, seenGet seen m.fullName = false →
      unvisited g (mapSet seen m.fullName true) < unvisited g seen) ∧
    (∀ (fuel : Nat) (field : Field) (m : Message) (seen0 : Seen),
      field.getMessage g = some m → wellKnownSchema m.fullName = none →
      (seenGet seen0 m.fullName = true →
        buildNestedMessageSchema (fuel + 1) g nc field seen0 =
          .ok (permissiveSchema, seen0)) ∧
      (seenGet seen0 m.fullName = false →
        buildNestedMessageSchema (fuel + 1) g nc field seen0 =
          match buildMessageSchema fuel g nc m (mapSet seen0 m.fullName true) with
          | .panic => .panic
          | .outOfFuel => .outOfFuel
          | .ok (schema, seen2) => .ok (schema, mapDelete seen2 m.fullName))) := by
  have hm : ∀ f ∈ msg.fields, fieldOK g f = true := by
    unfold msgOK at hmsg
    rw [List.all_eq_true] at hmsg
    exact hmsg
  obtain ⟨s, seen1, hrun, heq⟩ :=
    build_returns g hg nc (unvisited g seen) seen msg (le_refl _) hm
  refine ⟨⟨s, seen1, heq, ?_⟩, ?_, ?_⟩
  · intro fuel hfuel
    exact buildMessageSchema_mono g nc msg seen _ _ _ hfuel hrun
  · intro m hmem hs
    exact unvisited_mark_lt g seen m.fullName hs (List.mem_map_of_mem _ hmem)
  · intro fuel field m seen0 hget hw
    constructor
    · intro hs
      rw [buildNestedMessageSchema]
      simp only [hget, hw, hs, if_true]
    · intro hs
      rw [buildNestedMessageSchema]
      simp only [hget, hw, hs, Bool.false_eq_true, if_false]

/-- C4 witness: `nodeGraph` is valid and cyclic through a singular field, a
list field, a map field and a mutual reference. -/
theorem buildMessageSchema_terminates_witness :
    graphOK nodeGraph = true ∧ msgOK nodeGraph nodeMessage = true ∧
    ((∃ schema seen1, SeenEq seen1 [] ∧
      ∀ fuel, 5 * unvisited nodeGraph [] + 5 ≤ fuel →
        buildMessageSchema fuel nodeGraph id nodeMessage [] = .ok (schema, seen1)) ∧
    (∀ m ∈ nodeGraph, seenGet [] m.fullName = false →
      unvisited nodeGraph (mapSet [] m.fullName true) < unvisited nodeGraph [])) :=
  ⟨by decide, by decide,
    (buildMessageSchema_terminates nodeGraph id nodeMessage [] (by decide) (by decide)).1,
    (buildMessageSchema_terminates nodeGraph id nodeMessage [] (by decide) (by decide)).2.1⟩

/-! ## Push/pop discipline of the visited set -/

theorem fieldsLoop_restores (bf : Field → Seen → Outcome (Schema × Seen)) (nc : String → String)
    (hbf : ∀ f seen s seen1, bf f seen = .ok (s, seen1) → SeenEq seen1 seen) :
    ∀ (fs : List Field) (props : Schema) (req : List String) (seen : Seen)
      (props1 : Schema) (req1 : List String) (seen1 : Seen),
      fieldsLoop bf nc fs props req seen = .ok (props1, req1, seen1) → SeenEq seen1 seen := by
  intro fs
  induction fs with
  | nil =>
    intro props req seen props1 req1 seen1 h
    simp only [fieldsLoop, Outcome.ok.injEq, Prod.mk.injEq] at h
    rw [← h.2.2]
    exact SeenEq.refl seen
  | cons f rest ih =>
    intro props req seen props1 req1 seen1 h
    unfold fieldsLoop at h
    by_cases ho : isOutputOnly f = true
    · simp only [ho, if_true] at h
      exact ih _ _ _ _ _ _ h
    · simp only [ho] at h
      cases hb : bf f seen with
      | panic => simp [hb] at h
      | outOfFuel => simp [hb] at h
      | ok r =>
        obtain ⟨schema, seen2⟩ := r
        simp only [hb] at h
        exact (ih _ _ _ _ _ _ h).trans (hbf f seen schema seen2 hb)

/-- Whenever a builder function returns, the same names are marked as on
entry. -/
theorem build_restores (g : Graph) (nc : String → String) : ∀ fuel : Nat,
    (∀ msg seen s seen1, buildMessageSchema fuel g nc msg seen = .ok (s, seen1) →
      SeenEq seen1 seen) ∧
    (∀ f seen s seen1, buildFieldSchema fuel g nc f seen = .ok (s, seen1) →
      SeenEq seen1 seen) ∧
    (∀ f seen s seen1, buildScalarOrMessageSchema fuel g nc f seen = .ok (s, seen1) →
      SeenEq seen1 seen) ∧
    (∀ f seen s seen1, buildNestedMessageSchema fuel g nc f seen = .ok (s, seen1) →
      SeenEq seen1 seen) := by
  intro fuel
  induction fuel with
  | zero =>
    refine ⟨?_, ?_, ?_, ?_⟩ <;> intro a seen s seen1 h
    · simp [buildMessageSchema] at h
    · simp [buildFieldSchema] at h
    · simp [buildScalarOrMessageSchema] at h
    · simp [buildNestedMessageSchema] at h
  | succ n ih =>
    obtain ⟨ihM, ihF, ihS, ihN⟩ := ih
    refine ⟨?_, ?_, ?_, ?_⟩
    · intro msg seen s seen1 h
      obtain ⟨fuel0, props, req, hfuel, _, hl⟩ :=
        buildMessageSchema_ok_inv _ g nc msg seen s seen1 h
      have e : fuel0 = n := by omega
      subst e
      exact fieldsLoop_restores _ nc (fun f seen s seen1 hr => ihF f seen s seen1 hr)
        _ _ _ _ _ _ _ hl
    · intro f seen s seen1 h
      rw [buildFieldSchema] at h
      by_cases hm : f.isMap = true
      · simp only [hm, if_true] at h
        cases hg : f.getMessage g with
        | none => simp [hg] at h
        | some entry =>
          simp only [hg] at h
          cases hv : entry.fields[1]? with
          | none => simp [hv] at h
          | some vf =>
            simp only [hv] at h
            cases hb : buildFieldSchema n g nc vf seen with
            | panic => simp [hb] at h
            | outOfFuel => simp [hb] at h
            | ok r1 =>
              obtain ⟨s2, seen2⟩ := r1
              simp only [hb, Outcome.ok.injEq, Prod.mk.injEq] at h
              rw [← h.2]
              exact ihF vf seen s2 seen2 hb
      · simp only [hm, Bool.false_eq_true, if_false] at h
        by_cases hl : f.isList = true
        · simp only [hl, if_true] at h
          cases hb : buildScalarOrMessageSchema n g nc f seen with
          | panic => simp [hb] at h
          | outOfFuel => simp [hb] at h
          | ok r1 =>
            obtain ⟨s2, seen2⟩ := r1
            simp only [hb, Outcome.ok.injEq, Prod.mk.injEq] at h
            rw [← h.2]
            exact ihS f seen s2 seen2 hb
        · simp only [hl, Bool.false_eq_true, if_false] at h
          exact ihS f seen s seen1 h
    · intro f seen s seen1 h
      rw [buildScalarOrMessageSchema] at h
      cases hk : f.kind <;> simp only [hk] at h <;>
        first
        | exact ihN f seen s seen1 h
        | (simp only [Outcome.ok.injEq, Prod.mk.injEq] at h
           rw [← h.2]
           exact SeenEq.refl seen)
    · intro f seen s seen1 h
      rw [buildNestedMessageSchema] at h
      cases hg : f.getMessage g with
      | none => simp [hg] at h
      | some message =>
        simp only [hg] at h
        cases hw : wellKnownSchema message.fullName with
        | some sc =>
          simp only [hw, Outcome.ok.injEq, Prod.mk.injEq] at h
          rw [← h.2]
          exact SeenEq.refl seen
        | none =>
          simp only [hw] at h
          by_cases hs : seenGet seen message.fullName = true
          · simp only [hs, if_true, Outcome.ok.injEq, Prod.mk.injEq] at h
            rw [← h.2]
            exact SeenEq.refl seen
          · simp only [hs, Bool.false_eq_true, if_false] at h
            have hs2 : seenGet seen message.fullName = false := by simpa using hs
            cases hb : buildMessageSchema n g nc message (mapSet seen message.fullName true) with
            | panic => simp [hb] at h
            | outOfFuel => simp [hb] at h
            | ok r1 =>
              obtain ⟨s2, seen2⟩ := r1
              simp only [hb, Outcome.ok.injEq, Prod.mk.injEq] at h
              rw [← h.2]
              exact seenEq_unmark seen seen2 message.fullName hs2 (ihM message _ s2 seen2 hb)

/-! ## What the field loop stores under a JSON name -/

/-- The loop leaves alone every key that is the JSON name of none of the fields
it writes. -/
theorem fieldsLoop_get_untouched (bf : Field → Seen → Outcome (Schema × Seen))
    (nc : String → String) (k : String) :
    ∀ (fs : List Field) (props : Schema) (req : List String) (seen : Seen)
      (props1 : Schema) (req1 : List String) (seen1 : Seen),
      fieldsLoop bf nc fs props req seen = .ok (props1, req1, seen1) →
      (∀ f ∈ fs, isOutputOnly f = false → f.jsonName ≠ k) →
      mapGet props1 k = mapGet props k := by
  intro fs
  induction fs with
  | nil =>
    intro props req seen props1 req1 seen1 h _
    simp only [fieldsLoop, Outcome.ok.injEq, Prod.mk.injEq] at h
    rw [h.1]
  | cons f rest ih =>
    intro props req seen props1 req1 seen1 h hne
    have hne2 : ∀ f2 ∈ rest, isOutputOnly f2 = false → f2.jsonName ≠ k :=
      fun f2 hf2 => hne f2 (List.mem_cons_of_mem _ hf2)
    unfold fieldsLoop at h
    by_cases ho : isOutputOnly f = true
    · simp only [ho, if_true] at h
      exact ih _ _ _ _ _ _ h hne2
    · simp only [ho] at h
      cases hb : bf f seen with
      | panic => simp [hb] at h
      | outOfFuel => simp [hb] at h
      | ok r =>
        obtain ⟨schema, seen2⟩ := r
        simp only [hb] at h
        rw [ih _ _ _ _ _ _ h hne2]
        exact mapGet_mapSet_other _ _ _ _
          (hne f (List.mem_cons_self _ _) (by simpa using ho))

/-- The value the loop stores in `properties` for a field whose JSON name no
other field shares: the schema built for it, with its description if any. -/
theorem fieldsLoop_get (bf : Field → Seen → Outcome (Schema × Seen)) (nc : String → String)
    (hbf : ∀ f seen s seen1, bf f seen = .ok (s, seen1) → SeenEq seen1 seen)
    (f : Field) (ho : isOutputOnly f = false) :
    ∀ (fs : List Field) (props : Schema) (req : List String) (seen : Seen)
      (props1 : Schema) (req1 : List String) (seen1 : Seen),
      fieldsLoop bf nc fs props req seen = .ok (props1, req1, seen1) →
      f ∈ fs → (∀ f2 ∈ fs, f2.jsonName = f.jsonName → f2 = f) →
      ∃ s seenA seenB, SeenEq seenA seen ∧ bf f seenA = .ok (s, seenB) ∧
        mapGet props1 f.jsonName = some (.obj
          (if nc f.leading ≠ "" then mapSet s "description" (.str (nc f.leading)) else s)) := by
  intro fs
  induction fs with
  | nil =>
    intro props req seen props1 req1 seen1 _ hf
    simp at hf
  | cons f0 rest ih =>
    intro props req seen props1 req1 seen1 h hf huniq
    have huniq2 : ∀ f2 ∈ rest, f2.jsonName = f.jsonName → f2 = f :=
      fun f2 hf2 => huniq f2 (List.mem_cons_of_mem _ hf2)
    unfold fieldsLoop at h
    by_cases hrest : f ∈ rest
    · by_cases ho0 : isOutputOnly f0 = true
      · simp only [ho0, if_true] at h
        exact ih _ _ _ _ _ _ h hrest huniq2
      · simp only [ho0] at h
        cases hb : bf f0 seen with
        | panic => simp [hb] at h
        | outOfFuel => simp [hb] at h
        | ok r =>
          obtain ⟨schema, seen2⟩ := r
          simp only [hb] at h
          obtain ⟨s, seenA, seenB, hA, hrun, hget⟩ := ih _ _ _ _ _ _ h hrest huniq2
          exact ⟨s, seenA, seenB, hA.trans (hbf f0 seen schema seen2 hb), hrun, hget⟩
    · have e : f = f0 := by
        rcases List.mem_cons.mp hf with h1 | h1
        · exact h1
        · exact absurd h1 hrest
      subst e
      simp only [ho] at h
      cases hb : bf f seen with
      | panic => simp [hb] at h
      | outOfFuel => simp [hb] at h
      | ok r =>
        obtain ⟨schema, seen2⟩ := r
        simp only [hb] at h
        refine ⟨schema, seen, seen2, SeenEq.refl seen, hb, ?_⟩
        have hun := fieldsLoop_get_untouched bf nc f.jsonName _ _ _ _ _ _ _ h
          (fun f2 hf2 _ hj => hrest (huniq2 f2 hf2 hj ▸ hf2))
        rw [hun, mapGet_mapSet_same]

/-! ## The cycle fallback (C5) -/

theorem nested_seen (fuel : Nat) (g : Graph) (nc : String → String) (f : Field) (seen : Seen)
    (m : Message) (hm : f.getMessage g = some m) (hw : wellKnownSchema m.fullName = none)
    (hs : seenGet seen m.fullName = true) :
    buildNestedMessageSchema (fuel + 1) g nc f seen = .ok (permissiveSchema, seen) := by
  rw [buildNestedMessageSchema]
  simp only [hm, hw, hs, if_true]

theorem field_cycle_fallback (fuel : Nat) (g : Graph) (nc : String → String) (f : Field)
    (seen : Seen) (m : Message) (s : Schema) (seen1 : Seen)
    (hm : f.getMessage g = some m) (hw : wellKnownSchema m.fullName = none)
    (hs : seenGet seen m.fullName = true)
    (hk : f.kind = .MessageKind ∨ f.kind = .GroupKind)
    (hmap : f.isMap = false) (hlist : f.isList = false)
    (h : buildFieldSchema fuel g nc f seen = .ok (s, seen1)) : s = permissiveSchema := by
  cases fuel with
  | zero => simp [buildFieldSchema] at h
  | succ n1 =>
    rw [buildFieldSchema] at h
    simp only [hmap, hlist, Bool.false_eq_true, if_false] at h
    cases n1 with
    | zero => simp [buildScalarOrMessageSchema] at h
    | succ n2 =>
      rw [buildScalarOrMessageSchema] at h
      have h2 : buildNestedMessageSchema n2 g nc f seen = .ok (s, seen1) := by
        rcases hk with hk | hk <;> simpa only [hk] using h
      cases n2 with
      | zero => simp [buildNestedMessageSchema] at h2
      | succ n3 =>
        rw [nested_seen n3 g nc f seen m hm hw hs] at h2
        simp only [Outcome.ok.injEq, Prod.mk.injEq] at h2
        exact h2.1.symm

/-- C5 fails as stated: `pkg.Rec` is directly self-referential through the
field `self_ref` (not output-only, no comment), it is expanded through
`buildNestedMessageSchema` with an empty visited set, and the entry of
`properties` under the JSON name of `self_ref` is the string schema written by
the later field of the same JSON name, not the permissive schema. -/
theorem cycle_entry_counterexample :
    recSelfField ∈ recMessage.fields ∧
    recSelfField.getMessage recGraph = some recMessage ∧
    (messageField "h" 0).getMessage recGraph = some recMessage ∧
    recSelfField.isMap = false ∧ recSelfField.isList = false ∧
    isOutputOnly recSelfField = false ∧ recSelfField.leading = "" ∧
    seenGet [] "pkg.Rec" = false ∧ wellKnownSchema "pkg.Rec" = none ∧
    buildNestedMessageSchema 6 recGraph id (messageField "h" 0) [] =
      .ok ([("type", .str "object"),
            ("properties", .obj [("selfRef", .obj [("type", .str "string")])]),
            ("additionalProperties", .bool false)], []) ∧
    mapGet [("selfRef", Value.obj [("type", .str "string")])] recSelfField.jsonName ≠
      some (.obj permissiveSchema) := by
  decide

/-- C5, amended: for a field whose message is not a well-known type and whose
full name is marked in the visited set, `buildNestedMessageSchema` returns
exactly the permissive schema at call depth one, hence without recursing, and
leaves the visited set as it is. Consequently, when a message `M` that is not
well-known and not marked is expanded through `buildNestedMessageSchema`, and
`f` is a singular field of `M` of message kind whose type is `M`, not
output-only, without a comment, whose JSON name no other field of `M` shares,
then in every schema returned the entry of `properties` under the JSON name of
`f` is exactly the permissive schema; on a valid graph a schema is returned. -/
theorem nested_cycle_fallback (g : Graph) (nc : String → String) (seen : Seen) :
    (∀ fuel f m, f.getMessage g = some m → wellKnownSchema m.fullName = none →
      seenGet seen m.fullName = true →
      buildNestedMessageSchema (fuel + 1) g nc f seen = .ok (permissiveSchema, seen)) ∧
    (∀ fuel h M f s seen1, h.getMessage g = some M → wellKnownSchema M.fullName = none →
      seenGet seen M.fullName = false →
      f ∈ M.fields → f.getMessage g = some M →
      (f.kind = .MessageKind ∨ f.kind = .GroupKind) → f.isMap = false → f.isList = false →
      isOutputOnly f = false → nc f.leading = "" →
      (∀ f2 ∈ M.fields, f2.jsonName = f.jsonName → f2 = f) →
      buildNestedMessageSchema fuel g nc h seen = .ok (s, seen1) →
      ∃ props, mapGet s "properties" = some (.obj props) ∧
        mapGet props f.jsonName = some (.obj permissiveSchema)) ∧
    (∀ h, graphOK g = true → (h.getMessage g).isSome = true →
      ∃ fuel s seen1, buildNestedMessageSchema fuel g nc h seen = .ok (s, seen1)) := by
  refine ⟨?_, ?_, ?_⟩
  · intro fuel f m hm hw hs
    exact nested_seen fuel g nc f seen m hm hw hs
  · intro fuel h M f s seen1 hM hw hs hf hfM hk hmap hlist ho hnc huniq hrun
    cases fuel with
    | zero => simp [buildNestedMessageSchema] at hrun
    | succ n =>
      rw [buildNestedMessageSchema] at hrun
      simp only [hM, hw, hs, Bool.false_eq_true, if_false] at hrun
      cases hb : buildMessageSchema n g nc M (mapSet seen M.fullName true) with
      | panic => simp [hb] at hrun
      | outOfFuel => simp [hb] at hrun
      | ok r =>
        obtain ⟨s2, seen2⟩ := r
        simp only [hb, Outcome.ok.injEq, Prod.mk.injEq] at hrun
        obtain ⟨fuel0, props, req, _, hs2, hl⟩ :=
          buildMessageSchema_ok_inv n g nc M _ s2 seen2 hb
        refine ⟨props, by rw [← hrun.1, hs2, mapGet_messageResult_properties], ?_⟩
        obtain ⟨sf, seenA, seenB, hA, hrunf, hget⟩ :=
          fieldsLoop_get _ nc (fun f seen s seen1 hr => (build_restores g nc fuel0).2.1 f seen s seen1 hr)
            f ho _ _ _ _ _ _ _ hl hf huniq
        have hsA : seenGet seenA M.fullName = true := by
          rw [hA M.fullName, seenGet_mapSet_same]
        have hsf := field_cycle_fallback fuel0 g nc f seenA M sf seenB hfM hw hsA hk hmap hlist hrunf
        rw [hget, hnc, hsf]
        simp
  · intro h hg hh
    have hN := nested_returns g nc (5 * unvisited g seen + 5) (unvisited g seen + 1)
      (fun seen2 msg hmem hlt => by
        have hret := build_returns g hg nc (unvisited g seen) seen2 msg (Nat.lt_succ_iff.mp hlt)
          (fun f hf => fieldOK_of_graphOK g hg msg hmem f hf)
        exact hret)
      seen h (Nat.le_succ _) hh
    obtain ⟨s, seen1, hrun, _⟩ := hN
    exact ⟨_, s, seen1, hrun⟩

/-- C5 witness: `pkg.Tree` with the field `next` of its own type, expanded
through `buildNestedMessageSchema` from an empty visited set. -/
theorem nested_cycle_fallback_witness :
    ∃ props, mapGet (messageResult
        [("label", .obj [("type", .str "string")]), ("next", .obj permissiveSchema)] [])
        "properties" = some (.obj props) ∧
      mapGet props (messageField "next" 0).jsonName = some (.obj permissiveSchema) :=
  (nested_cycle_fallback treeGraph id []).2.1 6 (messageField "h" 0)
    { fullName := "pkg.Tree",
      fields := [scalarField "label" .StringKind none, messageField "next" 0] }
    (messageField "next" 0) _ []
    (by decide) (by decide) (by decide) (by decide) (by decide) (by decide) (by decide)
    (by decide) (by decide) (by decide) (by decide) (by decide)

/-! ## Field lookup of the decoder -/

theorem mapGet_of_mem_nodup {α : Type} (m : List (String × α)) (k : String) (v : α)
    (hnd : (mapKeys m).Nodup) (h : (k, v) ∈ m) : mapGet m k = some v := by
  induction m with
  | nil => simp at h
  | cons e rest ih =>
    obtain ⟨k1, v1⟩ := e
    simp only [mapKeys, List.map_cons, List.nodup_cons] at hnd
    rcases List.mem_cons.mp h with h1 | h1
    · simp only [Prod.mk.injEq] at h1
      simp [mapGet, h1.1, h1.2]
    · have hne : k1 ≠ k := by
        intro e
        apply hnd.1
        rw [e]
        exact List.mem_map.mpr ⟨(k, v), h1, rfl⟩
      simp only [mapGet, hne, if_false]
      exact ih hnd.2 h1

/-! ## The scan loop, one iteration at a time -/

theorem scanLoop_succ (fuel : Nat) (unknown : List Byte) (behaviors : List Int) :
    scanLoop (fuel + 1) unknown behaviors =
      if unknown.length > 0 then
        match scanStep unknown with
        | .stop => .ok behaviors
        | .panic => .panic
        | .next rest found => scanLoop fuel rest (behaviors ++ found.toList)
      else .ok behaviors := by
  rw [scanLoop]
  by_cases hlen : unknown.length > 0
  · simp only [hlen, if_true]
    unfold scanStep
    cases ConsumeTag unknown with
    | none => rfl
    | some t =>
      obtain ⟨num, typ, n⟩ := t
      simp only []
      cases sliceFrom unknown n with
      | none => rfl
      | some u1 =>
        simp only []
        by_cases h0 : typ = VarintType
        · simp only [h0, if_true]
          cases ConsumeVarint u1 with
          | none => rfl
          | some p =>
            obtain ⟨v, m⟩ := p
            simp only []
            cases sliceFrom u1 m with
            | none => rfl
            | some u2 =>
              simp only []
              by_cases hn : num = fieldBehaviorFieldNumber
              · simp [hn]
              · simp [hn]
        · simp only [h0, if_false]
          by_cases h5 : typ = Fixed32Type
          · simp only [h5, if_true]
            cases ConsumeFixed32 u1 with
            | none => rfl
            | some p =>
              obtain ⟨v, m⟩ := p
              simp only []
              cases sliceFrom u1 m with
              | none => rfl
              | some u2 => simp
          · simp only [h5, if_false]
            by_cases h1 : typ = Fixed64Type
            · simp only [h1, if_true]
              cases ConsumeFixed64 u1 with
              | none => rfl
              | some p =>
                obtain ⟨v, m⟩ := p
                simp only []
                cases sliceFrom u1 m with
                | none => rfl
                | some u2 => simp
            · simp only [h1, if_false]
              by_cases h2 : typ = BytesType
              · simp only [h2, if_true]
                cases ConsumeBytes u1 with
                | none => rfl
                | some p =>
                  obtain ⟨v, m⟩ := p
                  simp only []
                  cases sliceFrom u1 m with
                  | none => rfl
                  | some u2 => simp
              · simp only [h2, if_false]
  · simp only [hlen, if_false]

/-! ## Lengths consumed by the wire primitives -/

theorem ConsumeVarintFrom_bounds : ∀ (b : List Byte) (i v x n : Nat), i ≤ 9 →
    ConsumeVarintFrom i v b = some (x, n) → i < n ∧ n ≤ i + b.length := by
  intro b
  induction b with
  | nil =>
    intro i v x n _ h
    simp [ConsumeVarintFrom] at h
  | cons y rest ih =>
    intro i v x n hi h
    unfold ConsumeVarintFrom at h
    simp only [] at h
    by_cases h9 : i < 9
    · simp only [h9, if_true] at h
      by_cases hy : y.val < 0x80
      · simp only [hy, if_true, Option.some.injEq, Prod.mk.injEq] at h
        simp only [List.length_cons]
        omega
      · simp only [hy, if_false] at h
        have := ih (i + 1) _ x n (by omega) h
        simp only [List.length_cons]
        omega
    · simp only [h9, if_false] at h
      by_cases hy : y.val < 2
      · simp only [hy, if_true, Option.some.injEq, Prod.mk.injEq] at h
        simp only [List.length_cons]
        omega
      · simp [hy] at h

theorem ConsumeVarint_bounds (b : List Byte) (x n : Nat) (h : ConsumeVarint b = some (x, n)) :
    1 ≤ n ∧ n ≤ b.length := by
  have := ConsumeVarintFrom_bounds b 0 0 x n (by omega) h
  omega

theorem ConsumeTag_bounds (b : List Byte) (num : Int) (typ n : Nat)
    (h : ConsumeTag b = some (num, typ, n)) : 1 ≤ n ∧ n ≤ b.length := by
  unfold ConsumeTag at h
  cases hv : ConsumeVarint b with
  | none => simp [hv] at h
  | some p =>
    obtain ⟨v, m⟩ := p
    simp only [hv] at h
    by_cases hlt : (DecodeTag v).1 < 1
    · simp [hlt] at h
    · simp only [hlt, if_false, Option.some.injEq, Prod.mk.injEq] at h
      have := ConsumeVarint_bounds b v m hv
      omega

theorem ConsumeBytes_bounds (b : List Byte) (body : List Byte) (n : Nat)
    (h : ConsumeBytes b = some (body, n)) : 1 ≤ n ∧ n ≤ b.length := by
  unfold ConsumeBytes at h
  cases hv : ConsumeVarint b with
  | none => simp [hv] at h
  | some p =>
    obtain ⟨m, k⟩ := p
    simp only [hv] at h
    have hb := ConsumeVarint_bounds b m k hv
    by_cases hgt : m > (b.drop k).length
    · rw [if_pos hgt] at h
      exact Option.noConfusion h
    · rw [if_neg hgt] at h
      simp only [Option.some.injEq, Prod.mk.injEq] at h
      simp only [List.length_drop] at hgt
      omega

theorem ConsumeFixed32_bounds (b : List Byte) (v n : Nat)
    (h : ConsumeFixed32 b = some (v, n)) : n = 4 ∧ 4 ≤ b.length := by
  unfold ConsumeFixed32 at h
  by_cases hl : b.length < 4
  · rw [if_pos hl] at h
    exact Option.noConfusion h
  · rw [if_neg hl] at h
    simp only [Option.some.injEq, Prod.mk.injEq] at h
    omega

theorem ConsumeFixed64_bounds (b : List Byte) (v n : Nat)
    (h : ConsumeFixed64 b = some (v, n)) : n = 8 ∧ 8 ≤ b.length := by
  unfold ConsumeFixed64 at h
  by_cases hl : b.length < 8
  · rw [if_pos hl] at h
    exact Option.noConfusion h
  · rw [if_neg hl] at h
    simp only [Option.some.injEq, Prod.mk.injEq] at h
    omega

theorem sliceFrom_of_le (b : List Byte) (n : Nat) (h : n ≤ b.length) :
    sliceFrom b n = some (b.drop n) := by
  simp [sliceFrom, h]

/-- One iteration never slices past the end and, when it goes on, leaves a
strictly shorter region. -/
theorem scanStep_spec (u : List Byte) :
    scanStep u ≠ .panic ∧ ∀ rest found, scanStep u = .next rest found →
      rest.length < u.length := by
  unfold scanStep
  cases ht : ConsumeTag u with
  | none => simp
  | some t =>
    obtain ⟨num, typ, n⟩ := t
    have hb := ConsumeTag_bounds u num typ n ht
    simp only [sliceFrom_of_le u n hb.2]
    have hd : (u.drop n).length + n = u.length := by
      simp only [List.length_drop]
      omega
    by_cases h0 : typ = VarintType
    · simp only [h0, if_true]
      cases hv : ConsumeVarint (u.drop n) with
      | none => simp
      | some p =>
        obtain ⟨v, m⟩ := p
        have hb2 := ConsumeVarint_bounds _ v m hv
        simp only [sliceFrom_of_le _ m hb2.2]
        refine ⟨by simp, ?_⟩
        intro rest found h
        simp only [Step.next.injEq] at h
        rw [← h.1]
        simp only [List.length_drop] at hd ⊢
        omega
    · simp only [h0, if_false]
      by_cases h5 : typ = Fixed32Type
      · simp only [h5, if_true]
        cases hv : ConsumeFixed32 (u.drop n) with
        | none => simp
        | some p =>
          obtain ⟨v, m⟩ := p
          have hb2 := ConsumeFixed32_bounds _ v m hv
          simp only [sliceFrom_of_le (u.drop n) m (by omega)]
          refine ⟨by simp, ?_⟩
          intro rest found h
          simp only [Step.next.injEq] at h
          rw [← h.1]
          simp only [List.length_drop] at hd ⊢
          omega
      · simp only [h5, if_false]
        by_cases h1 : typ = Fixed64Type
        · simp only [h1, if_true]
          cases hv : ConsumeFixed64 (u.drop n) with
          | none => simp
          | some p =>
            obtain ⟨v, m⟩ := p
            have hb2 := ConsumeFixed64_bounds _ v m hv
            simp only [sliceFrom_of_le (u.drop n) m (by omega)]
            refine ⟨by simp, ?_⟩
            intro rest found h
            simp only [Step.next.injEq] at h
            rw [← h.1]
            simp only [List.length_drop] at hd ⊢
            omega
        · simp only [h1, if_false]
          by_cases h2 : typ = BytesType
          · simp only [h2, if_true]
            cases hv : ConsumeBytes (u.drop n) with
            | none => simp
            | some p =>
              obtain ⟨body, m⟩ := p
              have hb2 := ConsumeBytes_bounds _ body m hv
              simp only [sliceFrom_of_le _ m hb2.2]
              refine ⟨by simp, ?_⟩
              intro rest found h
              simp only [Step.next.injEq] at h
              rw [← h.1]
              simp only [List.length_drop] at hd ⊢
              omega
          · simp [h2]

theorem scanLoop_nil (fuel : Nat) (behaviors : List Int) :
    scanLoop fuel [] behaviors = .ok behaviors := by
  cases fuel with
  | zero => simp [scanLoop]
  | succ n => simp [scanLoop]

/-- With one unit of fuel per byte the loop returns a list, and the list it
appends does not depend on the fuel beyond that nor on the behaviors collected
before. -/
theorem scanLoop_returns : ∀ (n : Nat) (u : List Byte), u.length ≤ n →
    ∃ l : List Int, ∀ (fuel : Nat) (behaviors : List Int), n ≤ fuel →
      scanLoop fuel u behaviors = .ok (behaviors ++ l) := by
  intro n
  induction n with
  | zero =>
    intro u hu
    have : u = [] := List.eq_nil_of_length_eq_zero (by omega)
    subst this
    exact ⟨[], fun fuel behaviors _ => by simp [scanLoop_nil]⟩
  | succ k ih =>
    intro u hu
    by_cases hlen : u.length > 0
    · have hspec := scanStep_spec u
      cases hs : scanStep u with
      | stop =>
        refine ⟨[], fun fuel behaviors hf => ?_⟩
        obtain ⟨f, rfl⟩ : ∃ f, fuel = f + 1 := ⟨fuel - 1, by omega⟩
        rw [scanLoop_succ]
        simp [hlen, hs]
      | panic => exact absurd hs hspec.1
      | next rest found =>
        have hr := hspec.2 rest found hs
        obtain ⟨l, hl⟩ := ih rest (by omega)
        refine ⟨found.toList ++ l, fun fuel behaviors hf => ?_⟩
        obtain ⟨f, rfl⟩ : ∃ f, fuel = f + 1 := ⟨fuel - 1, by omega⟩
        rw [scanLoop_succ]
        simp only [hlen, if_true, hs]
        rw [hl f _ (by omega), List.append_assoc]
    · have : u = [] := List.eq_nil_of_length_eq_zero (by omega)
      subst this
      exact ⟨[], fun fuel behaviors _ => by simp [scanLoop_nil]⟩

theorem extract_returns (u : List Byte) : ∃ l, extract u = .ok l := by
  obtain ⟨l, hl⟩ := scanLoop_returns u.length u (le_refl _)
  exact ⟨l, by simpa [extract] using hl u.length [] (le_refl _)⟩

/-- The loop on a region that starts with one iteration `next`. -/
theorem extract_step (u rest : List Byte) (found : Option Int) (l : List Int)
    (hlen : u.length > 0) (hs : scanStep u = .next rest found)
    (hrest : extract rest = .ok l) : extract u = .ok (found.toList ++ l) := by
  have hr := (scanStep_spec u).2 rest found hs
  obtain ⟨l2, hl2⟩ := scanLoop_returns rest.length rest (le_refl _)
  have e : l2 = l := by
    have := hl2 rest.length [] (le_refl _)
    unfold extract at hrest
    rw [hrest] at this
    simpa using this.symm
  subst e
  unfold extract
  obtain ⟨f, hf⟩ : ∃ f, u.length = f + 1 := ⟨u.length - 1, by omega⟩
  rw [hf, scanLoop_succ]
  simp only [hlen, if_true, hs]
  rw [hl2 f _ (by omega)]
  simp

theorem extract_stop (u : List Byte) (hs : scanStep u = .stop) : extract u = .ok [] := by
  unfold extract
  cases hl : u.length with
  | zero =>
    have : u = [] := List.eq_nil_of_length_eq_zero hl
    subst this
    simp [scanLoop]
  | succ f =>
    rw [scanLoop_succ]
    simp [hl, hs]

/-! ## Complete varints are what `ConsumeVarint` reads -/

theorem varint_step_arith (i v y : Nat) (hi : i ≤ 8) (hv : v < 2 ^ (7 * i)) (hy : y < 256) :
    (v + y * 2 ^ (7 * i)) % 2 ^ 64 = v + y * 2 ^ (7 * i) := by
  apply Nat.mod_eq_of_lt
  interval_cases i <;> norm_num at hv ⊢ <;> omega

theorem varint_last_arith (v y : Nat) (hv : v < 2 ^ (7 * 9)) (hy : y < 2) :
    (v + y * 2 ^ (7 * 9)) % 2 ^ 64 = v + y * 2 ^ (7 * 9) := by
  apply Nat.mod_eq_of_lt
  norm_num at hv ⊢
  omega

theorem varint_carry_arith (i v y x : Nat) (hi : i ≤ 8) (hv : v < 2 ^ (7 * i))
    (hy : y < 256) (hy2 : 128 ≤ y) :
    v + y * 2 ^ (7 * i) - 0x80 * 2 ^ (7 * i) < 2 ^ (7 * (i + 1)) ∧
    v + y * 2 ^ (7 * i) - 0x80 * 2 ^ (7 * i) + 2 ^ (7 * (i + 1)) * x =
      v + 2 ^ (7 * i) * (y % 128 + 128 * x) := by
  interval_cases i <;> norm_num at hv ⊢ <;> omega

theorem ConsumeVarintFrom_of_isVarint : ∀ (bs rest : List Byte) (i v : Nat),
    isVarintFrom i bs = true → v < 2 ^ (7 * i) →
    ConsumeVarintFrom i v (bs ++ rest) =
      some (v + 2 ^ (7 * i) * varintValue bs, i + bs.length) := by
  intro bs
  induction bs with
  | nil =>
    intro rest i v h _
    simp [isVarintFrom] at h
  | cons y tl ih =>
    intro rest i v h hv
    have hy : y.val < 256 := y.isLt
    unfold isVarintFrom at h
    simp only [List.cons_append]
    unfold ConsumeVarintFrom
    simp only []
    by_cases htl : tl.isEmpty = true
    · have e : tl = [] := List.isEmpty_iff.mp htl
      subst e
      simp only [List.isEmpty_nil, if_true] at h
      by_cases h9 : i < 9
      · simp only [h9, if_true, decide_eq_true_eq] at h
        rw [varint_step_arith i v y.val (by omega) hv hy]
        simp only [h9, if_true, h, varintValue, List.length_singleton]
        have : y.val % 128 = y.val := Nat.mod_eq_of_lt h
        rw [this]
        simp [Nat.mul_comm]
      · simp only [h9, if_false, decide_eq_true_eq] at h
        obtain ⟨h1, h2⟩ := h
        subst h1
        rw [varint_last_arith v y.val hv h2]
        simp only [h2, if_true, varintValue, List.length_singleton]
        have : y.val % 128 = y.val := Nat.mod_eq_of_lt (by omega)
        rw [this]
        simp [Nat.mul_comm]
    · simp only [htl, Bool.false_eq_true, if_false] at h
      by_cases hc : i < 9 ∧ 128 ≤ y.val
      swap
      · simp [hc] at h
      simp only [hc, and_self, if_true] at h
      obtain ⟨h9, h128⟩ := hc
      have hrest := h
      rw [varint_step_arith i v y.val (by omega) hv hy]
      have hnot : ¬ y.val < 0x80 := by omega
      simp only [h9, if_true, hnot, if_false]
      have ha := varint_carry_arith i v y.val (varintValue tl) (by omega) hv hy h128
      rw [ih rest (i + 1) _ hrest ha.1, ha.2]
      simp only [varintValue, List.length_cons]
      congr 2
      omega

theorem ConsumeVarint_of_isVarint (bs rest : List Byte) (h : isVarint bs = true) :
    ConsumeVarint (bs ++ rest) = some (varintValue bs, bs.length) := by
  have := ConsumeVarintFrom_of_isVarint bs rest 0 0 h (by norm_num)
  simpa [ConsumeVarint] using this

/-! ## One iteration on a complete record -/

theorem ConsumeTag_of_header (hd rest : List Byte) (h : isVarint hd = true)
    (h1 : 1 ≤ varintValue hd / 8) (h2 : varintValue hd / 8 ≤ 2 ^ 31 - 1) :
    ConsumeTag (hd ++ rest) =
      some (((varintValue hd / 8 : Nat) : Int), varintValue hd % 8, hd.length) := by
  unfold ConsumeTag
  rw [ConsumeVarint_of_isVarint hd rest h]
  simp only [DecodeTag]
  have hgt : ¬ varintValue hd / 8 > 2 ^ 31 - 1 := by omega
  simp only [hgt, if_false]
  have hlt : ¬ ((varintValue hd / 8 : Nat) : Int) < 1 := by omega
  simp only [hlt, if_false]

theorem sliceFrom_append (a rest : List Byte) : sliceFrom (a ++ rest) a.length = some rest := by
  rw [sliceFrom_of_le _ _ (by simp)]
  simp

theorem scanStep_record (r : Record) (rest : List Byte) (hr : r.complete = true) :
    scanStep (r.encode ++ rest) = .next rest r.behavior := by
  unfold Record.complete at hr
  simp only [Bool.and_eq_true, decide_eq_true_eq] at hr
  obtain ⟨⟨⟨⟨hv, h1⟩, h2⟩, htyp⟩, hp⟩ := hr
  unfold Record.fieldNumber at h1 h2
  unfold scanStep Record.encode
  rw [List.append_assoc, ConsumeTag_of_header r.header _ hv h1 h2]
  simp only [sliceFrom_append, htyp]
  cases hpay : r.payload with
  | varint enc =>
    rw [hpay] at hp
    simp only [Payload.complete] at hp
    simp only [Payload.wireType, Payload.encode, if_true,
      ConsumeVarint_of_isVarint enc rest hp, sliceFrom_append]
    unfold Record.behavior Record.fieldNumber fieldBehaviorFieldNumber
    simp only [hpay]
    by_cases hn : varintValue r.header / 8 = 1052
    · have : ((varintValue r.header / 8 : Nat) : Int) = 1052 := by omega
      rw [if_pos this, if_pos hn]
    · have : ¬ ((varintValue r.header / 8 : Nat) : Int) = 1052 := by omega
      rw [if_neg this, if_neg hn]
  | fixed32 body =>
    rw [hpay] at hp
    simp only [Payload.complete, decide_eq_true_eq] at hp
    have hc : ConsumeFixed32 (body ++ rest) = some (leValue ((body ++ rest).take 4), 4) := by
      unfold ConsumeFixed32
      have : ¬ (body ++ rest).length < 4 := by simp [hp]
      rw [if_neg this]
    have hs : sliceFrom (body ++ rest) 4 = some rest := by
      rw [← hp]
      exact sliceFrom_append body rest
    have hne : ¬ Fixed32Type = VarintType := by decide
    simp only [Payload.wireType, Payload.encode, hne, if_false, if_true, hc, hs]
    simp [Record.behavior, hpay]
  | fixed64 body =>
    rw [hpay] at hp
    simp only [Payload.complete, decide_eq_true_eq] at hp
    have hc : ConsumeFixed64 (body ++ rest) = some (leValue ((body ++ rest).take 8), 8) := by
      unfold ConsumeFixed64
      have : ¬ (body ++ rest).length < 8 := by simp [hp]
      rw [if_neg this]
    have hs : sliceFrom (body ++ rest) 8 = some rest := by
      rw [← hp]
      exact sliceFrom_append body rest
    have hne : ¬ Fixed64Type = VarintType := by decide
    have hne2 : ¬ Fixed64Type = Fixed32Type := by decide
    simp only [Payload.wireType, Payload.encode, hne, hne2, if_false, if_true, hc, hs]
    simp [Record.behavior, hpay]
  | bytes len body =>
    rw [hpay] at hp
    simp only [Payload.complete, Bool.and_eq_true, decide_eq_true_eq] at hp
    obtain ⟨hl, hlen⟩ := hp
    have hc : ConsumeBytes ((len ++ body) ++ rest) =
        some (((len ++ body ++ rest).drop len.length).take (varintValue len),
          len.length + varintValue len) := by
      unfold ConsumeBytes
      rw [List.append_assoc, ConsumeVarint_of_isVarint len _ hl]
      simp only []
      have : ¬ varintValue len > ((len ++ (body ++ rest)).drop len.length).length := by
        simp [hlen]
      rw [if_neg this]
    have hs : sliceFrom ((len ++ body) ++ rest) (len.length + varintValue len) = some rest := by
      rw [hlen, ← List.length_append]
      exact sliceFrom_append (len ++ body) rest
    have hne : ¬ BytesType = VarintType := by decide
    have hne2 : ¬ BytesType = Fixed32Type := by decide
    have hne3 : ¬ BytesType = Fixed64Type := by decide
    simp only [Payload.wireType, Payload.encode, hne, hne2, hne3, if_false, if_true, hc, hs]
    simp [Record.behavior, hpay]

theorem record_encode_pos (r : Record) (rest : List Byte) (hr : r.complete = true) :
    (r.encode ++ rest).length > 0 := by
  unfold Record.complete at hr
  simp only [Bool.and_eq_true, decide_eq_true_eq] at hr
  have hv := hr.1.1.1.1
  have : r.header ≠ [] := by
    intro e
    rw [e] at hv
    simp [isVarint, isVarintFrom] at hv
  have : r.header.length > 0 := List.length_pos.mpr this
  simp only [Record.encode, List.length_append]
  omega

/-- The extractor on complete records followed by any bytes: the behaviors of
the records, then whatever the rest yields. -/
theorem extract_records_append : ∀ (rs : List Record) (b : List Byte) (lb : List Int),
    (∀ r ∈ rs, r.complete = true) → extract b = .ok lb →
    extract (encodeAll rs ++ b) = .ok (rs.filterMap Record.behavior ++ lb) := by
  intro rs
  induction rs with
  | nil =>
    intro b lb _ hb
    simpa [encodeAll] using hb
  | cons r rs ih =>
    intro b lb hall hb
    have hr : r.complete = true := hall r (List.mem_cons_self _ _)
    have hrest := ih b lb (fun r2 h2 => hall r2 (List.mem_cons_of_mem _ h2)) hb
    have hstep := scanStep_record r (encodeAll rs ++ b) hr
    have hpos := record_encode_pos r (encodeAll rs ++ b) hr
    have := extract_step _ _ _ _ hpos hstep hrest
    simp only [encodeAll, List.append_assoc]
    rw [this]
    cases hbv : r.behavior with
    | none => simp [List.filterMap_cons, hbv]
    | some x => simp [List.filterMap_cons, hbv]

/-! ## The Annotation Extractor (C7, C8, C9) -/

theorem getFieldBehaviors_of_extract (f : Field) (u : List Byte) (l : List Int)
    (hu : f.unknown = some u) (he : extract u = .ok l) : getFieldBehaviors f = l := by
  simp [getFieldBehaviors, hu, he]

/-- C7: on a region that is a concatenation of complete records, the scan loop
of `getFieldBehaviors` returns exactly the decoded values (as `int`) of the
varint records whose field number is 1052, in order of occurrence; a record
with another field number or another wire type contributes nothing. -/
theorem extract_complete_records (rs : List Record) (h : ∀ r ∈ rs, r.complete = true) :
    extract (encodeAll rs) = .ok (rs.filterMap Record.behavior) ∧
    (∀ f : Field, f.unknown = some (encodeAll rs) →
      getFieldBehaviors f = rs.filterMap Record.behavior) ∧
    (∀ r : Record, r.fieldNumber ≠ 1052 ∨ r.payload.wireType ≠ VarintType →
      r.behavior = none) ∧
    (∀ (r : Record) (enc : List Byte), r.fieldNumber = 1052 → r.payload = .varint enc →
      r.behavior = some (toInt (varintValue enc))) := by
  have hnil : extract [] = .ok [] := by decide
  have hmain : extract (encodeAll rs) = .ok (rs.filterMap Record.behavior) := by
    have := extract_records_append rs [] [] h hnil
    simpa using this
  refine ⟨hmain, ?_, ?_, ?_⟩
  · intro f hf
    exact getFieldBehaviors_of_extract f _ _ hf hmain
  · intro r hr
    unfold Record.behavior
    cases hp : r.payload with
    | varint enc =>
      rcases hr with hr | hr
      · simp [hr]
      · simp [hp, Payload.wireType] at hr
    | fixed32 body => rfl
    | fixed64 body => rfl
    | bytes len body => rfl
  · intro r enc hn hp
    simp [Record.behavior, hp, hn]

/-- C7 witness: five complete records, among them the wanted tag once as a
length-delimited record. -/
theorem extract_complete_records_witness :
    (∀ r ∈ sampleRecords, r.complete = true) ∧
    (extract (encodeAll sampleRecords) = .ok (sampleRecords.filterMap Record.behavior) ∧
    (∀ f : Field, f.unknown = some (encodeAll sampleRecords) →
      getFieldBehaviors f = sampleRecords.filterMap Record.behavior) ∧
    (∀ r : Record, r.fieldNumber ≠ 1052 ∨ r.payload.wireType ≠ VarintType →
      r.behavior = none) ∧
    (∀ (r : Record) (enc : List Byte), r.fieldNumber = 1052 → r.payload = .varint enc →
      r.behavior = some (toInt (varintValue enc)))) :=
  ⟨by decide, extract_complete_records sampleRecords (by decide)⟩

theorem scanStep_of_unresolved (b : List Byte) (h : unresolved b = true) :
    scanStep b = .stop := by
  unfold unresolved at h
  unfold scanStep
  cases ht : ConsumeTag b with
  | none => rfl
  | some t =>
    obtain ⟨num, typ, n⟩ := t
    have hb := ConsumeTag_bounds b num typ n ht
    simp only [ht] at h
    simp only [sliceFrom_of_le b n hb.2]
    by_cases h0 : typ = VarintType
    · simp only [h0, if_true, Option.isNone_iff_eq_none] at h ⊢
      rw [h]
    · simp only [h0, if_false] at h ⊢
      by_cases h5 : typ = Fixed32Type
      · simp only [h5, if_true, decide_eq_true_eq] at h ⊢
        unfold ConsumeFixed32
        rw [if_pos h]
      · simp only [h5, if_false] at h ⊢
        by_cases h1 : typ = Fixed64Type
        · simp only [h1, if_true, decide_eq_true_eq] at h ⊢
          unfold ConsumeFixed64
          rw [if_pos h]
        · simp only [h1, if_false] at h ⊢
          by_cases h2 : typ = BytesType
          · simp only [h2, if_true, Option.isNone_iff_eq_none] at h ⊢
            rw [h]
          · simp only [h2, if_false]

/-- C8: for a region `a` made of complete records and any bytes `b`, the
extractor returns on `a`, on `b` and on `a ++ b`, and the list for `a ++ b` is
the list for `a` followed by the list for `b`; when `b` starts with a header or
length that cannot be resolved, the result on `a ++ b` is the result on `a`. -/
theorem extract_append (rs : List Record) (b : List Byte)
    (h : ∀ r ∈ rs, r.complete = true) :
    (∃ la lb, extract (encodeAll rs) = .ok la ∧ extract b = .ok lb ∧
      extract (encodeAll rs ++ b) = .ok (la ++ lb)) ∧
    (unresolved b = true → extract (encodeAll rs ++ b) = extract (encodeAll rs)) := by
  have hnil : extract [] = .ok [] := by decide
  have ha : extract (encodeAll rs) = .ok (rs.filterMap Record.behavior) := by
    simpa using extract_records_append rs [] [] h hnil
  obtain ⟨lb, hlb⟩ := extract_returns b
  refine ⟨⟨_, lb, ha, hlb, extract_records_append rs b lb h hlb⟩, ?_⟩
  intro hu
  have hstop := extract_stop b (scanStep_of_unresolved b hu)
  rw [extract_records_append rs b [] h hstop, ha]
  simp

/-- C8 witness: the sample records followed by each malformed tail. -/
theorem extract_append_witness :
    (∀ r ∈ sampleRecords, r.complete = true) ∧
    (∀ b ∈ malformedTails, unresolved b = true) ∧
    (∀ b ∈ malformedTails, extract (encodeAll sampleRecords ++ b) = .ok [2, 3]) ∧
    ((∃ la lb, extract (encodeAll sampleRecords) = .ok la ∧
        extract [0x0B, 0xE0, 0x41, 0x02] = .ok lb ∧
        extract (encodeAll sampleRecords ++ [0x0B, 0xE0, 0x41, 0x02]) = .ok (la ++ lb)) ∧
      (unresolved [0x0B, 0xE0, 0x41, 0x02] = true →
        extract (encodeAll sampleRecords ++ [0x0B, 0xE0, 0x41, 0x02]) =
          extract (encodeAll sampleRecords))) :=
  ⟨by decide, by decide, by decide,
    extract_append sampleRecords [0x0B, 0xE0, 0x41, 0x02] (by decide)⟩

/-- C9: `isRequired` is true exactly when the list extracted under tag 1052
contains 2 and `isOutputOnly` exactly when it contains 3; on every region made
of tag 1052 as a varint with value 2 followed by one complete record of another
field number, `isRequired` is true and `isOutputOnly` false, in particular on
the bytes `E0 41 02 08 01`. -/
theorem isRequired_isOutputOnly_spec :
    (∀ f : Field, isRequired f = true ↔ (2 : Int) ∈ getFieldBehaviors f) ∧
    (∀ f : Field, isOutputOnly f = true ↔ (3 : Int) ∈ getFieldBehaviors f) ∧
    (∀ (f : Field) (hd enc : List Byte) (r : Record),
      isVarint hd = true → varintValue hd = 1052 * 8 + VarintType →
      isVarint enc = true → varintValue enc = 2 →
      r.complete = true → r.fieldNumber ≠ 1052 →
      f.unknown = some (hd ++ enc ++ r.encode) →
      getFieldBehaviors f = [2] ∧ isRequired f = true ∧ isOutputOnly f = false) ∧
    (getFieldBehaviors (annotatedField [0xE0, 0x41, 0x02, 0x08, 0x01]) = [2] ∧
      isRequired (annotatedField [0xE0, 0x41, 0x02, 0x08, 0x01]) = true ∧
      isOutputOnly (annotatedField [0xE0, 0x41, 0x02, 0x08, 0x01]) = false) := by
  refine ⟨?_, ?_, ?_, by decide⟩
  · intro f
    simp [isRequired, fieldBehaviorRequired, List.any_eq_true]
  · intro f
    simp [isOutputOnly, fieldBehaviorOutputOnly, List.any_eq_true]
  · intro f hd enc r hhd hval henc hv2 hr hnum hf
    have hr0 : ({ header := hd, payload := .varint enc } : Record).complete = true := by
      simp [Record.complete, Record.fieldNumber, Payload.complete, Payload.wireType, hhd, henc,
        hval, VarintType]
    have hall : ∀ x ∈ [({ header := hd, payload := .varint enc } : Record), r],
        x.complete = true := by
      intro x hx
      simp only [List.mem_cons, List.mem_singleton, List.not_mem_nil, or_false] at hx
      rcases hx with hx | hx
      · rw [hx]
        exact hr0
      · rw [hx]
        exact hr
    have hex := (extract_records_append _ [] [] hall (by decide))
    have hb0 : ({ header := hd, payload := .varint enc } : Record).behavior = some 2 := by
      simp [Record.behavior, Record.fieldNumber, hval, hv2, VarintType, toInt]
    have hb1 : r.behavior = none := by
      unfold Record.behavior
      cases hp : r.payload <;> simp [hnum]
    have hget : getFieldBehaviors f = [2] := by
      apply getFieldBehaviors_of_extract f _ _ hf
      simpa [encodeAll, Record.encode, Payload.encode, List.filterMap_cons, hb0, hb1]
        using hex
    refine ⟨hget, ?_, ?_⟩
    · simp [isRequired, hget, fieldBehaviorRequired]
    · simp [isOutputOnly, hget, fieldBehaviorOutputOnly]

/-- C9 witness: the tag carried by a two-byte header and a non-canonical
two-byte encoding of 2, followed by a fixed64 record of field 3. -/
theorem isRequired_isOutputOnly_witness :
    getFieldBehaviors (annotatedField
      ([0xE0, 0x41] ++ [0x82, 0x00] ++
        Record.encode { header := [0x19], payload := .fixed64 [1, 2, 3, 4, 5, 6, 7, 8] })) = [2] ∧
    isRequired (annotatedField
      ([0xE0, 0x41] ++ [0x82, 0x00] ++
        Record.encode { header := [0x19], payload := .fixed64 [1, 2, 3, 4, 5, 6, 7, 8] })) = true ∧
    isOutputOnly (annotatedField
      ([0xE0, 0x41] ++ [0x82, 0x00] ++
        Record.encode { header := [0x19], payload := .fixed64 [1, 2, 3, 4, 5, 6, 7, 8] })) = false :=
  isRequired_isOutputOnly_spec.2.2.1 _ [0xE0, 0x41] [0x82, 0x00]
    { header := [0x19], payload := .fixed64 [1, 2, 3, 4, 5, 6, 7, 8] }
    (by decide) (by decide) (by decide) (by decide) (by decide) (by decide) rfl

/-! ## Enum schemas (C10) -/

theorem foldl_nonzero_names (vs : List EnumValue) (acc : List String) :
    vs.foldl (fun acc v => if v.number = 0 then acc else acc ++ [v.name]) acc =
      acc ++ (vs.filter (fun v => decide (v.number ≠ 0))).map EnumValue.name := by
  induction vs generalizing acc with
  | nil => simp
  | cons v vs ih =>
    simp only [List.foldl_cons]
    rw [ih]
    by_cases h : v.number = 0
    · simp [h]
    · simp [h]

theorem foldl_all_names (vs : List EnumValue) (acc : List String) :
    vs.foldl (fun acc v => acc ++ [v.name]) acc = acc ++ vs.map EnumValue.name := by
  induction vs generalizing acc with
  | nil => simp
  | cons v vs ih =>
    simp only [List.foldl_cons]
    rw [ih]
    simp

/-- C10: `buildEnumSchema` returns `{type: "string", enum: L}` where `L` lists,
in declaration order, the names of the values with a non-zero number when there
is one and all value names otherwise; an enum whose only value is the zero
value lists it, and an enum with a zero value and a non-zero value lists only
the non-zero value. -/
theorem buildEnumSchema_spec (f : Field) :
    buildEnumSchema f = [("type", .str "string"), ("enum", .strs (enumNames f.enumValues))] ∧
    (∀ z : EnumValue, z.number = 0 → f.enumValues = [z] →
      buildEnumSchema f = [("type", .str "string"), ("enum", .strs [z.name])]) ∧
    (∀ z n : EnumValue, z.number = 0 → n.number ≠ 0 →
      f.enumValues = [z, n] ∨ f.enumValues = [n, z] →
      buildEnumSchema f = [("type", .str "string"), ("enum", .strs [n.name])]) := by
  have hmain : buildEnumSchema f =
      [("type", .str "string"), ("enum", .strs (enumNames f.enumValues))] := by
    unfold buildEnumSchema enumNames
    simp only [foldl_nonzero_names, foldl_all_names, List.nil_append]
    by_cases hany : (f.enumValues.any (fun v => decide (v.number ≠ 0))) = true
    · have hne : ((f.enumValues.filter (fun v => decide (v.number ≠ 0))).map
          EnumValue.name).length ≠ 0 := by
        rw [List.any_eq_true] at hany
        obtain ⟨v, hv, hp⟩ := hany
        have : v ∈ f.enumValues.filter (fun v => decide (v.number ≠ 0)) :=
          List.mem_filter.mpr ⟨hv, hp⟩
        have := List.length_pos_of_mem this
        simp only [List.length_map]
        omega
      simp only [hany, if_true, hne, if_false]
    · have hnil : f.enumValues.filter (fun v => decide (v.number ≠ 0)) = [] := by
        rw [List.filter_eq_nil_iff]
        intro v hv hp
        exact hany (List.any_eq_true.mpr ⟨v, hv, hp⟩)
      rw [hnil, if_neg hany]
      simp
  refine ⟨hmain, ?_, ?_⟩
  · intro z hz hf
    rw [hmain, hf]
    simp [enumNames, hz]
  · intro z n hz hn hf
    rw [hmain]
    rcases hf with hf | hf <;> rw [hf] <;> simp [enumNames, hz, hn]

/-- C10 witness: a zero value alone, and a zero value with a non-zero one. -/
theorem buildEnumSchema_witness :
    buildEnumSchema (enumField [⟨"COLOR_UNSPECIFIED", 0⟩]) =
      [("type", .str "string"), ("enum", .strs ["COLOR_UNSPECIFIED"])] ∧
    buildEnumSchema (enumField [⟨"COLOR_UNSPECIFIED", 0⟩, ⟨"RED", 1⟩]) =
      [("type", .str "string"), ("enum", .strs ["RED"])] :=
  ⟨(buildEnumSchema_spec (enumField [⟨"COLOR_UNSPECIFIED", 0⟩])).2.1
      ⟨"COLOR_UNSPECIFIED", 0⟩ rfl rfl,
    (buildEnumSchema_spec (enumField [⟨"COLOR_UNSPECIFIED", 0⟩, ⟨"RED", 1⟩])).2.2
      ⟨"COLOR_UNSPECIFIED", 0⟩ ⟨"RED", 1⟩ rfl (by decide) (Or.inl rfl)⟩

/-! ## Well-known types (C11) -/

/-- C11: for a field whose message type has one of the listed well-known names,
`buildNestedMessageSchema` returns the table entry of that name at call depth
one, hence without expanding the message, whatever the visited set contains
and whatever fields the message has, and leaves the visited set as it is; for
`google.protobuf.Timestamp` the schema is `{type: "string", format:
"date-time"}`. -/
theorem wellKnown_fixed (g : Graph) (nc : String → String) (field : Field)
    (message : Message) (seen : Seen) (hm : field.getMessage g = some message) :
    (∀ name schema, (name, schema) ∈ wellKnownTable → message.fullName = name →
      ∀ fuel, buildNestedMessageSchema (fuel + 1) g nc field seen = .ok (schema, seen)) ∧
    (message.fullName = "google.protobuf.Timestamp" →
      ∀ fuel, buildNestedMessageSchema (fuel + 1) g nc field seen =
        .ok ([("type", .str "string"), ("format", .str "date-time")], seen)) := by
  have key : ∀ name schema, (name, schema) ∈ wellKnownTable → message.fullName = name →
      ∀ fuel, buildNestedMessageSchema (fuel + 1) g nc field seen = .ok (schema, seen) := by
    intro name schema hmem hname fuel
    have hw : wellKnownSchema name = some schema := by
      simp only [wellKnownTable, List.mem_cons, Prod.mk.injEq, List.mem_singleton,
        List.not_mem_nil, or_false] at hmem
      rcases hmem with h | h | h | h | h | h | h | h | h | h | h | h | h | h | h <;>
        (obtain ⟨h1, h2⟩ := h; subst h1 h2; decide)
    rw [buildNestedMessageSchema]
    simp only [hm, hname, hw]
  exact ⟨key, fun hname fuel => key _ _ (by simp [wellKnownTable]) hname fuel⟩

/-- C11 witness: a message named `google.protobuf.Timestamp` that has fields,
one of its own type, with its name already in the visited set. -/
theorem wellKnown_fixed_witness :
    (messageField "at" 0).getMessage timestampGraph =
      some { fullName := "google.protobuf.Timestamp",
             fields := [scalarField "seconds" .Int64Kind none,
               scalarField "nanos" .Int32Kind none, messageField "self" 0] } ∧
    ((∀ name schema, (name, schema) ∈ wellKnownTable →
        "google.protobuf.Timestamp" = name →
        ∀ fuel, buildNestedMessageSchema (fuel + 1) timestampGraph id (messageField "at" 0)
          [("google.protobuf.Timestamp", true)] =
          .ok (schema, [("google.protobuf.Timestamp", true)])) ∧
      ("google.protobuf.Timestamp" = "google.protobuf.Timestamp" →
        ∀ fuel, buildNestedMessageSchema (fuel + 1) timestampGraph id (messageField "at" 0)
          [("google.protobuf.Timestamp", true)] =
          .ok ([("type", .str "string"), ("format", .str "date-time")],
            [("google.protobuf.Timestamp", true)]))) :=
  ⟨by decide,
    wellKnown_fixed timestampGraph id (messageField "at" 0)
      { fullName := "google.protobuf.Timestamp",
        fields := [scalarField "seconds" .Int64Kind none,
          scalarField "nanos" .Int32Kind none, messageField "self" 0] }
      [("google.protobuf.Timestamp", true)] (by decide)⟩

/-! ## Scalar kinds (C13) -/

/-- C13: for a field of scalar kind, `buildScalarOrMessageSchema` returns the
table entry of the kind at call depth one and leaves the visited set as it is:
boolean, string, string/byte, integer/int32 for every 32-bit integer kind,
integer/int64 for every 64-bit integer kind, number/float, number/double, and
the empty schema for a kind outside the recognised set. -/
theorem scalar_table (g : Graph) (nc : String → String) (field : Field) (seen : Seen)
    (fuel : Nat) :
    (∀ schema, scalarTable field.kind = some schema →
      buildScalarOrMessageSchema (fuel + 1) g nc field seen = .ok (schema, seen)) ∧
    scalarTable .BoolKind = some [("type", .str "boolean")] ∧
    scalarTable .StringKind = some [("type", .str "string")] ∧
    scalarTable .BytesKind = some [("type", .str "string"), ("format", .str "byte")] ∧
    (∀ k ∈ [Kind.Int32Kind, .Sint32Kind, .Sfixed32Kind, .Uint32Kind, .Fixed32Kind],
      scalarTable k = some [("type", .str "integer"), ("format", .str "int32")]) ∧
    (∀ k ∈ [Kind.Int64Kind, .Sint64Kind, .Sfixed64Kind, .Uint64Kind, .Fixed64Kind],
      scalarTable k = some [("type", .str "integer"), ("format", .str "int64")]) ∧
    scalarTable .FloatKind = some [("type", .str "number"), ("format", .str "float")] ∧
    scalarTable .DoubleKind = some [("type", .str "number"), ("format", .str "double")] ∧
    scalarTable .other = some [] := by
  refine ⟨?_, rfl, rfl, rfl, by decide, by decide, rfl, rfl, rfl⟩
  intro schema hs
  rw [buildScalarOrMessageSchema]
  cases hk : field.kind <;> simp only [hk, scalarTable, Option.some.injEq] at hs <;>
    first
    | (subst hs; rfl)
    | exact Option.noConfusion hs

/-- C13 witness: an unsigned 64-bit field. -/
theorem scalar_table_witness :
    buildScalarOrMessageSchema 1 [] id (scalarField "n" .Uint64Kind none) [] =
      .ok ([("type", .str "integer"), ("format", .str "int64")], []) :=
  (scalar_table [] id (scalarField "n" .Uint64Kind none) [] 0).1 _ rfl

/-! ## Dispatch of `buildFieldSchema` (C12) -/

/-- C12: `buildFieldSchema` is the prioritised dispatch. For a map field whose
entry message has the value field `valueField`, it returns `{type: "object",
additionalProperties: S}` exactly when `S` is the schema returned for
`valueField`; otherwise, for a list field, `{type: "array", items: E}` exactly
when `E` is the scalar-or-message schema of the field; otherwise it is the
scalar-or-message schema of the field. A map whose value field is a singular
string gives `{type: "object", additionalProperties: {type: "string"}}`,
the key field never being read. -/
theorem buildFieldSchema_dispatch (g : Graph) (nc : String → String) (field : Field)
    (seen : Seen) (fuel : Nat) :
    (field.isMap = true → ∀ entry valueField, field.getMessage g = some entry →
      entry.fields[1]? = some valueField →
      ∀ s seen1, buildFieldSchema (fuel + 1) g nc field seen = .ok (s, seen1) ↔
        ∃ S, buildFieldSchema fuel g nc valueField seen = .ok (S, seen1) ∧
          s = [("type", .str "object"), ("additionalProperties", .obj S)]) ∧
    (field.isMap = false → field.isList = true →
      ∀ s seen1, buildFieldSchema (fuel + 1) g nc field seen = .ok (s, seen1) ↔
        ∃ E, buildScalarOrMessageSchema fuel g nc field seen = .ok (E, seen1) ∧
          s = [("type", .str "array"), ("items", .obj E)]) ∧
    (field.isMap = false → field.isList = false →
      buildFieldSchema (fuel + 1) g nc field seen =
        buildScalarOrMessageSchema fuel g nc field seen) ∧
    (field.isMap = true → ∀ entry valueField, field.getMessage g = some entry →
      entry.fields[1]? = some valueField → valueField.isMap = false →
      valueField.isList = false → valueField.kind = .StringKind →
      buildFieldSchema (fuel + 3) g nc field seen =
        .ok ([("type", .str "object"),
              ("additionalProperties", .obj [("type", .str "string")])], seen)) := by
  refine ⟨?_, ?_, ?_, ?_⟩
  · intro hmap entry valueField hm hv s seen1
    rw [buildFieldSchema]
    simp only [hmap, if_true, hm, hv]
    cases hb : buildFieldSchema fuel g nc valueField seen with
    | panic => simp
    | outOfFuel => simp
    | ok r =>
      obtain ⟨S, seen2⟩ := r
      simp only [Outcome.ok.injEq, Prod.mk.injEq]
      constructor
      · rintro ⟨h1, h2⟩
        exact ⟨S, ⟨rfl, h2⟩, h1.symm⟩
      · rintro ⟨S2, ⟨h1, h2⟩, h3⟩
        exact ⟨by rw [h3, h1], h2⟩
  · intro hmap hlist s seen1
    rw [buildFieldSchema]
    simp only [hmap, hlist, Bool.false_eq_true, if_false, if_true]
    cases hb : buildScalarOrMessageSchema fuel g nc field seen with
    | panic => simp
    | outOfFuel => simp
    | ok r =>
      obtain ⟨E, seen2⟩ := r
      simp only [Outcome.ok.injEq, Prod.mk.injEq]
      constructor
      · rintro ⟨h1, h2⟩
        exact ⟨E, ⟨rfl, h2⟩, h1.symm⟩
      · rintro ⟨E2, ⟨h1, h2⟩, h3⟩
        exact ⟨by rw [h3, h1], h2⟩
  · intro hmap hlist
    rw [buildFieldSchema]
    simp only [hmap, hlist, Bool.false_eq_true, if_false]
  · intro hmap entry valueField hm hv hvmap hvlist hvkind
    have hs : buildScalarOrMessageSchema (fuel + 1) g nc valueField seen =
        .ok ([("type", .str "string")], seen) := by
      rw [buildScalarOrMessageSchema]
      simp only [hvkind]
    have hf : buildFieldSchema (fuel + 2) g nc valueField seen =
        .ok ([("type", .str "string")], seen) := by
      rw [buildFieldSchema]
      simp only [hvmap, hvlist, Bool.false_eq_true, if_false, hs]
    rw [buildFieldSchema]
    simp only [hmap, if_true, hm, hv, hf]

/-- C12 witness: a map with string values, once with a string key and once
with a 64-bit integer key. -/
theorem buildFieldSchema_dispatch_witness :
    buildFieldSchema 3 (stringMapGraph .StringKind) id (mapField "labels" 1) [] =
      .ok ([("type", .str "object"),
            ("additionalProperties", .obj [("type", .str "string")])], []) ∧
    buildFieldSchema 3 (stringMapGraph .Int64Kind) id (mapField "labels" 1) [] =
      .ok ([("type", .str "object"),
            ("additionalProperties", .obj [("type", .str "string")])], []) :=
  ⟨(buildFieldSchema_dispatch (stringMapGraph .StringKind) id (mapField "labels" 1) [] 0).2.2.2
      rfl _ (scalarField "value" .StringKind none) rfl rfl rfl rfl rfl,
    (buildFieldSchema_dispatch (stringMapGraph .Int64Kind) id (mapField "labels" 1) [] 0).2.2.2
      rfl _ (scalarField "value" .StringKind none) rfl rfl rfl rfl rfl⟩

/-! ## Push/pop discipline, exactly (C15) -/

theorem not_mem_keys_of_unmarked (seen : Seen) (n : String) (ha : allMarked seen = true)
    (hn : seenGet seen n = false) : n ∉ mapKeys seen := by
  induction seen with
  | nil => simp [mapKeys]
  | cons e rest ih =>
    obtain ⟨k, v⟩ := e
    simp only [allMarked, List.all_cons, Bool.and_eq_true] at ha
    obtain ⟨hv, hrest⟩ := ha
    have hv2 : v = true := hv
    subst hv2
    by_cases hk : k = n
    · simp [seenGet, mapGet, hk] at hn
    · have hn2 : seenGet rest n = false := by
        simpa [seenGet, mapGet, hk] using hn
      have := ih hrest hn2
      simp only [mapKeys, List.map_cons, List.mem_cons, not_or] at this ⊢
      exact ⟨fun e => hk e.symm, this⟩

theorem mapSet_of_not_mem {α : Type} (m : List (String × α)) (k : String) (v : α)
    (h : k ∉ mapKeys m) : mapSet m k v = m ++ [(k, v)] := by
  induction m with
  | nil => rfl
  | cons e rest ih =>
    obtain ⟨k1, v1⟩ := e
    simp only [mapKeys, List.map_cons, List.mem_cons, not_or] at h
    have hne : ¬ k1 = k := fun e => h.1 e.symm
    simp only [mapSet, hne, if_false, List.cons_append]
    rw [ih h.2]

theorem mapDelete_of_not_mem {α : Type} (m : List (String × α)) (k : String)
    (h : k ∉ mapKeys m) : mapDelete m k = m := by
  unfold mapDelete
  rw [List.filter_eq_self]
  intro e he
  simp only [decide_eq_true_eq]
  intro hk
  apply h
  rw [← hk]
  exact List.mem_map.mpr ⟨e, he, rfl⟩

/-- Marking an absent name and deleting it again gives back the same map. -/
theorem mapDelete_mapSet_restore (seen : Seen) (n : String) (ha : allMarked seen = true)
    (hn : seenGet seen n = false) : mapDelete (mapSet seen n true) n = seen := by
  have hmem := not_mem_keys_of_unmarked seen n ha hn
  rw [mapSet_of_not_mem seen n true hmem]
  unfold mapDelete
  rw [List.filter_append]
  have h1 := mapDelete_of_not_mem seen n hmem
  unfold mapDelete at h1
  rw [h1]
  simp

theorem allMarked_mapSet (seen : Seen) (n : String) (ha : allMarked seen = true) :
    allMarked (mapSet seen n true) = true := by
  induction seen with
  | nil => rfl
  | cons e rest ih =>
    obtain ⟨k, v⟩ := e
    simp only [allMarked, List.all_cons, Bool.and_eq_true] at ha ih ⊢
    unfold mapSet
    by_cases hk : k = n
    · simp only [hk, if_true, List.all_cons, Bool.and_eq_true]
      exact ⟨trivial, ha.2⟩
    · simp only [hk, if_false, List.all_cons, Bool.and_eq_true]
      exact ⟨ha.1, ih ha.2⟩

theorem fieldsLoop_restores_exact (bf : Field → Seen → Outcome (Schema × Seen))
    (nc : String → String)
    (hbf : ∀ f seen s seen1, allMarked seen = true → bf f seen = .ok (s, seen1) →
      seen1 = seen) :
    ∀ (fs : List Field) (props : Schema) (req : List String) (seen : Seen)
      (props1 : Schema) (req1 : List String) (seen1 : Seen), allMarked seen = true →
      fieldsLoop bf nc fs props req seen = .ok (props1, req1, seen1) → seen1 = seen := by
  intro fs
  induction fs with
  | nil =>
    intro props req seen props1 req1 seen1 _ h
    simp only [fieldsLoop, Outcome.ok.injEq, Prod.mk.injEq] at h
    exact h.2.2.symm
  | cons f rest ih =>
    intro props req seen props1 req1 seen1 ha h
    unfold fieldsLoop at h
    by_cases ho : isOutputOnly f = true
    · simp only [ho, if_true] at h
      exact ih _ _ _ _ _ _ ha h
    · simp only [ho] at h
      cases hb : bf f seen with
      | panic => simp [hb] at h
      | outOfFuel => simp [hb] at h
      | ok r =>
        obtain ⟨schema, seen2⟩ := r
        simp only [hb] at h
        have e := hbf f seen schema seen2 ha hb
        subst e
        exact ih _ _ _ _ _ _ ha h

/-- From a visited set without `false` entries, a builder function that
returns hands back the very same map. -/
theorem build_restores_exact (g : Graph) (nc : String → String) : ∀ fuel : Nat,
    (∀ msg seen s seen1, allMarked seen = true →
      buildMessageSchema fuel g nc msg seen = .ok (s, seen1) → seen1 = seen) ∧
    (∀ f seen s seen1, allMarked seen = true →
      buildFieldSchema fuel g nc f seen = .ok (s, seen1) → seen1 = seen) ∧
    (∀ f seen s seen1, allMarked seen = true →
      buildScalarOrMessageSchema fuel g nc f seen = .ok (s, seen1) → seen1 = seen) ∧
    (∀ f seen s seen1, allMarked seen = true →
      buildNestedMessageSchema fuel g nc f seen = .ok (s, seen1) → seen1 = seen) := by
  intro fuel
  induction fuel with
  | zero =>
    refine ⟨?_, ?_, ?_, ?_⟩ <;> intro a seen s seen1 _ h
    · simp [buildMessageSchema] at h
    · simp [buildFieldSchema] at h
    · simp [buildScalarOrMessageSchema] at h
    · simp [buildNestedMessageSchema] at h
  | succ n ih =>
    obtain ⟨ihM, ihF, ihS, ihN⟩ := ih
    refine ⟨?_, ?_, ?_, ?_⟩
    · intro msg seen s seen1 ha h
      obtain ⟨fuel0, props, req, hfuel, _, hl⟩ :=
        buildMessageSchema_ok_inv _ g nc msg seen s seen1 h
      have e : fuel0 = n := by omega
      subst e
      exact fieldsLoop_restores_exact _ nc
        (fun f seen s seen1 ha2 hr => ihF f seen s seen1 ha2 hr) _ _ _ _ _ _ _ ha hl
    · intro f seen s seen1 ha h
      rw [buildFieldSchema] at h
      by_cases hm : f.isMap = true
      · simp only [hm, if_true] at h
        cases hg : f.getMessage g with
        | none => simp [hg] at h
        | some entry =>
          simp only [hg] at h
          cases hv : entry.fields[1]? with
          | none => simp [hv] at h
          | some vf =>
            simp only [hv] at h
            cases hb : buildFieldSchema n g nc vf seen with
            | panic => simp [hb] at h
            | outOfFuel => simp [hb] at h
            | ok r1 =>
              obtain ⟨s2, seen2⟩ := r1
              simp only [hb, Outcome.ok.injEq, Prod.mk.injEq] at h
              rw [← h.2]
              exact ihF vf seen s2 seen2 ha hb
      · simp only [hm, Bool.false_eq_true, if_false] at h
        by_cases hl : f.isList = true
        · simp only [hl, if_true] at h
          cases hb : buildScalarOrMessageSchema n g nc f seen with
          | panic => simp [hb] at h
          | outOfFuel => simp [hb] at h
          | ok r1 =>
            obtain ⟨s2, seen2⟩ := r1
            simp only [hb, Outcome.ok.injEq, Prod.mk.injEq] at h
            rw [← h.2]
            exact ihS f seen s2 seen2 ha hb
        · simp only [hl, Bool.false_eq_true, if_false] at h
          exact ihS f seen s seen1 ha h
    · intro f seen s seen1 ha h
      rw [buildScalarOrMessageSchema] at h
      cases hk : f.kind <;> simp only [hk] at h <;>
        first
        | exact ihN f seen s seen1 ha h
        | (simp only [Outcome.ok.injEq, Prod.mk.injEq] at h
           exact h.2.symm)
    · intro f seen s seen1 ha h
      rw [buildNestedMessageSchema] at h
      cases hg : f.getMessage g with
      | none => simp [hg] at h
      | some message =>
        simp only [hg] at h
        cases hw : wellKnownSchema message.fullName with
        | some sc =>
          simp only [hw, Outcome.ok.injEq, Prod.mk.injEq] at h
          exact h.2.symm
        | none =>
          simp only [hw] at h
          by_cases hs : seenGet seen message.fullName = true
          · simp only [hs, if_true, Outcome.ok.injEq, Prod.mk.injEq] at h
            exact h.2.symm
          · simp only [hs, Bool.false_eq_true, if_false] at h
            have hs2 : seenGet seen message.fullName = false := by simpa using hs
            cases hb : buildMessageSchema n g nc message (mapSet seen message.fullName true) with
            | panic => simp [hb] at h
            | outOfFuel => simp [hb] at h
            | ok r1 =>
              obtain ⟨s2, seen2⟩ := r1
              simp only [hb, Outcome.ok.injEq, Prod.mk.injEq] at h
              have e := ihM message _ s2 seen2 (allMarked_mapSet seen _ ha) hb
              rw [← h.2, e]
              exact mapDelete_mapSet_restore seen _ ha hs2

/-- C15: whenever `buildFieldSchema`, `buildMessageSchema`,
`buildScalarOrMessageSchema` or `buildNestedMessageSchema` returns, on whatever
exit path, the visited set contains exactly the names it contained on entry:
the same names are marked; and when the set on entry stores no name with the
value `false`, the map handed back is the same map. On a valid descriptor graph
`buildMessageSchema` does return. -/
theorem visited_set_restored (g : Graph) (nc : String → String) (seen : Seen) (fuel : Nat) :
    (∀ field s seen1, buildFieldSchema fuel g nc field seen = .ok (s, seen1) →
      (∀ name, seenGet seen1 name = seenGet seen name) ∧
      (allMarked seen = true → seen1 = seen)) ∧
    (∀ msg s seen1, buildMessageSchema fuel g nc msg seen = .ok (s, seen1) →
      (∀ name, seenGet seen1 name = seenGet seen name) ∧
      (allMarked seen = true → seen1 = seen)) ∧
    (∀ field s seen1, buildNestedMessageSchema fuel g nc field seen = .ok (s, seen1) →
      (∀ name, seenGet seen1 name = seenGet seen name) ∧
      (allMarked seen = true → seen1 = seen)) ∧
    (∀ field s seen1, buildScalarOrMessageSchema fuel g nc field seen = .ok (s, seen1) →
      (∀ name, seenGet seen1 name = seenGet seen name) ∧
      (allMarked seen = true → seen1 = seen)) ∧
    (∀ msg, graphOK g = true → msgOK g msg = true →
      ∃ fuel2 s seen1, buildMessageSchema fuel2 g nc msg seen = .ok (s, seen1)) := by
  obtain ⟨rM, rF, rS, rN⟩ := build_restores g nc fuel
  obtain ⟨eM, eF, eS, eN⟩ := build_restores_exact g nc fuel
  refine ⟨?_, ?_, ?_, ?_, ?_⟩
  · intro field s seen1 h
    exact ⟨rF field seen s seen1 h, fun ha => eF field seen s seen1 ha h⟩
  · intro msg s seen1 h
    exact ⟨rM msg seen s seen1 h, fun ha => eM msg seen s seen1 ha h⟩
  · intro field s seen1 h
    exact ⟨rN field seen s seen1 h, fun ha => eN field seen s seen1 ha h⟩
  · intro field s seen1 h
    exact ⟨rS field seen s seen1 h, fun ha => eS field seen s seen1 ha h⟩
  · intro msg hg hmsg
    exact buildMessageSchema_exists g nc msg seen hg hmsg

/-- Claim C15 on the self-referential tree message: a call that marks
`pkg.Tree`, expands it, meets it again and unmarks it hands back the visited
set it was given. -/
theorem visited_set_restored_witness :
    match buildFieldSchema 7 treeGraph id (messageField "h" 0) [("pkg.Other", true)] with
    | .ok (_, seen1) => seen1 = [("pkg.Other", true)]
    | _ => False := by
  cases h : buildFieldSchema 7 treeGraph id (messageField "h" 0) [("pkg.Other", true)] with
  | ok r =>
    obtain ⟨s, seen1⟩ := r
    exact ((visited_set_restored treeGraph id [("pkg.Other", true)] 7).1
      (messageField "h" 0) s seen1 h).2 (by decide)
  | panic => exact absurd h (by decide)
  | outOfFuel => exact absurd h (by decide)

/-! ## Expansion of a message through its fields (C16, C17) -/

/-- A singular field of message kind is built by `buildNestedMessageSchema`,
two calls deeper. -/
theorem field_to_nested (fuel : Nat) (g : Graph) (nc : String → String) (f : Field)
    (seen : Seen) (r : Schema × Seen)
    (hk : f.kind = .MessageKind ∨ f.kind = .GroupKind)
    (hmap : f.isMap = false) (hlist : f.isList = false)
    (h : buildFieldSchema fuel g nc f seen = .ok r) :
    ∃ n, fuel = n + 2 ∧ buildNestedMessageSchema n g nc f seen = .ok r := by
  cases fuel with
  | zero => simp [buildFieldSchema] at h
  | succ n1 =>
    rw [buildFieldSchema] at h
    simp only [hmap, hlist, Bool.false_eq_true, if_false] at h
    cases n1 with
    | zero => simp [buildScalarOrMessageSchema] at h
    | succ n2 =>
      rw [buildScalarOrMessageSchema] at h
      refine ⟨n2, rfl, ?_⟩
      rcases hk with hk | hk <;> simpa only [hk] using h

/-- A message that is neither well-known nor marked is expanded with its name
marked. -/
theorem nested_expand_inv (fuel : Nat) (g : Graph) (nc : String → String) (f : Field)
    (seen : Seen) (m : Message) (s : Schema) (seen1 : Seen)
    (hm : f.getMessage g = some m) (hw : wellKnownSchema m.fullName = none)
    (hs : seenGet seen m.fullName = false)
    (h : buildNestedMessageSchema fuel g nc f seen = .ok (s, seen1)) :
    ∃ n seen2, fuel = n + 1 ∧
      buildMessageSchema n g nc m (mapSet seen m.fullName true) = .ok (s, seen2) := by
  cases fuel with
  | zero => simp [buildNestedMessageSchema] at h
  | succ n =>
    rw [buildNestedMessageSchema] at h
    simp only [hm, hw, hs, Bool.false_eq_true, if_false] at h
    cases hb : buildMessageSchema n g nc m (mapSet seen m.fullName true) with
    | panic => simp [hb] at h
    | outOfFuel => simp [hb] at h
    | ok r =>
      obtain ⟨s2, seen2⟩ := r
      simp only [hb, Outcome.ok.injEq, Prod.mk.injEq] at h
      exact ⟨n, seen2, rfl, by rw [← h.1]; exact hb⟩

/-- In the expansion of a message whose name is marked, the entry of a singular
field of the message's own type is the permissive schema, with the description
of the field if it has one. -/
theorem marked_expansion_self_entry (fuel : Nat) (g : Graph) (nc : String → String)
    (M : Message) (f : Field) (seen : Seen) (s : Schema) (seen1 : Seen)
    (hw : wellKnownSchema M.fullName = none) (hs : seenGet seen M.fullName = true)
    (hf : f ∈ M.fields) (hfM : f.getMessage g = some M)
    (hk : f.kind = .MessageKind ∨ f.kind = .GroupKind)
    (hmap : f.isMap = false) (hlist : f.isList = false) (ho : isOutputOnly f = false)
    (huniq : ∀ f2 ∈ M.fields, f2.jsonName = f.jsonName → f2 = f)
    (hrun : buildMessageSchema fuel g nc M seen = .ok (s, seen1)) :
    ∃ props req, s = messageResult props req ∧
      mapGet props f.jsonName = some (.obj (describe nc f permissiveSchema)) := by
  obtain ⟨fuel0, props, req, _, hs2, hl⟩ := buildMessageSchema_ok_inv fuel g nc M seen s seen1 hrun
  refine ⟨props, req, hs2, ?_⟩
  obtain ⟨sf, seenA, seenB, hA, hrunf, hget⟩ :=
    fieldsLoop_get _ nc
      (fun f seen s seen1 hr => (build_restores g nc fuel0).2.1 f seen s seen1 hr)
      f ho _ _ _ _ _ _ _ hl hf huniq
  have hsA : seenGet seenA M.fullName = true := by rw [hA M.fullName, hs]
  have hsf := field_cycle_fallback fuel0 g nc f seenA M sf seenB hfM hw hsA hk hmap hlist hrunf
  rw [hget, hsf]
  rfl

theorem mapGet_describe_properties (nc : String → String) (f : Field) (s : Schema) :
    mapGet (describe nc f s) "properties" = mapGet s "properties" := by
  unfold describe
  split
  · exact mapGet_mapSet_other _ _ _ _ (by decide)
  · rfl

/-- C16 fails as stated: `pkg.Tree` has the field `next` of its own type, and
in the schema `buildMessageSchema` returns for it from the empty visited set
the property `next` is not the permissive fallback but a second full expansion
of `pkg.Tree`, with `properties`; the fallback appears one level deeper. -/
theorem root_not_marked_counterexample :
    messageField "next" 0 ∈ treeMessage.fields ∧
    (messageField "next" 0).getMessage treeGraph = some treeMessage ∧
    isOutputOnly (messageField "next" 0) = false ∧
    buildMessageSchema 8 treeGraph id treeMessage [] =
      .ok ([("type", .str "object"),
            ("properties", .obj [("label", .obj [("type", .str "string")]),
              ("next", .obj treeInnerSchema)]),
            ("additionalProperties", .bool false)], []) ∧
    mapGet [("label", Value.obj [("type", .str "string")]), ("next", .obj treeInnerSchema)]
      "next" ≠ some (.obj permissiveSchema) ∧
    mapGet treeInnerSchema "properties" =
      some (.obj [("label", .obj [("type", .str "string")]),
        ("next", .obj permissiveSchema)]) := by
  decide

/-! ## The schema depends on the marks only -/

theorem seenEq_mapSet (a b : Seen) (n : String) (v : Bool) (h : SeenEq a b) :
    SeenEq (mapSet a n v) (mapSet b n v) := by
  intro m
  by_cases hm : n = m
  · subst hm
    rw [seenGet_mapSet_same, seenGet_mapSet_same]
  · rw [seenGet_mapSet_other _ _ _ _ hm, seenGet_mapSet_other _ _ _ _ hm, h m]

theorem seenEq_symm {a b : Seen} (h : SeenEq a b) : SeenEq b a := fun n => (h n).symm

theorem fieldsLoop_congr (bf : Field → Seen → Outcome (Schema × Seen)) (nc : String → String)
    (hres : ∀ f seen s seen1, bf f seen = .ok (s, seen1) → SeenEq seen1 seen)
    (hbf : ∀ f seen seen2 s seen1, SeenEq seen seen2 → bf f seen = .ok (s, seen1) →
      ∃ seen3, bf f seen2 = .ok (s, seen3)) :
    ∀ (fs : List Field) (props : Schema) (req : List String) (seen seen2 : Seen)
      (props1 : Schema) (req1 : List String) (seen1 : Seen), SeenEq seen seen2 →
      fieldsLoop bf nc fs props req seen = .ok (props1, req1, seen1) →
      ∃ seen3, fieldsLoop bf nc fs props req seen2 = .ok (props1, req1, seen3) := by
  intro fs
  induction fs with
  | nil =>
    intro props req seen seen2 props1 req1 seen1 _ h
    simp only [fieldsLoop, Outcome.ok.injEq, Prod.mk.injEq] at h
    exact ⟨seen2, by simp [fieldsLoop, h.1, h.2.1]⟩
  | cons f rest ih =>
    intro props req seen seen2 props1 req1 seen1 heq h
    unfold fieldsLoop at h ⊢
    by_cases ho : isOutputOnly f = true
    · simp only [ho, if_true] at h ⊢
      exact ih _ _ _ _ _ _ _ heq h
    · simp only [ho] at h ⊢
      cases hb : bf f seen with
      | panic => simp [hb] at h
      | outOfFuel => simp [hb] at h
      | ok r =>
        obtain ⟨schema, seenA⟩ := r
        simp only [hb] at h
        obtain ⟨seenB, hb2⟩ := hbf f seen seen2 schema seenA heq hb
        simp only [hb2]
        have h1 := hres f seen schema seenA hb
        have h2 := hres f seen2 schema seenB hb2
        exact ih _ _ _ _ _ _ _ ((h1.trans heq).trans (seenEq_symm h2)) h

/-- Two visited sets that mark the same names give the same schema. -/
theorem build_congr (g : Graph) (nc : String → String) : ∀ fuel : Nat,
    (∀ msg seen seen2 s seen1, SeenEq seen seen2 →
      buildMessageSchema fuel g nc msg seen = .ok (s, seen1) →
      ∃ seen3, buildMessageSchema fuel g nc msg seen2 = .ok (s, seen3)) ∧
    (∀ f seen seen2 s seen1, SeenEq seen seen2 →
      buildFieldSchema fuel g nc f seen = .ok (s, seen1) →
      ∃ seen3, buildFieldSchema fuel g nc f seen2 = .ok (s, seen3)) ∧
    (∀ f seen seen2 s seen1, SeenEq seen seen2 →
      buildScalarOrMessageSchema fuel g nc f seen = .ok (s, seen1) →
      ∃ seen3, buildScalarOrMessageSchema fuel g nc f seen2 = .ok (s, seen3)) ∧
    (∀ f seen seen2 s seen1, SeenEq seen seen2 →
      buildNestedMessageSchema fuel g nc f seen = .ok (s, seen1) →
      ∃ seen3, buildNestedMessageSchema fuel g nc f seen2 = .ok (s, seen3)) := by
  intro fuel
  induction fuel with
  | zero =>
    refine ⟨?_, ?_, ?_, ?_⟩ <;> intro a seen seen2 s seen1 _ h
    · simp [buildMessageSchema] at h
    · simp [buildFieldSchema] at h
    · simp [buildScalarOrMessageSchema] at h
    · simp [buildNestedMessageSchema] at h
  | succ n ih =>
    obtain ⟨ihM, ihF, ihS, ihN⟩ := ih
    refine ⟨?_, ?_, ?_, ?_⟩
    · intro msg seen seen2 s seen1 heq h
      obtain ⟨fuel0, props, req, hfuel, hs, hl⟩ :=
        buildMessageSchema_ok_inv _ g nc msg seen s seen1 h
      have e : fuel0 = n := by omega
      subst e
      obtain ⟨seen3, hl2⟩ := fieldsLoop_congr _ nc
        (fun f seen s seen1 hr => (build_restores g nc fuel0).2.1 f seen s seen1 hr)
        (fun f seen seen2 s seen1 he hr => ihF f seen seen2 s seen1 he hr)
        _ _ _ _ _ _ _ _ heq hl
      refine ⟨seen3, ?_⟩
      rw [buildMessageSchema]
      simp only [hl2, hs]
    · intro f seen seen2 s seen1 heq h
      rw [buildFieldSchema] at h ⊢
      by_cases hm : f.isMap = true
      · simp only [hm, if_true] at h ⊢
        cases hg : f.getMessage g with
        | none => simp [hg] at h
        | some entry =>
          simp only [hg] at h ⊢
          cases hv : entry.fields[1]? with
          | none => simp [hv] at h
          | some vf =>
            simp only [hv] at h ⊢
            cases hb : buildFieldSchema n g nc vf seen with
            | panic => simp [hb] at h
            | outOfFuel => simp [hb] at h
            | ok r1 =>
              obtain ⟨s2, seenA⟩ := r1
              simp only [hb, Outcome.ok.injEq, Prod.mk.injEq] at h
              obtain ⟨seenB, hb2⟩ := ihF vf seen seen2 s2 seenA heq hb
              simp only [hb2, Outcome.ok.injEq, Prod.mk.injEq]
              exact ⟨seenB, h.1, rfl⟩
      · simp only [hm, Bool.false_eq_true, if_false] at h ⊢
        by_cases hl : f.isList = true
        · simp only [hl, if_true] at h ⊢
          cases hb : buildScalarOrMessageSchema n g nc f seen with
          | panic => simp [hb] at h
          | outOfFuel => simp [hb] at h
          | ok r1 =>
            obtain ⟨s2, seenA⟩ := r1
            simp only [hb, Outcome.ok.injEq, Prod.mk.injEq] at h
            obtain ⟨seenB, hb2⟩ := ihS f seen seen2 s2 seenA heq hb
            simp only [hb2, Outcome.ok.injEq, Prod.mk.injEq]
            exact ⟨seenB, h.1, rfl⟩
        · simp only [hl, Bool.false_eq_true, if_false] at h ⊢
          exact ihS f seen seen2 s seen1 heq h
    · intro f seen seen2 s seen1 heq h
      rw [buildScalarOrMessageSchema] at h ⊢
      cases hk : f.kind <;> simp only [hk] at h ⊢ <;>
        first
        | exact ihN f seen seen2 s seen1 heq h
        | (simp only [Outcome.ok.injEq, Prod.mk.injEq] at h ⊢
           exact ⟨seen2, h.1, rfl⟩)
    · intro f seen seen2 s seen1 heq h
      rw [buildNestedMessageSchema] at h ⊢
      cases hg : f.getMessage g with
      | none => simp [hg] at h
      | some message =>
        simp only [hg] at h ⊢
        cases hw : wellKnownSchema message.fullName with
        | some sc =>
          simp only [hw, Outcome.ok.injEq, Prod.mk.injEq] at h ⊢
          exact ⟨seen2, h.1, rfl⟩
        | none =>
          simp only [hw] at h ⊢
          rw [← heq message.fullName]
          by_cases hs : seenGet seen message.fullName = true
          · simp only [hs, if_true, Outcome.ok.injEq, Prod.mk.injEq] at h ⊢
            exact ⟨seen2, h.1, rfl⟩
          · simp only [hs, Bool.false_eq_true, if_false] at h ⊢
            cases hb : buildMessageSchema n g nc message (mapSet seen message.fullName true) with
            | panic => simp [hb] at h
            | outOfFuel => simp [hb] at h
            | ok r1 =>
              obtain ⟨s2, seenA⟩ := r1
              simp only [hb, Outcome.ok.injEq, Prod.mk.injEq] at h
              obtain ⟨seenB, hb2⟩ := ihM message _ (mapSet seen2 message.fullName true) s2 seenA
                (seenEq_mapSet seen seen2 _ true heq) hb
              simp only [hb2, Outcome.ok.injEq, Prod.mk.injEq]
              exact ⟨_, h.1, rfl⟩

/-- The entry the field loop stores for a singular field of message kind whose
message is neither well-known nor marked: the schema of that message expanded
with its name marked. -/
theorem sibling_entry (g : Graph) (nc : String → String) (fuel0 : Nat) (fs : List Field)
    (seen : Seen) (props : Schema) (req : List String) (seen1 : Seen) (N : Message)
    (f : Field)
    (hl : fieldsLoop (fun field seen => buildFieldSchema fuel0 g nc field seen) nc fs [] []
      seen = .ok (props, req, seen1))
    (hw : wellKnownSchema N.fullName = none) (hs : seenGet seen N.fullName = false)
    (hf : f ∈ fs) (hfN : f.getMessage g = some N)
    (hk : f.kind = .MessageKind ∨ f.kind = .GroupKind)
    (hmap : f.isMap = false) (hlist : f.isList = false) (ho : isOutputOnly f = false)
    (huniq : ∀ f2 ∈ fs, f2.jsonName = f.jsonName → f2 = f) :
    ∃ n sf seenA seenB, fuel0 = n + 3 ∧ SeenEq seenA seen ∧
      buildMessageSchema n g nc N (mapSet seenA N.fullName true) = .ok (sf, seenB) ∧
      mapGet props f.jsonName = some (.obj (describe nc f sf)) := by
  obtain ⟨sf, seenA, seenB, hA, hrunf, hget⟩ :=
    fieldsLoop_get _ nc
      (fun f seen s seen1 hr => (build_restores g nc fuel0).2.1 f seen s seen1 hr)
      f ho _ _ _ _ _ _ _ hl hf huniq
  have hsA : seenGet seenA N.fullName = false := by rw [hA N.fullName, hs]
  obtain ⟨n, hn, hnest⟩ := field_to_nested fuel0 g nc f seenA (sf, seenB) hk hmap hlist hrunf
  obtain ⟨n2, seen2, hn2, hexp⟩ := nested_expand_inv n g nc f seenA N sf seenB hfN hw hsA hnest
  exact ⟨n2, sf, seenA, seen2, by omega, hA, hexp, by rw [hget]; rfl⟩

/-- C17 fails as stated: `pkg.Contact` has the two fields `home_addr` and
`work_addr` of type `pkg.Addr`, neither output-only nor commented, and
`pkg.Addr` is not visited; the later string field `homeAddr` has the JSON name
of `home_addr`, so the entry of `properties` under that name is the string
schema, which differs from the entry of `work_addr` and is not the schema of
`pkg.Addr`. -/
theorem sibling_entries_counterexample :
    namedMessageField "home_addr" "homeAddr" 1 ∈ contactMessage.fields ∧
    namedMessageField "work_addr" "workAddr" 1 ∈ contactMessage.fields ∧
    (namedMessageField "home_addr" "homeAddr" 1).getMessage contactGraph =
      (namedMessageField "work_addr" "workAddr" 1).getMessage contactGraph ∧
    wellKnownSchema "pkg.Addr" = none ∧ seenGet [] "pkg.Addr" = false ∧
    buildMessageSchema 7 contactGraph id contactMessage [] =
      .ok ([("type", .str "object"),
            ("properties", .obj [("homeAddr", .obj [("type", .str "string")]),
              ("workAddr", .obj addrSchema)]),
            ("additionalProperties", .bool false)], []) ∧
    mapGet [("homeAddr", Value.obj [("type", .str "string")]), ("workAddr", .obj addrSchema)]
      (namedMessageField "home_addr" "homeAddr" 1).jsonName ≠
    mapGet [("homeAddr", Value.obj [("type", .str "string")]), ("workAddr", .obj addrSchema)]
      (namedMessageField "work_addr" "workAddr" 1).jsonName := by
  decide

/-- C17, amended: for a message with two singular fields of message kind and
of the same message type `N`, neither output-only, neither with a comment, each
with a JSON name that no other field of the message shares, where `N` is
neither well-known nor marked in the visited set, the two entries of
`properties` in every schema `buildMessageSchema` returns are one and the same
schema `e`, and `e` is the full object schema of `N`: the schema that
`buildMessageSchema` returns for `N` itself, called as the expansion calls it,
with the visited set of the caller and `N` marked. It is an object schema
whose `properties` has exactly the JSON names of the fields of `N` that are
not output-only as keys, and it is not the permissive fallback. On a valid
graph a schema is returned. -/
theorem siblings_expand_alike (g : Graph) (nc : String → String) (msg N : Message)
    (f1 f2 : Field) (seen : Seen)
    (hw : wellKnownSchema N.fullName = none) (hs : seenGet seen N.fullName = false)
    (hf1 : f1 ∈ msg.fields) (hf2 : f2 ∈ msg.fields)
    (hN1 : f1.getMessage g = some N) (hN2 : f2.getMessage g = some N)
    (hk1 : f1.kind = .MessageKind ∨ f1.kind = .GroupKind)
    (hk2 : f2.kind = .MessageKind ∨ f2.kind = .GroupKind)
    (hmap1 : f1.isMap = false) (hlist1 : f1.isList = false)
    (hmap2 : f2.isMap = false) (hlist2 : f2.isList = false)
    (ho1 : isOutputOnly f1 = false) (ho2 : isOutputOnly f2 = false)
    (hc1 : nc f1.leading = "") (hc2 : nc f2.leading = "")
    (hu1 : ∀ f ∈ msg.fields, f.jsonName = f1.jsonName → f = f1)
    (hu2 : ∀ f ∈ msg.fields, f.jsonName = f2.jsonName → f = f2) :
    (∀ fuel s seen1, buildMessageSchema fuel g nc msg seen = .ok (s, seen1) →
      ∃ props e n seen2, mapGet s "properties" = some (.obj props) ∧
        mapGet props f1.jsonName = some (.obj e) ∧
        mapGet props f2.jsonName = some (.obj e) ∧
        fuel = n + 4 ∧
        buildMessageSchema n g nc N (mapSet seen N.fullName true) = .ok (e, seen2) ∧
        (∃ propsN, mapGet e "properties" = some (.obj propsN) ∧
          ∀ k, k ∈ mapKeys propsN ↔
            ∃ f ∈ N.fields, isOutputOnly f = false ∧ f.jsonName = k) ∧
        mapGet e "type" = some (.str "object") ∧
        mapGet e "additionalProperties" = some (.bool false) ∧
        e ≠ permissiveSchema) ∧
    (graphOK g = true → msgOK g msg = true →
      ∃ fuel s seen1, buildMessageSchema fuel g nc msg seen = .ok (s, seen1)) := by
  refine ⟨?_, buildMessageSchema_exists g nc msg seen⟩
  intro fuel s seen1 hrun
  obtain ⟨fuel0, props, req, hfuel, hs2, hl⟩ :=
    buildMessageSchema_ok_inv fuel g nc msg seen s seen1 hrun
  obtain ⟨n1, sf1, seenA1, seenB1, hn1, hA1, hexp1, hget1⟩ :=
    sibling_entry g nc fuel0 msg.fields seen props req seen1 N f1 hl hw hs hf1 hN1 hk1
      hmap1 hlist1 ho1 hu1
  obtain ⟨n2, sf2, seenA2, seenB2, hn2, hA2, hexp2, hget2⟩ :=
    sibling_entry g nc fuel0 msg.fields seen props req seen1 N f2 hl hw hs hf2 hN2 hk2
      hmap2 hlist2 ho2 hu2
  have en : n2 = n1 := by omega
  subst en
  have hcong1 : SeenEq (mapSet seenA1 N.fullName true) (mapSet seen N.fullName true) :=
    seenEq_mapSet _ _ _ _ hA1
  have hcong2 : SeenEq (mapSet seenA2 N.fullName true) (mapSet seen N.fullName true) :=
    seenEq_mapSet _ _ _ _ hA2
  obtain ⟨seen3, hexp3⟩ := (build_congr g nc n2).1 N _ _ sf1 seenB1 hcong1 hexp1
  obtain ⟨seen4, hexp4⟩ := (build_congr g nc n2).1 N _ _ sf2 seenB2 hcong2 hexp2
  have esf : sf2 = sf1 := by
    rw [hexp3] at hexp4
    simp only [Outcome.ok.injEq, Prod.mk.injEq] at hexp4
    exact hexp4.1.symm
  subst esf
  obtain ⟨fuelN, propsN, reqN, _, hsN, hlN⟩ :=
    buildMessageSchema_ok_inv n2 g nc N _ sf2 seen3 hexp3
  have hd1 : describe nc f1 sf2 = sf2 := by simp [describe, hc1]
  have hd2 : describe nc f2 sf2 = sf2 := by simp [describe, hc2]
  rw [hd1] at hget1
  rw [hd2] at hget2
  have hp : mapGet sf2 "properties" = some (.obj propsN) := by
    rw [hsN, mapGet_messageResult_properties]
  have hkeys : ∀ k, k ∈ mapKeys propsN ↔
      ∃ f ∈ N.fields, isOutputOnly f = false ∧ f.jsonName = k := by
    intro k
    rw [fieldsLoop_keys _ nc _ _ _ _ _ _ _ hlN k]
    simp [mapKeys]
  have htype : mapGet sf2 "type" = some (.str "object") := by
    rw [hsN]
    unfold messageResult
    simp only []
    split
    · rw [mapGet_mapSet_other _ _ _ _ (by decide)]
      rfl
    · rfl
  have hadd : mapGet sf2 "additionalProperties" = some (.bool false) := by
    rw [hsN]
    unfold messageResult
    simp only []
    split
    · rw [mapGet_mapSet_other _ _ _ _ (by decide)]
      rfl
    · rfl
  refine ⟨props, sf2, n2, seen3, by rw [hs2, mapGet_messageResult_properties], hget1, hget2,
    by omega, hexp3, ⟨propsN, hp, hkeys⟩, htype, hadd, ?_⟩
  intro hperm
  rw [hperm] at hp
  simp [permissiveSchema, mapGet] at hp

/-- C17 witness: `pkg.Pair` with the fields `first` and `second` of type
`pkg.Addr`: both entries are the schema of `pkg.Addr`, which is what
`buildMessageSchema` returns for `pkg.Addr` with its name marked. -/
theorem siblings_expand_alike_witness :
    buildMessageSchema 7 pairGraph id pairMessage [] =
      .ok (messageResult [("first", .obj addrSchema), ("second", .obj addrSchema)] [], []) ∧
    ∃ seen2, buildMessageSchema 3 pairGraph id
        { fullName := "pkg.Addr", fields := [scalarField "city" .StringKind none] }
        [("pkg.Addr", true)] = .ok (addrSchema, seen2) ∧
      addrSchema ≠ permissiveSchema := by
  refine ⟨by decide, ?_⟩
  obtain ⟨props, e, n, seen2, hp, h1, _, hn, hb, _, _, _, hne⟩ :=
    (siblings_expand_alike pairGraph id pairMessage
      { fullName := "pkg.Addr", fields := [scalarField "city" .StringKind none] }
      (messageField "first" 1) (messageField "second" 1) []
      (by decide) (by decide) (by decide) (by decide) (by decide) (by decide) (by decide)
      (by decide) (by decide) (by decide) (by decide) (by decide) (by decide) (by decide)
      (by decide) (by decide) (by decide) (by decide)).1 7
      (messageResult [("first", .obj addrSchema), ("second", .obj addrSchema)] []) []
      (by decide)
  have hp2 : props = [("first", .obj addrSchema), ("second", .obj addrSchema)] := by
    have : mapGet (messageResult [("first", .obj addrSchema), ("second", .obj addrSchema)] [])
        "properties" = some (.obj [("first", .obj addrSchema), ("second", .obj addrSchema)]) :=
      by decide
    rw [this] at hp
    simp only [Option.some.injEq, Value.obj.injEq] at hp
    exact hp.symm
  subst hp2
  have he : e = addrSchema := by
    have : mapGet [("first", Value.obj addrSchema), ("second", .obj addrSchema)]
        (messageField "first" 1).jsonName = some (.obj addrSchema) := by decide
    rw [this] at h1
    simp only [Option.some.injEq, Value.obj.injEq] at h1
    exact h1.symm
  subst he
  have hn3 : n = 3 := by omega
  subst hn3
  exact ⟨seen2, hb, hne⟩

/-! ## The log of expansions -/

theorem withoutLog_ok {α : Type} (r : Outcome (α × List Expansion)) (a : α)
    (h : withoutLog r = .ok a) : ∃ log, r = .ok (a, log) := by
  cases r with
  | ok p =>
    obtain ⟨a1, log⟩ := p
    simp only [withoutLog, Outcome.ok.injEq] at h
    exact ⟨log, by rw [h]⟩
  | panic => simp [withoutLog] at h
  | outOfFuel => simp [withoutLog] at h

/-- The field loop with its log computes what the field loop computes. -/
theorem fieldsLoopLog_erase (bf : Field → Seen → Outcome (Schema × Seen))
    (bfL : Field → Seen → Outcome ((Schema × Seen) × List Expansion)) (nc : String → String)
    (h : ∀ f seen, withoutLog (bfL f seen) = bf f seen) :
    ∀ (fs : List Field) (props : Schema) (req : List String) (seen : Seen)
      (log : List Expansion),
      withoutLog (fieldsLoopLog bfL nc fs props req seen log) =
        fieldsLoop bf nc fs props req seen := by
  intro fs
  induction fs with
  | nil =>
    intro props req seen log
    simp [fieldsLoopLog, fieldsLoop, withoutLog]
  | cons f rest ih =>
    intro props req seen log
    rw [fieldsLoopLog, fieldsLoop]
    by_cases ho : isOutputOnly f = true
    · simp only [ho, if_true]
      exact ih _ _ _ _
    · simp only [ho, Bool.false_eq_true, if_false]
      have hf := h f seen
      cases hb : bfL f seen with
      | panic =>
        rw [hb] at hf
        simp only [withoutLog] at hf
        simp only [← hf, withoutLog]
      | outOfFuel =>
        rw [hb] at hf
        simp only [withoutLog] at hf
        simp only [← hf, withoutLog]
      | ok r =>
        obtain ⟨⟨schema, seen2⟩, made⟩ := r
        rw [hb] at hf
        simp only [withoutLog] at hf
        simp only [← hf]
        exact ih _ _ _ _

/-- A field that is not of message kind is built at call depth one. -/
theorem scalar_depth_one (fuel : Nat) (g : Graph) (nc : String → String) (f : Field)
    (seen : Seen) (h1 : f.kind ≠ .MessageKind) (h2 : f.kind ≠ .GroupKind) :
    buildScalarOrMessageSchema (fuel + 1) g nc f seen =
      buildScalarOrMessageSchema 1 g nc f seen := by
  rw [buildScalarOrMessageSchema, buildScalarOrMessageSchema]
  cases hk : f.kind <;> first
    | exact absurd hk h1
    | exact absurd hk h2
    | rfl

/-- A field that is not of message kind logs nothing. -/
theorem scalarLog_leaf (fuel : Nat) (g : Graph) (nc : String → String) (path : List String)
    (f : Field) (seen : Seen) (h1 : f.kind ≠ .MessageKind) (h2 : f.kind ≠ .GroupKind) :
    buildScalarOrMessageSchemaLog (fuel + 1) g nc path f seen =
      match buildScalarOrMessageSchema 1 g nc f seen with
      | .ok r => .ok (r, [])
      | .panic => .panic
      | .outOfFuel => .outOfFuel := by
  rw [buildScalarOrMessageSchemaLog]
  cases hk : f.kind <;> first
    | exact absurd hk h1
    | exact absurd hk h2
    | rfl

/-- The builder with its log computes what the builder computes: the same
schema and the same visited set, or the same failure. -/
theorem buildLog_erase (g : Graph) (nc : String → String) : ∀ fuel : Nat,
    (∀ path msg seen, withoutLog (buildMessageSchemaLog fuel g nc path msg seen) =
      buildMessageSchema fuel g nc msg seen) ∧
    (∀ path f seen, withoutLog (buildFieldSchemaLog fuel g nc path f seen) =
      buildFieldSchema fuel g nc f seen) ∧
    (∀ path f seen, withoutLog (buildScalarOrMessageSchemaLog fuel g nc path f seen) =
      buildScalarOrMessageSchema fuel g nc f seen) ∧
    (∀ path f seen, withoutLog (buildNestedMessageSchemaLog fuel g nc path f seen) =
      buildNestedMessageSchema fuel g nc f seen) := by
  intro fuel
  induction fuel with
  | zero =>
    refine ⟨?_, ?_, ?_, ?_⟩ <;> intro path a seen
    · simp [buildMessageSchemaLog, buildMessageSchema, withoutLog]
    · simp [buildFieldSchemaLog, buildFieldSchema, withoutLog]
    · simp [buildScalarOrMessageSchemaLog, buildScalarOrMessageSchema, withoutLog]
    · simp [buildNestedMessageSchemaLog, buildNestedMessageSchema, withoutLog]
  | succ n ih =>
    obtain ⟨ihM, ihF, ihS, ihN⟩ := ih
    refine ⟨?_, ?_, ?_, ?_⟩
    · intro path msg seen
      rw [buildMessageSchemaLog, buildMessageSchema]
      have hl := fieldsLoopLog_erase (fun field seen => buildFieldSchema n g nc field seen)
        (fun field seen => buildFieldSchemaLog n g nc (msg.fullName :: path) field seen) nc
        (fun f seen => ihF _ f seen) msg.fields [] [] seen [(msg.fullName, path)]
      rw [← hl]
      cases fieldsLoopLog
          (fun field seen => buildFieldSchemaLog n g nc (msg.fullName :: path) field seen) nc
          msg.fields [] [] seen [(msg.fullName, path)] with
      | panic => rfl
      | outOfFuel => rfl
      | ok r =>
        obtain ⟨⟨props, req, seen2⟩, log⟩ := r
        rfl
    · intro path f seen
      rw [buildFieldSchemaLog, buildFieldSchema]
      by_cases hm : f.isMap = true
      · simp only [hm, if_true]
        cases f.getMessage g with
        | none => rfl
        | some entry =>
          simp only []
          cases entry.fields[1]? with
          | none => rfl
          | some valueField =>
            simp only []
            rw [← ihF path valueField seen]
            cases buildFieldSchemaLog n g nc path valueField seen with
            | panic => rfl
            | outOfFuel => rfl
            | ok r =>
              obtain ⟨⟨vs, seen2⟩, log⟩ := r
              rfl
      · simp only [hm, Bool.false_eq_true, if_false]
        by_cases hl : f.isList = true
        · simp only [hl, if_true]
          rw [← ihS path f seen]
          cases buildScalarOrMessageSchemaLog n g nc path f seen with
          | panic => rfl
          | outOfFuel => rfl
          | ok r =>
            obtain ⟨⟨es, seen2⟩, log⟩ := r
            rfl
        · simp only [hl, Bool.false_eq_true, if_false]
          exact ihS path f seen
    · intro path f seen
      by_cases h1 : f.kind = .MessageKind
      · rw [buildScalarOrMessageSchema, buildScalarOrMessageSchemaLog]
        simp only [h1]
        exact ihN path f seen
      · by_cases h2 : f.kind = .GroupKind
        · rw [buildScalarOrMessageSchema, buildScalarOrMessageSchemaLog]
          simp only [h2]
          exact ihN path f seen
        · rw [scalar_depth_one n g nc f seen h1 h2, scalarLog_leaf n g nc path f seen h1 h2]
          cases buildScalarOrMessageSchema 1 g nc f seen with
          | ok r => rfl
          | panic => rfl
          | outOfFuel => rfl
    · intro path f seen
      rw [buildNestedMessageSchemaLog, buildNestedMessageSchema]
      cases f.getMessage g with
      | none => rfl
      | some message =>
        simp only []
        cases wellKnownSchema message.fullName with
        | some ws => rfl
        | none =>
          simp only []
          by_cases hs : seenGet seen message.fullName = true
          · simp only [hs, if_true]
            rfl
          · simp only [hs, Bool.false_eq_true, if_false]
            rw [← ihM path message (mapSet seen message.fullName true)]
            cases buildMessageSchemaLog n g nc path message
                (mapSet seen message.fullName true) with
            | panic => rfl
            | outOfFuel => rfl
            | ok r =>
              obtain ⟨⟨s2, seen2⟩, log⟩ := r
              rfl

theorem NestedIn.congr {path : List String} {a b : Seen} {e : Expansion}
    (hab : SeenEq a b) (h : NestedIn path a e) : NestedIn path b e := by
  obtain ⟨ext, h1, h2, h3⟩ := h
  exact ⟨ext, h1, h2, by rw [← hab e.1]; exact h3⟩

/-- The field loop appends to its log, and what it appends satisfies what the
logs of the fields satisfy. -/
theorem fieldsLoopLog_inv (bfL : Field → Seen → Outcome ((Schema × Seen) × List Expansion))
    (nc : String → String) (path : List String)
    (hbf : ∀ f seen s seen1 made, bfL f seen = .ok ((s, seen1), made) →
      SeenEq seen1 seen ∧ ∀ e ∈ made, NestedIn path seen e) :
    ∀ (fs : List Field) (props : Schema) (req : List String) (seen : Seen)
      (log : List Expansion) (props1 : Schema) (req1 : List String) (seen1 : Seen)
      (log1 : List Expansion),
      fieldsLoopLog bfL nc fs props req seen log = .ok ((props1, req1, seen1), log1) →
      ∃ made, log1 = log ++ made ∧ ∀ e ∈ made, NestedIn path seen e := by
  intro fs
  induction fs with
  | nil =>
    intro props req seen log props1 req1 seen1 log1 h
    simp only [fieldsLoopLog, Outcome.ok.injEq, Prod.mk.injEq] at h
    exact ⟨[], by simp [h.2], by simp⟩
  | cons f rest ih =>
    intro props req seen log props1 req1 seen1 log1 h
    rw [fieldsLoopLog] at h
    by_cases ho : isOutputOnly f = true
    · simp only [ho, if_true] at h
      exact ih _ _ _ _ _ _ _ _ h
    · simp only [ho, Bool.false_eq_true, if_false] at h
      cases hb : bfL f seen with
      | panic => simp [hb] at h
      | outOfFuel => simp [hb] at h
      | ok r =>
        obtain ⟨⟨schema, seen2⟩, made1⟩ := r
        simp only [hb] at h
        obtain ⟨hres, hmade1⟩ := hbf f seen schema seen2 made1 hb
        obtain ⟨made2, hlog, hmade2⟩ := ih _ _ _ _ _ _ _ _ h
        refine ⟨made1 ++ made2, by rw [hlog, List.append_assoc], ?_⟩
        intro e he
        rcases List.mem_append.1 he with h1 | h2
        · exact hmade1 e h1
        · exact (hmade2 e h2).congr hres

/-- The log of a field that is not output-only is part of the log of the
loop, and the field was built with a visited set that marks the names the loop
was entered with. -/
theorem fieldsLoopLog_mem (bfL : Field → Seen → Outcome ((Schema × Seen) × List Expansion))
    (nc : String → String)
    (hbf : ∀ f seen s seen1 made, bfL f seen = .ok ((s, seen1), made) → SeenEq seen1 seen)
    (f : Field) (ho : isOutputOnly f = false) :
    ∀ (fs : List Field) (props : Schema) (req : List String) (seen : Seen)
      (log : List Expansion) (props1 : Schema) (req1 : List String) (seen1 : Seen)
      (log1 : List Expansion),
      fieldsLoopLog bfL nc fs props req seen log = .ok ((props1, req1, seen1), log1) →
      (∀ e ∈ log, e ∈ log1) ∧
      (f ∈ fs → ∃ seenA s seenB made, SeenEq seenA seen ∧
        bfL f seenA = .ok ((s, seenB), made) ∧ ∀ e ∈ made, e ∈ log1) := by
  intro fs
  induction fs with
  | nil =>
    intro props req seen log props1 req1 seen1 log1 h
    simp only [fieldsLoopLog, Outcome.ok.injEq, Prod.mk.injEq] at h
    exact ⟨fun e he => by rw [← h.2]; exact he, fun hf => by simp at hf⟩
  | cons f0 rest ih =>
    intro props req seen log props1 req1 seen1 log1 h
    rw [fieldsLoopLog] at h
    by_cases ho0 : isOutputOnly f0 = true
    · simp only [ho0, if_true] at h
      obtain ⟨h1, h2⟩ := ih _ _ _ _ _ _ _ _ h
      refine ⟨h1, fun hf => ?_⟩
      rcases List.mem_cons.1 hf with e | e
      · rw [e, ho0] at ho
        exact absurd ho (by decide)
      · exact h2 e
    · simp only [ho0, Bool.false_eq_true, if_false] at h
      cases hb : bfL f0 seen with
      | panic => simp [hb] at h
      | outOfFuel => simp [hb] at h
      | ok r =>
        obtain ⟨⟨schema, seen2⟩, made1⟩ := r
        simp only [hb] at h
        have hres := hbf f0 seen schema seen2 made1 hb
        obtain ⟨h1, h2⟩ := ih _ _ _ _ _ _ _ _ h
        refine ⟨fun e he => h1 e (List.mem_append_left _ he), fun hf => ?_⟩
        rcases List.mem_cons.1 hf with e | e
        · subst e
          exact ⟨seen, schema, seen2, made1, SeenEq.refl _, hb,
            fun e he => h1 e (List.mem_append_right _ he)⟩
        · obtain ⟨seenA, s, seenB, made, hA, hrun, hsub⟩ := h2 e
          exact ⟨seenA, s, seenB, made, hA.trans hres, hrun, hsub⟩

/-- A run with its log leaves the same names marked. -/
theorem buildLog_restores (g : Graph) (nc : String → String) (fuel : Nat) :
    (∀ path msg seen s seen1 log,
      buildMessageSchemaLog fuel g nc path msg seen = .ok ((s, seen1), log) →
      buildMessageSchema fuel g nc msg seen = .ok (s, seen1) ∧ SeenEq seen1 seen) ∧
    (∀ path f seen s seen1 log,
      buildFieldSchemaLog fuel g nc path f seen = .ok ((s, seen1), log) →
      buildFieldSchema fuel g nc f seen = .ok (s, seen1) ∧ SeenEq seen1 seen) := by
  obtain ⟨eM, eF, _, _⟩ := buildLog_erase g nc fuel
  obtain ⟨rM, rF, _, _⟩ := build_restores g nc fuel
  constructor
  · intro path msg seen s seen1 log h
    have e := eM path msg seen
    rw [h] at e
    simp only [withoutLog] at e
    exact ⟨e.symm, rM msg seen s seen1 e.symm⟩
  · intro path f seen s seen1 log h
    have e := eF path f seen
    rw [h] at e
    simp only [withoutLog] at e
    exact ⟨e.symm, rF f seen s seen1 e.symm⟩

/-- Every expansion a run logs is made for a message that was not marked on
entry and is not among the expansions made on the way down to it. -/
theorem buildLog_inv (g : Graph) (nc : String → String) : ∀ fuel : Nat,
    (∀ path msg seen s seen1 log,
      buildMessageSchemaLog fuel g nc path msg seen = .ok ((s, seen1), log) →
      ∃ made, log = (msg.fullName, path) :: made ∧
        ∀ e ∈ made, NestedIn (msg.fullName :: path) seen e) ∧
    (∀ path f seen s seen1 log,
      buildFieldSchemaLog fuel g nc path f seen = .ok ((s, seen1), log) →
      ∀ e ∈ log, NestedIn path seen e) ∧
    (∀ path f seen s seen1 log,
      buildScalarOrMessageSchemaLog fuel g nc path f seen = .ok ((s, seen1), log) →
      ∀ e ∈ log, NestedIn path seen e) ∧
    (∀ path f seen s seen1 log,
      buildNestedMessageSchemaLog fuel g nc path f seen = .ok ((s, seen1), log) →
      ∀ e ∈ log, NestedIn path seen e) := by
  intro fuel
  induction fuel with
  | zero =>
    refine ⟨?_, ?_, ?_, ?_⟩ <;> intro path a seen s seen1 log h
    · simp [buildMessageSchemaLog] at h
    · simp [buildFieldSchemaLog] at h
    · simp [buildScalarOrMessageSchemaLog] at h
    · simp [buildNestedMessageSchemaLog] at h
  | succ n ih =>
    obtain ⟨ihM, ihF, ihS, ihN⟩ := ih
    refine ⟨?_, ?_, ?_, ?_⟩
    · intro path msg seen s seen1 log h
      rw [buildMessageSchemaLog] at h
      cases hl : fieldsLoopLog
          (fun field seen => buildFieldSchemaLog n g nc (msg.fullName :: path) field seen) nc
          msg.fields [] [] seen [(msg.fullName, path)] with
      | panic => simp [hl] at h
      | outOfFuel => simp [hl] at h
      | ok r =>
        obtain ⟨⟨props, req, seen2⟩, log2⟩ := r
        simp only [hl, Outcome.ok.injEq, Prod.mk.injEq] at h
        obtain ⟨made, hlog, hmade⟩ := fieldsLoopLog_inv _ nc (msg.fullName :: path)
          (fun f sn s1 sn1 md hr =>
            ⟨((buildLog_restores g nc n).2 _ f sn s1 sn1 md hr).2, ihF _ f sn s1 sn1 md hr⟩)
          msg.fields [] [] seen _ props req seen2 log2 hl
        exact ⟨made, by rw [← h.2, hlog]; rfl, hmade⟩
    · intro path f seen s seen1 log h
      rw [buildFieldSchemaLog] at h
      by_cases hm : f.isMap = true
      · simp only [hm, if_true] at h
        cases he : f.getMessage g with
        | none => simp [he] at h
        | some entry =>
          simp only [he] at h
          cases hv : entry.fields[1]? with
          | none => simp [hv] at h
          | some valueField =>
            simp only [hv] at h
            cases hb : buildFieldSchemaLog n g nc path valueField seen with
            | panic => simp [hb] at h
            | outOfFuel => simp [hb] at h
            | ok r =>
              obtain ⟨⟨vs, seen2⟩, log2⟩ := r
              simp only [hb, Outcome.ok.injEq, Prod.mk.injEq] at h
              rw [← h.2]
              exact ihF path valueField seen vs seen2 log2 hb
      · simp only [hm, Bool.false_eq_true, if_false] at h
        by_cases hl : f.isList = true
        · simp only [hl, if_true] at h
          cases hb : buildScalarOrMessageSchemaLog n g nc path f seen with
          | panic => simp [hb] at h
          | outOfFuel => simp [hb] at h
          | ok r =>
            obtain ⟨⟨es, seen2⟩, log2⟩ := r
            simp only [hb, Outcome.ok.injEq, Prod.mk.injEq] at h
            rw [← h.2]
            exact ihS path f seen es seen2 log2 hb
        · simp only [hl, Bool.false_eq_true, if_false] at h
          exact ihS path f seen s seen1 log h
    · intro path f seen s seen1 log h
      by_cases h1 : f.kind = .MessageKind
      · rw [buildScalarOrMessageSchemaLog] at h
        simp only [h1] at h
        exact ihN path f seen s seen1 log h
      · by_cases h2 : f.kind = .GroupKind
        · rw [buildScalarOrMessageSchemaLog] at h
          simp only [h2] at h
          exact ihN path f seen s seen1 log h
        · rw [scalarLog_leaf n g nc path f seen h1 h2] at h
          cases hb : buildScalarOrMessageSchema 1 g nc f seen with
          | ok r =>
            simp only [hb, Outcome.ok.injEq, Prod.mk.injEq] at h
            rw [← h.2]
            intro x hx
            simp at hx
          | panic => simp [hb] at h
          | outOfFuel => simp [hb] at h
    · intro path f seen s seen1 log h
      rw [buildNestedMessageSchemaLog] at h
      cases he : f.getMessage g with
      | none => simp [he] at h
      | some message =>
        simp only [he] at h
        cases hw : wellKnownSchema message.fullName with
        | some ws =>
          simp only [hw, Outcome.ok.injEq, Prod.mk.injEq] at h
          rw [← h.2]
          intro x hx
          simp at hx
        | none =>
          simp only [hw] at h
          by_cases hs : seenGet seen message.fullName = true
          · simp only [hs, if_true, Outcome.ok.injEq, Prod.mk.injEq] at h
            rw [← h.2]
            intro x hx
            simp at hx
          · simp only [hs, Bool.false_eq_true, if_false] at h
            have hs2 : seenGet seen message.fullName = false := by simpa using hs
            cases hb : buildMessageSchemaLog n g nc path message
                (mapSet seen message.fullName true) with
            | panic => simp [hb] at h
            | outOfFuel => simp [hb] at h
            | ok r =>
              obtain ⟨⟨s2, seen2⟩, log2⟩ := r
              simp only [hb, Outcome.ok.injEq, Prod.mk.injEq] at h
              obtain ⟨made, hlog, hmade⟩ := ihM path message _ s2 seen2 log2 hb
              rw [← h.2, hlog]
              intro e hmem
              rcases List.mem_cons.1 hmem with e1 | e1
              · subst e1
                exact ⟨[], rfl, by simp, hs2⟩
              · obtain ⟨ext, hp, hne, hun⟩ := hmade e e1
                have hneq : message.fullName ≠ e.1 := by
                  intro c
                  rw [← c, seenGet_mapSet_same] at hun
                  exact absurd hun (by decide)
                refine ⟨ext ++ [message.fullName], by rw [hp]; simp, ?_, ?_⟩
                · intro c
                  rcases List.mem_append.1 c with c1 | c1
                  · exact hne c1
                  · simp only [List.mem_singleton] at c1
                    exact hneq c1.symm
                · rw [seenGet_mapSet_other _ _ _ _ hneq] at hun
                  exact hun

/-! ## The message `buildMessageSchema` is called on is not marked (C16) -/

/-- The call of `buildMessageSchema` with its log, unfolded once. -/
theorem buildMessageSchemaLog_ok_inv (fuel : Nat) (g : Graph) (nc : String → String)
    (path : List String) (msg : Message) (seen : Seen) (s : Schema) (seen1 : Seen)
    (log : List Expansion)
    (h : buildMessageSchemaLog fuel g nc path msg seen = .ok ((s, seen1), log)) :
    ∃ fuel0 props req, fuel = fuel0 + 1 ∧
      fieldsLoopLog
        (fun field seen => buildFieldSchemaLog fuel0 g nc (msg.fullName :: path) field seen) nc
        msg.fields [] [] seen [(msg.fullName, path)] = .ok ((props, req, seen1), log) := by
  cases fuel with
  | zero => simp [buildMessageSchemaLog] at h
  | succ fuel0 =>
    rw [buildMessageSchemaLog] at h
    cases hl : fieldsLoopLog
        (fun field seen => buildFieldSchemaLog fuel0 g nc (msg.fullName :: path) field seen) nc
        msg.fields [] [] seen [(msg.fullName, path)] with
    | panic => simp [hl] at h
    | outOfFuel => simp [hl] at h
    | ok r =>
      obtain ⟨⟨props, req, seen2⟩, log2⟩ := r
      simp only [hl, Outcome.ok.injEq, Prod.mk.injEq] at h
      exact ⟨fuel0, props, req, rfl, by rw [← h.1.2, ← h.2]; exact hl⟩

/-- A singular field of message kind whose message is neither well-known nor
marked logs the expansion of that message below the path of the call. -/
theorem fieldLog_expansion (fuel : Nat) (g : Graph) (nc : String → String)
    (path : List String) (f : Field) (seen : Seen) (N : Message) (s : Schema) (seen1 : Seen)
    (log : List Expansion)
    (hN : f.getMessage g = some N) (hw : wellKnownSchema N.fullName = none)
    (hs : seenGet seen N.fullName = false)
    (hk : f.kind = .MessageKind ∨ f.kind = .GroupKind)
    (hmap : f.isMap = false) (hlist : f.isList = false)
    (h : buildFieldSchemaLog fuel g nc path f seen = .ok ((s, seen1), log)) :
    (N.fullName, path) ∈ log := by
  cases fuel with
  | zero => simp [buildFieldSchemaLog] at h
  | succ n1 =>
    rw [buildFieldSchemaLog] at h
    simp only [hmap, hlist, Bool.false_eq_true, if_false] at h
    cases n1 with
    | zero => simp [buildScalarOrMessageSchemaLog] at h
    | succ n2 =>
      rw [buildScalarOrMessageSchemaLog] at h
      have h2 : buildNestedMessageSchemaLog n2 g nc path f seen = .ok ((s, seen1), log) := by
        rcases hk with hk | hk <;> simpa only [hk] using h
      cases n2 with
      | zero => simp [buildNestedMessageSchemaLog] at h2
      | succ n3 =>
        rw [buildNestedMessageSchemaLog] at h2
        simp only [hN, hw, hs, Bool.false_eq_true, if_false] at h2
        cases hb : buildMessageSchemaLog n3 g nc path N (mapSet seen N.fullName true) with
        | panic => simp [hb] at h2
        | outOfFuel => simp [hb] at h2
        | ok r =>
          obtain ⟨⟨s2, seen2⟩, log2⟩ := r
          simp only [hb, Outcome.ok.injEq, Prod.mk.injEq] at h2
          obtain ⟨made, hlog, _⟩ := (buildLog_inv g nc n3).1 path N _ s2 seen2 log2 hb
          rw [← h2.2, hlog]
          exact List.mem_cons_self _ _

/-- C16, amended: `buildMessageSchema` does not mark the message it is called
on. For a message `M` that is not well-known and not marked, in particular from
an empty visited set, and a singular field `f` of `M` of message kind whose
type is `M`, not output-only, whose JSON name no other field of `M` shares: in
every schema `buildMessageSchema` returns for `M`, the property of `f` is a
second full expansion of `M`, namely the schema `buildMessageSchema` returns
for `M` itself with `M` marked, and in that second expansion the property of
`f` is the permissive fallback (each with the description of `f` when it has a
comment). In the log of the calls of `buildMessageSchema` the run makes, `M`
is expanded at the top and again inside its own expansion, never deeper, and
no other message is expanded inside its own expansion: the name of a logged
call occurs at most once among the names of the expansions it is nested in,
and only if it is the name of `M`. On a valid graph a schema is returned. -/
theorem root_expanded_once (g : Graph) (nc : String → String) (M : Message) (f : Field)
    (seen : Seen) (hw : wellKnownSchema M.fullName = none)
    (hs : seenGet seen M.fullName = false)
    (hf : f ∈ M.fields) (hfM : f.getMessage g = some M)
    (hk : f.kind = .MessageKind ∨ f.kind = .GroupKind)
    (hmap : f.isMap = false) (hlist : f.isList = false) (ho : isOutputOnly f = false)
    (huniq : ∀ f2 ∈ M.fields, f2.jsonName = f.jsonName → f2 = f) :
    (∀ fuel s seen1, buildMessageSchema fuel g nc M seen = .ok (s, seen1) →
      ∃ props s2 n seen2 props2, mapGet s "properties" = some (.obj props) ∧
        mapGet props f.jsonName = some (.obj (describe nc f s2)) ∧
        fuel = n + 4 ∧
        buildMessageSchema n g nc M (mapSet seen M.fullName true) = .ok (s2, seen2) ∧
        mapGet s2 "properties" = some (.obj props2) ∧
        mapGet props2 f.jsonName = some (.obj (describe nc f permissiveSchema))) ∧
    (∀ fuel s seen1, buildMessageSchema fuel g nc M seen = .ok (s, seen1) →
      ∃ log, buildMessageSchemaLog fuel g nc [] M seen = .ok ((s, seen1), log) ∧
        (M.fullName, []) ∈ log ∧ (M.fullName, [M.fullName]) ∈ log ∧
        ∀ e ∈ log, e.2.count e.1 ≤ 1 ∧ (e.1 ∈ e.2 → e.1 = M.fullName)) ∧
    (graphOK g = true → msgOK g M = true →
      ∃ fuel s seen1, buildMessageSchema fuel g nc M seen = .ok (s, seen1)) := by
  refine ⟨?_, ?_, buildMessageSchema_exists g nc M seen⟩
  · intro fuel s seen1 hrun
    obtain ⟨fuel0, props, req, hfuel, hs2, hl⟩ :=
      buildMessageSchema_ok_inv fuel g nc M seen s seen1 hrun
    obtain ⟨n, sf, seenA, seenB, hn, hA, hexp, hget⟩ :=
      sibling_entry g nc fuel0 M.fields seen props req seen1 M f hl hw hs hf hfM hk
        hmap hlist ho huniq
    obtain ⟨seen3, hexp3⟩ :=
      (build_congr g nc n).1 M _ _ sf seenB (seenEq_mapSet _ _ _ _ hA) hexp
    obtain ⟨props2, req2, hsf, hinner⟩ :=
      marked_expansion_self_entry n g nc M f _ sf seen3 hw (seenGet_mapSet_same _ _ _)
        hf hfM hk hmap hlist ho huniq hexp3
    exact ⟨props, sf, n, seen3, props2, by rw [hs2, mapGet_messageResult_properties], hget,
      by omega, hexp3, by rw [hsf, mapGet_messageResult_properties], hinner⟩
  · intro fuel s seen1 hrun
    have he := (buildLog_erase g nc fuel).1 [] M seen
    rw [hrun] at he
    obtain ⟨log, hlogrun⟩ := withoutLog_ok _ _ he
    obtain ⟨made, hlog, hmade⟩ := (buildLog_inv g nc fuel).1 [] M seen s seen1 log hlogrun
    refine ⟨log, hlogrun, by rw [hlog]; exact List.mem_cons_self _ _, ?_, ?_⟩
    · obtain ⟨fuel0, props, req, _, hl⟩ :=
        buildMessageSchemaLog_ok_inv fuel g nc [] M seen s seen1 log hlogrun
      obtain ⟨_, hmem⟩ := fieldsLoopLog_mem _ nc
        (fun f sn s1 sn1 md hr => ((buildLog_restores g nc fuel0).2 _ f sn s1 sn1 md hr).2)
        f ho M.fields [] [] seen _ props req seen1 log hl
      obtain ⟨seenA, sf, seenB, madef, hA, hrunf, hsub⟩ := hmem hf
      have hsA : seenGet seenA M.fullName = false := by rw [hA M.fullName, hs]
      exact hsub _ (fieldLog_expansion fuel0 g nc [M.fullName] f seenA M sf seenB madef
        hfM hw hsA hk hmap hlist hrunf)
    · intro e he
      rw [hlog] at he
      rcases List.mem_cons.1 he with e1 | e1
      · subst e1
        simp
      · obtain ⟨ext, hp, hne, _⟩ := hmade e e1
        rw [hp]
        constructor
        · rw [List.count_append, List.count_eq_zero_of_not_mem hne, Nat.zero_add]
          exact List.count_le_length _ _
        · intro hm
          rcases List.mem_append.1 hm with c | c
          · exact absurd c hne
          · simpa using c

/-- C16 witness: `pkg.Tree` from the empty visited set. The property `next` is
the schema of `pkg.Tree` built with `pkg.Tree` marked, and the run expands
`pkg.Tree` at the top and once inside its own expansion. -/
theorem root_expanded_once_witness :
    wellKnownSchema treeMessage.fullName = none ∧ seenGet [] treeMessage.fullName = false ∧
    buildMessageSchemaLog 8 treeGraph id [] treeMessage [] =
      .ok ((messageResult [("label", .obj [("type", .str "string")]),
          ("next", .obj treeInnerSchema)] [], []),
        [("pkg.Tree", []), ("pkg.Tree", ["pkg.Tree"])]) ∧
    buildMessageSchema 4 treeGraph id treeMessage [("pkg.Tree", true)] =
      .ok (treeInnerSchema, [("pkg.Tree", true)]) ∧
    ∃ props s2 n seen2 props2,
      mapGet (messageResult [("label", .obj [("type", .str "string")]),
        ("next", .obj treeInnerSchema)] []) "properties" = some (.obj props) ∧
      mapGet props (messageField "next" 0).jsonName =
        some (.obj (describe id (messageField "next" 0) s2)) ∧
      8 = n + 4 ∧
      buildMessageSchema n treeGraph id treeMessage (mapSet [] treeMessage.fullName true) =
        .ok (s2, seen2) ∧
      mapGet s2 "properties" = some (.obj props2) ∧
      mapGet props2 (messageField "next" 0).jsonName =
        some (.obj (describe id (messageField "next" 0) permissiveSchema)) :=
  ⟨by decide, by decide, by decide, by decide,
    (root_expanded_once treeGraph id treeMessage (messageField "next" 0) []
      (by decide) (by decide) (by decide) (by decide) (by decide) (by decide) (by decide)
      (by decide) (by decide)).1 8 _ [] (by decide)⟩

/-! ## The extractor is total -/

/-- The scan loop never panics, whatever the fuel: no iteration slices past
the end of the remaining region. -/
theorem scanLoop_no_panic : ∀ (fuel : Nat) (u : List Byte) (behaviors : List Int),
    scanLoop fuel u behaviors ≠ .panic := by
  intro fuel
  induction fuel with
  | zero =>
    intro u behaviors
    unfold scanLoop
    split <;> simp
  | succ n ih =>
    intro u behaviors
    rw [scanLoop_succ]
    split
    · have hspec := scanStep_spec u
      cases hs : scanStep u with
      | stop => simp
      | panic => exact absurd hs hspec.1
      | next rest found => exact ih rest _
    · simp

/-- Claim C19. The annotation extractor is total. For every byte sequence `u`
the scan loop of `getFieldBehaviors` returns a list: with one unit of fuel per
byte of `u`, and with any larger amount, it returns the same list appended to
the behaviors it started with, and `getFieldBehaviors` returns that list. It
never fails, whatever the fuel. The reason is as stated: one iteration never
slices past the end of the region, and an iteration that does not return goes
on with a strictly shorter region. -/
theorem extractor_total (u : List Byte) :
    (∃ l : List Int, extract u = .ok l ∧
      (∀ (fuel : Nat) (behaviors : List Int), u.length ≤ fuel →
        scanLoop fuel u behaviors = .ok (behaviors ++ l)) ∧
      (∀ f : Field, f.unknown = some u → getFieldBehaviors f = l)) ∧
    (∀ (fuel : Nat) (behaviors : List Int), scanLoop fuel u behaviors ≠ .panic) ∧
    scanStep u ≠ .panic ∧
    (∀ rest found, scanStep u = .next rest found → rest.length < u.length) := by
  obtain ⟨l, hl⟩ := scanLoop_returns u.length u (le_refl _)
  have he : extract u = .ok l := by simpa [extract] using hl u.length [] (le_refl _)
  refine ⟨⟨l, he, hl, ?_⟩, fun fuel behaviors => scanLoop_no_panic fuel u behaviors,
    (scanStep_spec u).1, (scanStep_spec u).2⟩
  intro f hf
  simp [getFieldBehaviors, hf, he]

/-- Claim C19 at the empty region and at malformed regions: a truncated varint
header, an overlong varint header, the field number zero, a start-group
record after a required annotation, and a length-delimited record longer than
the region. -/
theorem extractor_total_witness :
    (scanLoop 0 [0x80] [] ≠ .panic) ∧
    extract [] = .ok [] ∧
    extract [0x80] = .ok [] ∧
    extract [0xFF, 0xFF, 0xFF, 0xFF, 0xFF, 0xFF, 0xFF, 0xFF, 0xFF, 0xFF, 0x01] = .ok [] ∧
    extract [0x00, 0x01] = .ok [] ∧
    extract [0xE0, 0x41, 0x02, 0x0B, 0x01] = .ok [2] ∧
    extract [0x0A, 0x05, 0x01] = .ok [] :=
  ⟨(extractor_total [0x80]).2.1 0 [], by decide, by decide, by decide, by decide, by decide,
    by decide⟩

/-! ## The decode pipeline -/

/-- Claim C18. The function `DecodeArgs` equals the pipeline of the
specification, for every preprocessor, every pair of library functions, every
arguments mapping and every message: on an absent message it returns success;
otherwise its result is the strict structural decode of `h a`, where `a` is
the given mapping, or the empty mapping when the arguments are absent, and `h`
is the preprocessor, or the identity when none is set. Hence absent arguments
behave as the empty mapping, two preprocessors that agree on every mapping
that is not nil give the same result (the preprocessor is never applied to a
nil mapping), and with a preprocessor set by `SetArgPreprocessor` the result
is the decode of its output. With the libraries of the model a key the
message does not have is an error. -/
theorem DecodeArgs_pipeline {Msg Doc : Type} (pre : Option ArgPreprocessor)
    (jm : Option JsonMap → Result Doc) (um : Doc → Msg → Result Msg)
    (args : Option JsonMap) :
    DecodeArgs pre jm um args none = .ok none ∧
    (∀ msg, DecodeArgs pre jm um args msg = decodePipeline pre jm um args msg) ∧
    (∀ m, DecodeArgs pre jm um args (some m) =
      strictDecode jm um ((pre.getD id) (some (args.getD []))) m) ∧
    (∀ m, DecodeArgs pre jm um none (some m) = DecodeArgs pre jm um (some []) (some m)) ∧
    (∀ (h h2 : ArgPreprocessor) (msg : Option Msg), (∀ a, h (some a) = h2 (some a)) →
      DecodeArgs (some h) jm um args msg = DecodeArgs (some h2) jm um args msg) ∧
    (∀ (h : ArgPreprocessor) (old : Option ArgPreprocessor) (m : Msg),
      DecodeArgs (SetArgPreprocessor (some h) old) jm um args (some m) =
        strictDecode jm um (h (some (args.getD []))) m) ∧
    (∀ (old : Option ArgPreprocessor) (m : Msg),
      DecodeArgs (SetArgPreprocessor none old) jm um args (some m) =
        strictDecode jm um (some (args.getD [])) m) ∧
    (∀ (T : Message) (k : String) (v : Json) (rest : JsonMap) (m : ProtoMsg),
      findField T k = none →
      strictDecode jsonMarshal (protoUnmarshal T) (some ((k, v) :: rest)) m =
        .error .unknownField) := by
  refine ⟨rfl, ?_, ?_, ?_, ?_, ?_, ?_, ?_⟩
  · intro msg
    cases msg <;> cases pre <;> cases args <;>
      simp [DecodeArgs, decodePipeline, strictDecode]
  · intro m
    cases pre <;> cases args <;> simp [DecodeArgs, strictDecode]
  · intro m
    cases pre <;> simp [DecodeArgs]
  · intro h h2 msg hh
    cases msg <;> cases args <;> simp [DecodeArgs, hh]
  · intro h old m
    cases args <;> simp [DecodeArgs, SetArgPreprocessor, strictDecode]
  · intro old m
    cases args <;> simp [DecodeArgs, SetArgPreprocessor, strictDecode]
  · intro T k v rest m hk
    simp [strictDecode, jsonMarshal, protoUnmarshal, unmarshalLoop, hk]

/-- Claim C18 on the greeter request. A preprocessor that would tell a nil
mapping from an empty one sees the empty one on absent arguments; it is the
output of the preprocessor that is decoded, not the mapping of the caller; a
preprocessor that returns a nil mapping makes the decode fail; an unknown key
is an error; and an absent message is success. -/
theorem DecodeArgs_pipeline_witness :
    DecodeArgs (some nilProbe) jsonMarshal (protoUnmarshal helloRequest) none (some emptyMsg) =
      DecodeArgs (some nilProbe) jsonMarshal (protoUnmarshal helloRequest) (some [])
        (some emptyMsg) ∧
    decodeThenEncode (some nilProbe) helloRequest none = .ok [] ∧
    decodeThenEncode (some fixedName) helloRequest (some [("name", .str "Bob")]) =
      .ok [("name", .str "Ada")] ∧
    decodeThenEncode none helloRequest (some [("name", .str "Bob")]) =
      .ok [("name", .str "Bob")] ∧
    decodeThenEncode (some dropAll) helloRequest (some [("name", .str "Bob")]) =
      .error .typeMismatch ∧
    decodeThenEncode none helloRequest (some [("nick", .str "Bob")]) =
      .error .unknownField ∧
    DecodeArgs (some dropAll) jsonMarshal (protoUnmarshal helloRequest) none none = .ok none :=
  ⟨(DecodeArgs_pipeline (some nilProbe) jsonMarshal (protoUnmarshal helloRequest) none).2.2.2.1
      emptyMsg,
    by decide, by decide, by decide, by decide, by decide, rfl⟩

/-! ## The emitter: key order -/

/-- The comparison of the model is the lexicographic order of character
lists. -/
theorem lessChars_iff : ∀ (a b : List Char), lessChars a b = true ↔ a < b := by
  intro a
  induction a with
  | nil =>
    intro b
    cases b with
    | nil =>
      simp only [lessChars]
      constructor
      · intro h; exact absurd h (by decide)
      · intro h; cases h
    | cons y ys =>
      simp only [lessChars]
      exact ⟨fun _ => List.Lex.nil, fun _ => trivial⟩
  | cons x xs ih =>
    intro b
    cases b with
    | nil =>
      simp only [lessChars]
      constructor
      · intro h; exact absurd h (by decide)
      · intro h; cases h
    | cons y ys =>
      have hxy : x < y ↔ x.toNat < y.toNat := by
        rw [Char.lt_def]; exact Iff.rfl
      have hyx : y < x ↔ y.toNat < x.toNat := by
        rw [Char.lt_def]; exact Iff.rfl
      simp only [lessChars]
      by_cases h1 : x.toNat < y.toNat
      · simp only [h1, if_true]
        exact ⟨fun _ => List.Lex.rel (hxy.2 h1), fun _ => trivial⟩
      · simp only [h1, if_false]
        by_cases h2 : y.toNat < x.toNat
        · simp only [h2, if_true]
          constructor
          · intro h; exact absurd h (by decide)
          · intro h
            cases h with
            | cons _ => exact absurd h2 (lt_irrefl _)
            | rel h => exact absurd (hxy.1 h) h1
        · simp only [h2, if_false]
          have hEq : x = y :=
            le_antisymm (not_lt.1 (fun c => h2 (hyx.1 c))) (not_lt.1 (fun c => h1 (hxy.1 c)))
          subst hEq
          rw [ih ys]
          constructor
          · intro h
            exact List.Lex.cons h
          · intro h
            cases h with
            | cons h => exact h
            | rel h => exact absurd h (lt_irrefl _)

/-- The comparison of the model is the order of strings. -/
theorem stringLess_iff (s t : String) : stringLess s t = true ↔ s < t := by
  rw [String.lt_iff_toList_lt]
  exact lessChars_iff s.data t.data

/-- The insertion of the model is the ordered insertion for `≤`. -/
theorem insertKey_eq (s : String) (l : List String) :
    insertKey s l = l.orderedInsert (fun a b => a ≤ b) s := by
  induction l with
  | nil => rfl
  | cons t ts ih =>
    simp only [insertKey, List.orderedInsert]
    by_cases h : stringLess t s = true
    · have h2 : ¬ s ≤ t := not_le.2 ((stringLess_iff t s).1 h)
      simp only [h, if_true, h2, if_false, ih]
    · have h2 : s ≤ t := not_lt.1 (fun c => h ((stringLess_iff t s).2 c))
      simp only [h, h2, if_true]
      simp

/-- The sort of the model is the insertion sort for `≤`. -/
theorem sortStrings_eq (l : List String) :
    sortStrings l = l.insertionSort (fun a b => a ≤ b) := by
  induction l with
  | nil => rfl
  | cons s ss ih => simp only [sortStrings, List.insertionSort, insertKey_eq, ih]

/-- The sorted keys are the keys. -/
theorem sortStrings_perm (l : List String) : (sortStrings l).Perm l := by
  rw [sortStrings_eq]; exact List.perm_insertionSort _ l

/-- The sorted keys are increasing. -/
theorem sortStrings_sorted (l : List String) :
    (sortStrings l).Sorted (fun a b => a ≤ b) := by
  rw [sortStrings_eq]; exact List.sorted_insertionSort _ l

/-- The sorted keys of a map are strictly increasing. -/
theorem sortStrings_strict (l : List String) (h : l.Nodup) :
    (sortStrings l).Sorted (fun a b => a < b) :=
  (sortStrings_sorted l).lt_of_le ((sortStrings_perm l).nodup_iff.2 h)

/-- The sorted keys do not depend on the order of enumeration. -/
theorem sortStrings_congr (l1 l2 : List String) (h : l1.Perm l2) :
    sortStrings l1 = sortStrings l2 :=
  List.eq_of_perm_of_sorted (((sortStrings_perm l1).trans h).trans (sortStrings_perm l2).symm)
    (sortStrings_sorted l1) (sortStrings_sorted l2)

theorem mem_sortStrings (l : List String) (k : String) : k ∈ sortStrings l ↔ k ∈ l :=
  (sortStrings_perm l).mem_iff

/-! ## The emitter: maps with the same content -/

theorem mem_of_mapGet {α : Type} (m : List (String × α)) (k : String) (v : α)
    (h : mapGet m k = some v) : (k, v) ∈ m := by
  induction m with
  | nil => simp [mapGet] at h
  | cons e rest ih =>
    obtain ⟨k1, v1⟩ := e
    simp only [mapGet] at h
    by_cases hk : k1 = k
    · simp only [hk, if_true, Option.some.injEq] at h
      subst hk; subst h
      exact List.mem_cons_self _ _
    · simp only [hk, if_false] at h
      exact List.mem_cons_of_mem _ (ih h)

/-- A map read does not depend on the order of enumeration. -/
theorem mapGet_perm {α : Type} (m1 m2 : List (String × α)) (k : String)
    (hp : m1.Perm m2) (hnd : (mapKeys m1).Nodup) : mapGet m1 k = mapGet m2 k := by
  have hk : (mapKeys m1).Perm (mapKeys m2) := hp.map _
  have hnd2 : (mapKeys m2).Nodup := hk.nodup_iff.1 hnd
  cases h : mapGet m1 k with
  | none =>
    cases h2 : mapGet m2 k with
    | none => rfl
    | some v =>
      have hm : (k, v) ∈ m1 := hp.mem_iff.2 (mem_of_mapGet m2 k v h2)
      rw [mapGet_of_mem_nodup m1 k v hnd hm] at h
      exact absurd h (by simp)
  | some v =>
    have hm : (k, v) ∈ m2 := hp.mem_iff.1 (mem_of_mapGet m1 k v h)
    exact (mapGet_of_mem_nodup m2 k v hnd2 hm).symm

theorem mapIndex_perm (m1 m2 : Schema) (k : String)
    (hp : m1.Perm m2) (hnd : (mapKeys m1).Nodup) : mapIndex m1 k = mapIndex m2 k := by
  simp only [mapIndex, mapGet_perm m1 m2 k hp hnd]

/-- Reading a map in which one value was replaced: the same value, or the
replaced one against its replacement. -/
theorem mapIndex_entry (before after : Schema) (k : String) (a b : Value) (k1 : String) :
    mapIndex (before ++ (k, a) :: after) k1 = mapIndex (before ++ (k, b) :: after) k1 ∨
    (mapIndex (before ++ (k, a) :: after) k1 = a ∧
      mapIndex (before ++ (k, b) :: after) k1 = b) := by
  induction before with
  | nil =>
    by_cases hk : k = k1
    · right
      simp [mapIndex, mapGet, hk]
    · left
      simp [mapIndex, mapGet, hk]
  | cons e rest ih =>
    obtain ⟨k2, v2⟩ := e
    by_cases hk : k2 = k1
    · left
      simp [mapIndex, mapGet, hk]
    · rcases ih with h | h
      · left
        simpa [mapIndex, mapGet, hk] using h
      · right
        simpa [mapIndex, mapGet, hk] using h

theorem mapKeys_entry (before after : Schema) (k : String) (a b : Value) :
    mapKeys (before ++ (k, a) :: after) = mapKeys (before ++ (k, b) :: after) := by
  simp [mapKeys]

/-- The key loop depends on the map only through the values it reads. -/
theorem emitKeys_congr (ev ev2 : String → Value → Outcome (List String)) (m1 m2 : Schema) :
    ∀ ks : List String, (∀ k ∈ ks, ev k (mapIndex m1 k) = ev2 k (mapIndex m2 k)) →
      emitKeys ev m1 ks = emitKeys ev2 m2 ks := by
  intro ks
  induction ks with
  | nil => intro _; rfl
  | cons k rest ih =>
    intro h
    simp only [emitKeys]
    rw [h k (List.mem_cons_self _ _), ih (fun k1 hk1 => h k1 (List.mem_cons_of_mem _ hk1))]

/-- The key loop writes one block per key, in the order of the keys, and the
block of a key holds the lines of its call. -/
theorem emitKeys_blocks (ev : String → Value → Outcome (List String)) (m : Schema) :
    ∀ (ks : List String) (blocks : List (String × List String)),
      emitKeys ev m ks = .ok blocks →
      blocks.map (fun b => b.1) = ks ∧ ∀ b ∈ blocks, ev b.1 (mapIndex m b.1) = .ok b.2 := by
  intro ks
  induction ks with
  | nil =>
    intro blocks h
    simp only [emitKeys, Outcome.ok.injEq] at h
    subst h
    simp
  | cons k rest ih =>
    intro blocks h
    simp only [emitKeys] at h
    cases h1 : ev k (mapIndex m k) with
    | panic => simp [h1] at h
    | outOfFuel => simp [h1] at h
    | ok lines =>
      simp only [h1] at h
      cases h2 : emitKeys ev m rest with
      | panic => simp [h2] at h
      | outOfFuel => simp [h2] at h
      | ok blocks2 =>
        simp only [h2, Outcome.ok.injEq] at h
        subst h
        obtain ⟨hk, hb⟩ := ih blocks2 h2
        refine ⟨by simp [hk], ?_⟩
        intro b hbm
        rcases List.mem_cons.1 hbm with e | e
        · subst e; exact h1
        · exact hb b e

/-- The item loop on two lists that differ in one item. -/
theorem emitItems_item (ea : Value → Outcome (List String)) (before after : List Value)
    (a b : Value) (h : ea a = ea b) :
    emitItems ea (before ++ a :: after) = emitItems ea (before ++ b :: after) := by
  induction before with
  | nil => simp only [List.nil_append, emitItems, h]
  | cons x rest ih => simp only [List.cons_append, emitItems, List.append_eq, ih]

/-- The three emitting functions on two maps that are emitted alike. -/
theorem emit_obj_congr (p : Verbs) (m1 m2 : Schema)
    (h : ∀ fuel indent, emitMapEntries fuel p m1 indent = emitMapEntries fuel p m2 indent) :
    (∀ fuel key indent,
      emitValue fuel p key (.obj m1) indent = emitValue fuel p key (.obj m2) indent) ∧
    (∀ fuel indent,
      emitAnonymousValue fuel p (.obj m1) indent = emitAnonymousValue fuel p (.obj m2) indent) := by
  constructor
  · intro fuel key indent
    cases fuel with
    | zero => simp [emitValue]
    | succ n => simp only [emitValue, h]
  · intro fuel indent
    cases fuel with
    | zero => simp [emitAnonymousValue]
    | succ n => simp only [emitAnonymousValue, h]

/-- Enumeration order does not matter to `emitMapEntries`. -/
theorem emitMapEntries_perm (p : Verbs) (m1 m2 : Schema) (hp : m1.Perm m2)
    (hnd : (mapKeys m1).Nodup) (fuel : Nat) (indent : String) :
    emitMapEntries fuel p m1 indent = emitMapEntries fuel p m2 indent := by
  cases fuel with
  | zero => simp [emitMapEntries]
  | succ n =>
    simp only [emitMapEntries]
    rw [sortStrings_congr (mapKeys m1) (mapKeys m2) (hp.map _),
      emitKeys_congr _ (fun k val => emitValue n p k val indent) m1 m2 _
        (fun k _ => by rw [mapIndex_perm m1 m2 k hp hnd])]

/-- A mapping with the same content as a mapping is a mapping. -/
theorem SameContent.obj_right {a b : Value} (h : SameContent a b) :
    ∀ m1, a = .obj m1 → ∃ m2, b = .obj m2 := by
  induction h with
  | refl v => intro m1 e; exact ⟨m1, e⟩
  | reorder m1 m2 _ _ => intro _ _; exact ⟨m2, rfl⟩
  | entry before after k a b _ _ => intro _ _; exact ⟨_, rfl⟩
  | item before after a b _ _ => intro m1 e; cases e
  | trans a b c _ _ ih1 ih2 =>
    intro m1 e
    obtain ⟨m2, e2⟩ := ih1 m1 e
    exact ih2 m2 e2

/-- Values with the same content are emitted alike by all three functions. -/
theorem SameContent.emit (p : Verbs) {a b : Value} (h : SameContent a b) :
    (∀ fuel key indent, emitValue fuel p key a indent = emitValue fuel p key b indent) ∧
    (∀ fuel indent, emitAnonymousValue fuel p a indent = emitAnonymousValue fuel p b indent) ∧
    (∀ m1 m2, a = .obj m1 → b = .obj m2 → ∀ fuel indent,
      emitMapEntries fuel p m1 indent = emitMapEntries fuel p m2 indent) := by
  induction h with
  | refl v =>
    refine ⟨fun _ _ _ => rfl, fun _ _ => rfl, ?_⟩
    intro m1 m2 e1 e2 fuel indent
    rw [e1] at e2
    cases e2
    rfl
  | reorder m1 m2 hp hnd =>
    have hm : ∀ fuel indent, emitMapEntries fuel p m1 indent = emitMapEntries fuel p m2 indent :=
      fun fuel indent => emitMapEntries_perm p m1 m2 hp hnd fuel indent
    refine ⟨(emit_obj_congr p m1 m2 hm).1, (emit_obj_congr p m1 m2 hm).2, ?_⟩
    intro n1 n2 e1 e2
    cases e1; cases e2
    exact hm
  | entry before after k a b _ ih =>
    have hm : ∀ fuel indent,
        emitMapEntries fuel p (before ++ (k, a) :: after) indent =
          emitMapEntries fuel p (before ++ (k, b) :: after) indent := by
      intro fuel indent
      cases fuel with
      | zero => simp [emitMapEntries]
      | succ n =>
        simp only [emitMapEntries]
        rw [mapKeys_entry before after k a b,
          emitKeys_congr _ (fun k1 val => emitValue n p k1 val indent)
            (before ++ (k, a) :: after) (before ++ (k, b) :: after) _ ?_]
        intro k1 _
        rcases mapIndex_entry before after k a b k1 with e | ⟨e1, e2⟩
        · rw [e]
        · rw [e1, e2]; exact ih.1 n k1 indent
    refine ⟨(emit_obj_congr p _ _ hm).1, (emit_obj_congr p _ _ hm).2, ?_⟩
    intro n1 n2 e1 e2
    cases e1; cases e2
    exact hm
  | item before after a b _ ih =>
    refine ⟨?_, ?_, ?_⟩
    · intro fuel key indent
      cases fuel with
      | zero => simp [emitValue]
      | succ n =>
        simp only [emitValue]
        rw [emitItems_item _ before after a b (ih.2.1 n _)]
    · intro fuel indent
      cases fuel with
      | zero => simp [emitAnonymousValue]
      | succ n => simp only [emitAnonymousValue]
    · intro m1 m2 e1
      cases e1
  | trans a b c h1 _ ih1 ih2 =>
    refine ⟨fun fuel key indent => (ih1.1 fuel key indent).trans (ih2.1 fuel key indent),
      fun fuel indent => (ih1.2.1 fuel indent).trans (ih2.2.1 fuel indent), ?_⟩
    intro m1 m3 e1 e3 fuel indent
    obtain ⟨m2, e2⟩ := h1.obj_right m1 e1
    exact (ih1.2.2 m1 m2 e1 e2 fuel indent).trans (ih2.2.2 m2 m3 e2 e3 fuel indent)

/-! ## The emitter is deterministic -/

/-- The two listings of the point schema have the same content. -/
theorem pointSchema_sameContent :
    SameContent (.obj pointSchema) (.obj pointSchemaReordered) := by
  have inner : SameContent
      (.obj [("y", .obj [("type", .str "integer")]), ("x", .obj [("type", .str "integer")])])
      (.obj [("x", .obj [("type", .str "integer")]), ("y", .obj [("type", .str "integer")])]) :=
    SameContent.reorder _ _ (List.Perm.swap _ _ _) (by decide)
  have step1 := SameContent.entry [("type", .str "object")]
    [("additionalProperties", .bool false), ("required", .strs ["y", "x"])] "properties" _ _ inner
  refine SameContent.trans _ _ _ step1 (SameContent.reorder _ _ ?_ (by decide))
  simp only [pointSchemaReordered, List.cons_append, List.nil_append]
  exact (List.reverse_perm _).symm

/-- Claim C14. The emitter is deterministic with stable key order. Whenever
`emitMapEntries` returns, what it wrote is one block of lines per key of the
map, the block that `emitValue` wrote for that key and its value, and the
keys of the blocks are the keys of the map sorted: a rearrangement of the
keys in increasing lexicographic order, strictly increasing since a Go map
holds each key once, and the same whatever order the keys were enumerated in.
The elements of a string sequence are written in their original order, one
line each. Hence two maps with the same entries in another order produce the
same lines, and so do two values with the same content at every nesting
level, in `emitValue`, `emitMapEntries` and `emitSchemaField`. -/
theorem emitter_deterministic (p : Verbs) :
    (∀ (fuel : Nat) (m : Schema) (indent : String) (lines : List String),
      emitMapEntries fuel p m indent = .ok lines →
      ∃ (n : Nat) (blocks : List (String × List String)),
        fuel = n + 1 ∧ entryBlocks n p m indent = .ok blocks ∧ lines = joinBlocks blocks ∧
        blocks.map (fun b => b.1) = sortStrings (mapKeys m) ∧
        (∀ b ∈ blocks, emitValue n p b.1 (mapIndex m b.1) indent = .ok b.2)) ∧
    (∀ s t : String, stringLess s t = true ↔ s < t) ∧
    (∀ keys : List String, (sortStrings keys).Perm keys ∧
      (sortStrings keys).Sorted (fun a b => a ≤ b) ∧
      ((keys.Nodup → (sortStrings keys).Sorted (fun a b => a < b))) ∧
      ∀ keys2 : List String, keys.Perm keys2 → sortStrings keys = sortStrings keys2) ∧
    (∀ (fuel : Nat) (key : String) (l : List String) (indent : String),
      emitValue (fuel + 1) p key (.strs l) indent =
        .ok ([indent ++ p.quote key ++ ": []string\x7b"] ++
          l.map (fun s => indent ++ "\t" ++ p.quote s ++ ",") ++ [indent ++ "\x7d,"])) ∧
    (∀ m1 m2 : Schema, m1.Perm m2 → (mapKeys m1).Nodup → ∀ (fuel : Nat) (indent : String),
      emitMapEntries fuel p m1 indent = emitMapEntries fuel p m2 indent) ∧
    (∀ a b : Value, SameContent a b → ∀ (fuel : Nat) (key indent : String),
      emitValue fuel p key a indent = emitValue fuel p key b indent) ∧
    (∀ m1 m2 : Schema, SameContent (.obj m1) (.obj m2) →
      ∀ (fuel : Nat) (name indent : String),
        emitMapEntries fuel p m1 indent = emitMapEntries fuel p m2 indent ∧
        emitSchemaField fuel p name m1 indent = emitSchemaField fuel p name m2 indent) := by
  refine ⟨?_, stringLess_iff, ?_, ?_, ?_, ?_, ?_⟩
  · intro fuel m indent lines h
    cases fuel with
    | zero => simp [emitMapEntries] at h
    | succ n =>
      simp only [emitMapEntries] at h
      cases hb : emitKeys (fun k val => emitValue n p k val indent) m
          (sortStrings (mapKeys m)) with
      | panic => simp [hb] at h
      | outOfFuel => simp [hb] at h
      | ok blocks =>
        simp only [hb, Outcome.ok.injEq] at h
        obtain ⟨hk, hv⟩ := emitKeys_blocks _ m _ blocks hb
        exact ⟨n, blocks, rfl, hb, h.symm, hk, hv⟩
  · intro keys
    exact ⟨sortStrings_perm keys, sortStrings_sorted keys, sortStrings_strict keys,
      sortStrings_congr keys⟩
  · intro fuel key l indent
    simp only [emitValue]
  · intro m1 m2 hp hnd fuel indent
    exact emitMapEntries_perm p m1 m2 hp hnd fuel indent
  · intro a b h fuel key indent
    exact (h.emit p).1 fuel key indent
  · intro m1 m2 h fuel name indent
    have e := (h.emit p).2.2 m1 m2 rfl rfl
    exact ⟨e fuel indent, by simp only [emitSchemaField, e]⟩

/-- Claim C14 on the point schema, listed in two orders that differ at both
nesting levels: the same lines, the keys of each level in increasing order
and the names of `required` in their original order. -/
theorem emitter_deterministic_witness :
    SameContent (.obj pointSchema) (.obj pointSchemaReordered) ∧
    emitMapEntries 6 plainVerbs pointSchema "" =
      emitMapEntries 6 plainVerbs pointSchemaReordered "" ∧
    emitMapEntries 6 plainVerbs pointSchemaReordered "" =
      .ok ["\"additionalProperties\": false,",
        "\"properties\": map[string]any\x7b",
        "\t\"x\": map[string]any\x7b", "\t\t\"type\": \"integer\",", "\t\x7d,",
        "\t\"y\": map[string]any\x7b", "\t\t\"type\": \"integer\",", "\t\x7d,",
        "\x7d,",
        "\"required\": []string\x7b", "\t\"y\",", "\t\"x\",", "\x7d,",
        "\"type\": \"object\","] :=
  ⟨pointSchema_sameContent,
    ((emitter_deterministic plainVerbs).2.2.2.2.2.2 pointSchema pointSchemaReordered
      pointSchema_sameContent 6 "" "").1,
    by decide⟩

/-! ## The builder output is emittable -/

theorem plainEntries_iff (m : List (String × Value)) :
    Value.plainEntries m = true ↔ ∀ e ∈ m, e.2.plain = true := by
  induction m with
  | nil => simp [Value.plainEntries]
  | cons e rest ih =>
    obtain ⟨k, v⟩ := e
    simp only [Value.plainEntries, List.mem_cons, forall_eq_or_imp]
    by_cases hv : v.plain = true
    · simp only [hv, if_true, true_and]
      exact ih
    · simp [hv]

theorem plain_obj (m : List (String × Value)) :
    (Value.obj m).plain = Value.plainEntries m := by
  simp [Value.plain]

theorem plainEntries_mapSet (m : Schema) (k : String) (v : Value)
    (hm : Value.plainEntries m = true) (hv : v.plain = true) :
    Value.plainEntries (mapSet m k v) = true := by
  induction m with
  | nil => simp [mapSet, Value.plainEntries, hv]
  | cons e rest ih =>
    obtain ⟨k1, v1⟩ := e
    have h1 := (plainEntries_iff _).1 hm
    have hv1 : v1.plain = true := h1 (k1, v1) (List.mem_cons_self _ _)
    have hr : Value.plainEntries rest = true :=
      (plainEntries_iff _).2 (fun e he => h1 e (List.mem_cons_of_mem _ he))
    simp only [mapSet]
    by_cases hk : k1 = k
    · simp [hk, Value.plainEntries, hv, hr]
    · simp [hk, Value.plainEntries, hv1, ih hr]

theorem ite_some_plain {c : Prop} [Decidable c] (a : Schema) (r : Option Schema) (s : Schema)
    (ha : Value.plainEntries a = true) (hr : r = some s → Value.plainEntries s = true) :
    (if c then some a else r) = some s → Value.plainEntries s = true := by
  intro h
  by_cases hc : c
  · simp only [hc, if_true, Option.some.injEq] at h
    rw [← h]; exact ha
  · simp only [hc, if_false] at h
    exact hr h

theorem plain_wellKnownSchema (name : String) (s : Schema)
    (h : wellKnownSchema name = some s) : Value.plainEntries s = true := by
  revert h
  unfold wellKnownSchema
  repeat (refine ite_some_plain _ _ s rfl ?_)
  intro h
  cases h

theorem plain_buildEnumSchema (field : Field) :
    Value.plainEntries (buildEnumSchema field) = true := by
  simp [buildEnumSchema, Value.plainEntries, Value.plain]

theorem plain_messageResult (properties : Schema) (required : List String)
    (h : Value.plainEntries properties = true) :
    Value.plainEntries (messageResult properties required) = true := by
  have hb : Value.plainEntries [("type", .str "object"), ("properties", .obj properties),
      ("additionalProperties", .bool false)] = true := by
    simp [Value.plainEntries, Value.plain, h]
  unfold messageResult
  simp only []
  split
  · exact plainEntries_mapSet _ _ _ hb (by simp [Value.plain])
  · exact hb

/-- The field loop keeps the properties plain when every field schema is. -/
theorem fieldsLoop_plain (bf : Field → Seen → Outcome (Schema × Seen)) (nc : String → String)
    (hbf : ∀ field seen s seen1, bf field seen = .ok (s, seen1) →
      Value.plainEntries s = true) :
    ∀ (fs : List Field) (props : Schema) (req : List String) (seen : Seen)
      (props1 : Schema) (req1 : List String) (seen1 : Seen),
      Value.plainEntries props = true →
      fieldsLoop bf nc fs props req seen = .ok (props1, req1, seen1) →
      Value.plainEntries props1 = true := by
  intro fs
  induction fs with
  | nil =>
    intro props req seen props1 req1 seen1 hp h
    simp only [fieldsLoop, Outcome.ok.injEq, Prod.mk.injEq] at h
    rw [← h.1]; exact hp
  | cons f rest ih =>
    intro props req seen props1 req1 seen1 hp h
    simp only [fieldsLoop] at h
    by_cases ho : isOutputOnly f = true
    · simp only [ho, if_true] at h
      exact ih props req seen props1 req1 seen1 hp h
    · simp only [ho, Bool.false_eq_true, if_false] at h
      cases hb : bf f seen with
      | panic => simp [hb] at h
      | outOfFuel => simp [hb] at h
      | ok r =>
        obtain ⟨s, seen2⟩ := r
        simp only [hb] at h
        have hs := hbf f seen s seen2 hb
        refine ih _ _ _ props1 req1 seen1 ?_ h
        apply plainEntries_mapSet _ _ _ hp
        rw [plain_obj]
        split
        · exact plainEntries_mapSet _ _ _ hs (by simp [Value.plain])
        · exact hs

/-- Every schema the four builder functions return is plain. -/
theorem build_plain (g : Graph) (nc : String → String) : ∀ (fuel : Nat),
    (∀ msg seen s seen1, buildMessageSchema fuel g nc msg seen = .ok (s, seen1) →
      Value.plainEntries s = true) ∧
    (∀ field seen s seen1, buildFieldSchema fuel g nc field seen = .ok (s, seen1) →
      Value.plainEntries s = true) ∧
    (∀ field seen s seen1, buildScalarOrMessageSchema fuel g nc field seen = .ok (s, seen1) →
      Value.plainEntries s = true) ∧
    (∀ field seen s seen1, buildNestedMessageSchema fuel g nc field seen = .ok (s, seen1) →
      Value.plainEntries s = true) := by
  intro fuel
  induction fuel with
  | zero =>
    refine ⟨?_, ?_, ?_, ?_⟩ <;> intro a seen s seen1 h
    · simp [buildMessageSchema] at h
    · simp [buildFieldSchema] at h
    · simp [buildScalarOrMessageSchema] at h
    · simp [buildNestedMessageSchema] at h
  | succ n ih =>
    obtain ⟨ihM, ihF, ihS, ihN⟩ := ih
    refine ⟨?_, ?_, ?_, ?_⟩
    · intro msg seen s seen1 h
      rw [buildMessageSchema] at h
      cases hl : fieldsLoop (fun field seen => buildFieldSchema n g nc field seen) nc
          msg.fields [] [] seen with
      | panic => simp [hl] at h
      | outOfFuel => simp [hl] at h
      | ok r =>
        obtain ⟨props, req, seen2⟩ := r
        simp only [hl, Outcome.ok.injEq, Prod.mk.injEq] at h
        rw [← h.1]
        apply plain_messageResult
        exact fieldsLoop_plain _ nc (fun f sn s1 sn1 hh => ihF f sn s1 sn1 hh) msg.fields [] []
          seen props req seen2 rfl hl
    · intro field seen s seen1 h
      rw [buildFieldSchema] at h
      by_cases hm : field.isMap = true
      · simp only [hm, if_true] at h
        cases he : field.getMessage g with
        | none => simp [he] at h
        | some entry =>
          simp only [he] at h
          cases hv : entry.fields[1]? with
          | none => simp [hv] at h
          | some valueField =>
            simp only [hv] at h
            cases hb : buildFieldSchema n g nc valueField seen with
            | panic => simp [hb] at h
            | outOfFuel => simp [hb] at h
            | ok r =>
              obtain ⟨vs, seen2⟩ := r
              simp only [hb, Outcome.ok.injEq, Prod.mk.injEq] at h
              rw [← h.1]
              simp [Value.plainEntries, Value.plain, ihF valueField seen vs seen2 hb]
      · simp only [hm, Bool.false_eq_true, if_false] at h
        by_cases hl : field.isList = true
        · simp only [hl, if_true] at h
          cases hb : buildScalarOrMessageSchema n g nc field seen with
          | panic => simp [hb] at h
          | outOfFuel => simp [hb] at h
          | ok r =>
            obtain ⟨es, seen2⟩ := r
            simp only [hb, Outcome.ok.injEq, Prod.mk.injEq] at h
            rw [← h.1]
            simp [Value.plainEntries, Value.plain, ihS field seen es seen2 hb]
        · simp only [hl, Bool.false_eq_true, if_false] at h
          exact ihS field seen s seen1 h
    · intro field seen s seen1 h
      rw [buildScalarOrMessageSchema] at h
      cases hk : field.kind <;> simp only [hk, Outcome.ok.injEq, Prod.mk.injEq] at h <;>
        first
        | exact ihN field seen s seen1 h
        | (rw [← h.1]; rfl)
    · intro field seen s seen1 h
      rw [buildNestedMessageSchema] at h
      cases he : field.getMessage g with
      | none => simp [he] at h
      | some message =>
        simp only [he] at h
        cases hw : wellKnownSchema message.fullName with
        | some ws =>
          simp only [hw, Outcome.ok.injEq, Prod.mk.injEq] at h
          rw [← h.1]
          exact plain_wellKnownSchema _ _ hw
        | none =>
          simp only [hw] at h
          by_cases hs : seenGet seen message.fullName = true
          · simp only [hs, if_true, Outcome.ok.injEq, Prod.mk.injEq] at h
            rw [← h.1]
            rfl
          · simp only [hs, Bool.false_eq_true, if_false] at h
            cases hb : buildMessageSchema n g nc message
                (mapSet seen message.fullName true) with
            | panic => simp [hb] at h
            | outOfFuel => simp [hb] at h
            | ok r =>
              obtain ⟨s2, seen2⟩ := r
              simp only [hb, Outcome.ok.injEq, Prod.mk.injEq] at h
              rw [← h.1]
              exact ihM message _ s2 seen2 hb

theorem depth_le_depthEntries (m : List (String × Value)) (k : String) (v : Value)
    (h : (k, v) ∈ m) : v.depth ≤ Value.depthEntries m := by
  induction m with
  | nil => simp at h
  | cons e rest ih =>
    obtain ⟨k1, v1⟩ := e
    simp only [Value.depthEntries]
    rcases List.mem_cons.1 h with e | e
    · simp only [Prod.mk.injEq] at e
      rw [e.2]
      exact le_max_left _ _
    · exact le_trans (ih e) (le_max_right _ _)

theorem exists_mapGet_of_mem_keys {α : Type} (m : List (String × α)) (k : String)
    (h : k ∈ mapKeys m) : ∃ v, mapGet m k = some v := by
  cases hg : mapGet m k with
  | some v => exact ⟨v, rfl⟩
  | none =>
    exfalso
    induction m with
    | nil => simp [mapKeys] at h
    | cons e rest ih =>
      obtain ⟨k1, v1⟩ := e
      simp only [mapGet] at hg
      by_cases hk : k1 = k
      · simp [hk] at hg
      · simp only [hk, if_false] at hg
        simp only [mapKeys, List.map_cons, List.mem_cons] at h
        rcases h with h | h
        · exact hk h.symm
        · exact ih h hg

/-- The key loop returns when every call does. -/
theorem emitKeys_ok (ev : String → Value → Outcome (List String)) (m : Schema) :
    ∀ ks : List String, (∀ k ∈ ks, ∃ lines, ev k (mapIndex m k) = .ok lines) →
      ∃ blocks, emitKeys ev m ks = .ok blocks := by
  intro ks
  induction ks with
  | nil => intro _; exact ⟨[], rfl⟩
  | cons k rest ih =>
    intro h
    obtain ⟨lines, hl⟩ := h k (List.mem_cons_self _ _)
    obtain ⟨blocks, hb⟩ := ih (fun k1 hk1 => h k1 (List.mem_cons_of_mem _ hk1))
    exact ⟨(k, lines) :: blocks, by simp only [emitKeys, hl, hb]⟩

/-- With fuel for its depth a plain value is written by `emitValue` as at
least one line, and the entries of a plain mapping are written by
`emitMapEntries`. -/
theorem emit_plain_ok (p : Verbs) : ∀ (n : Nat),
    (∀ (key : String) (v : Value) (indent : String), v.plain = true → v.depth ≤ n →
      ∃ lines, emitValue n p key v indent = .ok lines ∧ lines ≠ []) ∧
    (∀ (m : Schema) (indent : String), Value.plainEntries m = true →
      Value.depthEntries m + 1 ≤ n → ∃ lines, emitMapEntries n p m indent = .ok lines) := by
  intro n
  induction n with
  | zero =>
    constructor
    · intro key v indent _ hd
      cases v <;> simp [Value.depth] at hd
    · intro m indent _ hd
      omega
  | succ n ih =>
    obtain ⟨ihA, ihB⟩ := ih
    constructor
    · intro key v indent hp hd
      cases v with
      | str s => exact ⟨_, rfl, by simp⟩
      | bool b => exact ⟨_, rfl, by simp⟩
      | strs l => exact ⟨_, rfl, by simp⟩
      | int i => simp [Value.plain] at hp
      | float b => simp [Value.plain] at hp
      | anys l => simp [Value.plain] at hp
      | other t => simp [Value.plain] at hp
      | obj m =>
        rw [plain_obj] at hp
        simp only [Value.depth] at hd
        obtain ⟨lines, hl⟩ := ihB m (indent ++ "\t") hp (by omega)
        exact ⟨[indent ++ p.quote key ++ ": map[string]any\x7b"] ++ lines ++ [indent ++ "\x7d,"],
          by simp only [emitValue, hl, bracket], by simp⟩
    · intro m indent hp hd
      have hall := (plainEntries_iff m).1 hp
      have hk : ∀ k ∈ sortStrings (mapKeys m),
          ∃ lines, (fun k val => emitValue n p k val indent) k (mapIndex m k) = .ok lines := by
        intro k hk
        obtain ⟨v, hv⟩ := exists_mapGet_of_mem_keys m k ((mem_sortStrings _ _).1 hk)
        have hmem := mem_of_mapGet m k v hv
        have hd2 := depth_le_depthEntries m k v hmem
        obtain ⟨lines, hl, _⟩ := ihA k v indent (hall _ hmem) (by omega)
        exact ⟨lines, by simp only [mapIndex, hv, hl]⟩
      obtain ⟨blocks, hb⟩ := emitKeys_ok (fun k val => emitValue n p k val indent) m
        (sortStrings (mapKeys m)) hk
      exact ⟨joinBlocks blocks, by simp only [emitMapEntries, hb]⟩

/-- A plain value is a string, a bool, a list of strings, or a plain
mapping. -/
theorem plain_cases (v : Value) (h : v.plain = true) :
    (∃ s, v = .str s) ∨ (∃ b, v = .bool b) ∨ (∃ l, v = .strs l) ∨
    (∃ m, v = .obj m ∧ Value.plainEntries m = true) := by
  cases v with
  | str s => exact Or.inl ⟨s, rfl⟩
  | bool b => exact Or.inr (Or.inl ⟨b, rfl⟩)
  | strs l => exact Or.inr (Or.inr (Or.inl ⟨l, rfl⟩))
  | obj m => exact Or.inr (Or.inr (Or.inr ⟨m, rfl, by rw [← plain_obj]; exact h⟩))
  | int i => simp [Value.plain] at h
  | float b => simp [Value.plain] at h
  | anys l => simp [Value.plain] at h
  | other t => simp [Value.plain] at h

/-- Claim C20. The builder output is fully emittable. Whenever
`buildMessageSchema` returns a schema, for any descriptor graph and visited
set, the schema is plain: every value in it is a string, a bool, a list of
strings, or a nested string-keyed mapping whose values are such again, at
every nesting level. With fuel for its depth `emitValue` writes at least one
line for such a value, so `emitMapEntries` on the schema returns, and what it
wrote holds, for every key of the schema, a block of at least one line, in
sorted key order; the same holds for every nested mapping. A value of a
dynamic type outside the cases of `emitValue` would have been dropped without
a line. -/
theorem builder_output_emittable (g : Graph) (nc : String → String) (fuel : Nat)
    (msg : Message) (seen : Seen) (s : Schema) (seen1 : Seen) (p : Verbs) (indent : String)
    (h : buildMessageSchema fuel g nc msg seen = .ok (s, seen1)) :
    Value.plainEntries s = true ∧
    (∀ m : Schema, Value.plainEntries m = true → ∀ k v, (k, v) ∈ m →
      (∃ x, v = .str x) ∨ (∃ b, v = .bool b) ∨ (∃ l, v = .strs l) ∨
      (∃ m2, v = .obj m2 ∧ Value.plainEntries m2 = true)) ∧
    (∀ (m : Schema) (ind : String) (n : Nat), Value.plainEntries m = true →
      Value.depthEntries m ≤ n →
      ∃ blocks, entryBlocks n p m ind = .ok blocks ∧
        emitMapEntries (n + 1) p m ind = .ok (joinBlocks blocks) ∧
        blocks.map (fun b => b.1) = sortStrings (mapKeys m) ∧
        (∀ k ∈ mapKeys m, ∃ lines, (k, lines) ∈ blocks) ∧
        (∀ b ∈ blocks, b.2 ≠ [] ∧ emitValue n p b.1 (mapIndex m b.1) ind = .ok b.2)) ∧
    (∀ n : Nat, Value.depthEntries s ≤ n →
      ∃ blocks, emitMapEntries (n + 1) p s indent = .ok (joinBlocks blocks) ∧
        blocks.map (fun b => b.1) = sortStrings (mapKeys s) ∧
        (∀ k ∈ mapKeys s, ∃ lines, (k, lines) ∈ blocks ∧ lines ≠ [])) ∧
    (∀ (n : Nat) (key tag ind : String), emitValue (n + 1) p key (.other tag) ind = .ok []) := by
  have hs : Value.plainEntries s = true := (build_plain g nc fuel).1 msg seen s seen1 h
  have hcases : ∀ m : Schema, Value.plainEntries m = true → ∀ k v, (k, v) ∈ m →
      (∃ x, v = .str x) ∨ (∃ b, v = .bool b) ∨ (∃ l, v = .strs l) ∨
      (∃ m2, v = .obj m2 ∧ Value.plainEntries m2 = true) :=
    fun m hm k v hmem => plain_cases v ((plainEntries_iff m).1 hm (k, v) hmem)
  have hemit : ∀ (m : Schema) (ind : String) (n : Nat), Value.plainEntries m = true →
      Value.depthEntries m ≤ n →
      ∃ blocks, entryBlocks n p m ind = .ok blocks ∧
        emitMapEntries (n + 1) p m ind = .ok (joinBlocks blocks) ∧
        blocks.map (fun b => b.1) = sortStrings (mapKeys m) ∧
        (∀ k ∈ mapKeys m, ∃ lines, (k, lines) ∈ blocks) ∧
        (∀ b ∈ blocks, b.2 ≠ [] ∧ emitValue n p b.1 (mapIndex m b.1) ind = .ok b.2) := by
    intro m ind n hm hd
    have hall := (plainEntries_iff m).1 hm
    have hval : ∀ k ∈ mapKeys m, ∃ lines,
        emitValue n p k (mapIndex m k) ind = .ok lines ∧ lines ≠ [] := by
      intro k hk
      obtain ⟨v, hv⟩ := exists_mapGet_of_mem_keys m k hk
      have hmem := mem_of_mapGet m k v hv
      have hd2 := depth_le_depthEntries m k v hmem
      obtain ⟨lines, hl, hne⟩ := (emit_plain_ok p n).1 k v ind (hall _ hmem) (by omega)
      exact ⟨lines, by simp only [mapIndex, hv, hl], hne⟩
    obtain ⟨blocks, hb⟩ := emitKeys_ok (fun k val => emitValue n p k val ind) m
      (sortStrings (mapKeys m)) (fun k hk => by
        obtain ⟨lines, hl, _⟩ := hval k ((mem_sortStrings _ _).1 hk)
        exact ⟨lines, hl⟩)
    obtain ⟨hkeys, hblocks⟩ := emitKeys_blocks _ m _ blocks hb
    refine ⟨blocks, hb, by simp only [emitMapEntries, hb], hkeys, ?_, ?_⟩
    · intro k hk
      have hk2 : k ∈ blocks.map (fun b => b.1) := by
        rw [hkeys]; exact (mem_sortStrings _ _).2 hk
      obtain ⟨b, hbm, hbk⟩ := List.mem_map.1 hk2
      exact ⟨b.2, by rw [← hbk]; exact hbm⟩
    · intro b hbm
      have hb1 : b.1 ∈ mapKeys m := by
        have : b.1 ∈ blocks.map (fun b => b.1) := List.mem_map.2 ⟨b, hbm, rfl⟩
        rw [hkeys] at this
        exact (mem_sortStrings _ _).1 this
      obtain ⟨lines, hl, hne⟩ := hval b.1 hb1
      have h2 : emitValue n p b.1 (mapIndex m b.1) ind = .ok b.2 := hblocks b hbm
      rw [hl] at h2
      simp only [Outcome.ok.injEq] at h2
      exact ⟨by rw [← h2]; exact hne, hblocks b hbm⟩
  refine ⟨hs, hcases, hemit, ?_, ?_⟩
  · intro n hd
    obtain ⟨blocks, _, he, hkeys, hall, hne⟩ := hemit s indent n hs hd
    refine ⟨blocks, he, hkeys, ?_⟩
    intro k hk
    obtain ⟨lines, hl⟩ := hall k hk
    exact ⟨lines, hl, (hne _ hl).1⟩
  · intro n key tag ind
    simp only [emitValue]

/-- Claim C20 on the account message: the schema of the builder is plain, and
the emitter writes every key of it, at both levels. -/
theorem builder_output_emittable_witness :
    buildMessageSchema 3 [] id accountMessage [] =
      .ok ([("type", .str "object"),
        ("properties", .obj [("id", .obj [("type", .str "string")]),
          ("age", .obj [("type", .str "integer"), ("format", .str "int32")])]),
        ("additionalProperties", .bool false),
        ("required", .strs ["id"])], []) ∧
    Value.plainEntries [("type", .str "object"),
        ("properties", .obj [("id", .obj [("type", .str "string")]),
          ("age", .obj [("type", .str "integer"), ("format", .str "int32")])]),
        ("additionalProperties", .bool false),
        ("required", .strs ["id"])] = true ∧
    emitMapEntries 6 plainVerbs [("type", .str "object"),
        ("properties", .obj [("id", .obj [("type", .str "string")]),
          ("age", .obj [("type", .str "integer"), ("format", .str "int32")])]),
        ("additionalProperties", .bool false),
        ("required", .strs ["id"])] "" =
      .ok ["\"additionalProperties\": false,",
        "\"properties\": map[string]any\x7b",
        "\t\"age\": map[string]any\x7b", "\t\t\"format\": \"int32\",",
        "\t\t\"type\": \"integer\",", "\t\x7d,",
        "\t\"id\": map[string]any\x7b", "\t\t\"type\": \"string\",", "\t\x7d,",
        "\x7d,",
        "\"required\": []string\x7b", "\t\"id\",", "\x7d,",
        "\"type\": \"object\","] :=
  ⟨by decide,
    (builder_output_emittable [] id 3 accountMessage [] _ [] plainVerbs "" (by decide)).1,
    by decide⟩

/-! ## Value Transcoder: round trip (C6) -/

/-! ### Validation -/

end Gateway
